import Mathlib

/-!
# logweaver: the streaming merge loop of `cmain` (cmd/logweaver/main.go)

A shallow embedding of the merge/timestamp-inference engine of `cmain`:
the per-stream `State`, `parseTimestampFromMatch`, the refill loop with its
`lineloop`, the removal of exhausted streams, the reordering with `sort.Slice`
and the emission of `state[0]`.

Library code is taken as data of the environment:
* a compiled regular expression is the function computed by
  `re.FindStringSubmatchIndex`, reduced to what the program reads from it: whether the
  result has at least four entries and, then, the capture span `(matches[2], matches[3])`;
* `time.Parse`, `dateparse.ParseAny`, `Time.Year`, `Time.AddDate(time.Now().Year(), 0, 0)`
  and `filepath.Base` are functions of the environment;
* a `time.Time` is an instant counted from the zero `time.Time` (the value of an unset
  `time.Time`, January 1 of year 1); Go represents instants before it, so it is an `Int`;
* a `bufio.Scanner` delivers the lines of its file up to the first line that does not
  fit its buffer of 64 KiB (`scanTokens`); reads of the file itself do not fail;
* `sort.Slice` is embedded as the insertion sort it runs on at most 12 elements
  (`sortSlice`); its quicksort for longer slices is not embedded.
-/

namespace Logweaver

/-- An instant, relative to the zero value of `time.Time`. -/
abbrev Time := Int

/-- `type Match struct`: the explicit format and the compiled pattern. `re line` is
`some (matches[2], matches[3])` exactly when `re.FindStringSubmatchIndex(line)` has at
least four entries; the first capture group is taken to be part of every match, so
that both indices are positions of the line. -/
structure Match where
  Format : String
  re : String → Option (Nat × Nat)

/-- The fields of `type Flags struct` read by the merge loop. -/
structure Flags where
  UseFullname : Bool
  DontReplaceTimestamp : Bool
  ReplaceTimestampToken : String
  TailStyle : Bool
deriving DecidableEq, Repr

/-- What the merge loop reads from its surroundings: library functions, the rule list
`conf.Match`, the flags and the cutoff `startAfter`. -/
structure Env where
  timeParse : String → String → Option Time
  parseAny : String → Option Time
  year : Time → Int
  addYears : Time → Time
  base : String → String
  conf : List Match
  opts : Flags
  startAfter : Time

/-- The `*bufio.Scanner` of a stream: `ptr` is the identity of the scanner (one per
input file), `rest` the lines the following calls of `Scan` deliver, in order; once it
is empty `Scan` returns false. -/
structure Scanner where
  ptr : Nat
  rest : List String
deriving DecidableEq, Repr

/-- `type State struct` (the cosmetic `color` left out). -/
structure State where
  filename : String
  basename : String
  scanner : Scanner
  line : String
  eof : Bool
  haveLine : Bool
  reIdx : Int
  newEnough : Bool
  tm : Time
  continuation : Bool
  warnedSkipping : Bool
deriving DecidableEq, Repr

/-- One input of the merge: an opened log file, as its name and the lines of its
(decompressed) content: the text between the line feeds, taken not to end in a carriage
return (which `bufio.ScanLines` would strip). -/
structure LogFile where
  name : String
  lines : List String
deriving DecidableEq, Repr

/-- What the loop writes: the skip warning of a stream, or the log line of the head
stream `s` (its rendered `s.tm`, the source label `logFileArg` and `s.line`). The state
is the one of the moment of printing. The separator and header lines of the output
styles (lines 666-683), which hold no log line, and the colouring are left out. -/
inductive Output where
  | skipWarning (s : State)
  | logLine (s : State) (logFileArg : String)
deriving DecidableEq, Repr

/-- Go's `s[a:b]` on a line. -/
def slice (s : String) (a b : Nat) : String :=
  ⟨(s.data.drop a).take (b - a)⟩

/-- The redaction `line[0:a] + token + line[b:]`. -/
def redact (s : String) (a b : Nat) (token : String) : String :=
  ⟨s.data.take a ++ token.data ++ s.data.drop b⟩

/-- The closure `parseTimestampFromMatch` of `cmain`; `none` is a non-nil `err`. -/
def parseTimestampFromMatch (env : Env) (m : Match) (ln : String) : Option Time :=
  if m.Format ≠ "" then
    match env.timeParse m.Format ln with
    | some t => some (if env.year t = 0 then env.addYears t else t)
    | none => env.parseAny ln
  else env.parseAny ln

/-- Lines 531-535 and 586-591, common to both branches: the pattern of rule `m` is run
on the line and the captured text is parsed. `some (a, b, tm)` is the case
`len(matches) >= 4` with `err == nil`: the capture span and the timestamp. -/
def resolve (env : Env) (m : Match) (line : String) : Option (Nat × Nat × Time) :=
  match m.re line with
  | none => none
  | some (a, b) =>
    match parseTimestampFromMatch env m (slice line a b) with
    | none => none
    | some tm => some (a, b, tm)

/-- Lines 570-572 and 597-599: the capture span is replaced by the token, unless
replacement is switched off. -/
def replaceSpan (env : Env) (s : State) (a b : Nat) : State :=
  if env.opts.DontReplaceTimestamp then s
  else { s with line := redact s.line a b env.opts.ReplaceTimestampToken }

/-- Lines 537-572: an established stream takes a timestamp that is after the cutoff. -/
def acceptBound (env : Env) (s : State) (a b : Nat) (tm : Time) : State :=
  let s1 := { s with newEnough := true }
  let s2 := if tm < s1.tm then { s1 with continuation := true } else { s1 with tm := tm }
  replaceSpan env s2 a b

/-- Lines 531-575: the bound rule applied to the freshly read line of `s`. The result is
the new state and `foundTimestampInLine`. An index outside `conf.Match` does not occur
(the program would stop); it is given the outcome of a rule that does not match. -/
def matchBound (env : Env) (s : State) : State × Bool :=
  match env.conf[s.reIdx.toNat]? with
  | none => (s, false)
  | some m =>
    match resolve env m s.line with
    | none => (s, false)
    | some (a, b, tm) =>
      if env.startAfter < tm then (acceptBound env s a b tm, true) else (s, false)

/-- Lines 530-582: the branch `reIdx != -1` for the stream at index `si`. -/
def established (env : Env) (si : Nat) (s : State) : State × Bool :=
  let r := matchBound env s
  if si = 0 ∧ r.2 = false ∧ r.1.newEnough = true then
    ({ r.1 with continuation := true }, true)
  else r

/-- Lines 592-600: a stream without rule is bound to rule `mi`; the timestamp is taken
when it is after the cutoff. -/
def bindRule (env : Env) (s : State) (mi : Nat) (a b : Nat) (tm : Time) : State × Bool :=
  let s1 := { s with reIdx := (mi : Int) }
  if env.startAfter < tm then
    (replaceSpan env { s1 with newEnough := true, tm := tm } a b, true)
  else (s1, false)

/-- Lines 585-604: the loop over `conf.Match` of a stream without established rule;
`mi` is the index of the head of the remaining rule list. -/
def tryRules (env : Env) (s : State) : Nat → List Match → State × Bool
  | _, [] => (s, false)
  | mi, m :: ms =>
    match resolve env m s.line with
    | none => tryRules env s (mi + 1) ms
    | some (a, b, tm) => bindRule env s mi a b tm

/-- Lines 529-605: classification of the line just read into `s.line`. -/
def classify (env : Env) (si : Nat) (s : State) : State × Bool :=
  if s.reIdx ≠ -1 then established env si s else tryRules env s 0 env.conf

/-- Lines 522-527: `Scan` returned the line `l` and left `rest` in the scanner. -/
def readLine (s : State) (l : String) (rest : List String) : State :=
  { s with eof := false, scanner := { s.scanner with rest := rest }, line := l,
           haveLine := true }

/-- Lines 521-628, the `lineloop` of the stream at index `si`, run on the lines `rest`
its scanner still delivers: the refilled state and what was printed. `Scan` returns
false, and `eof` is set, when no line is left to deliver: at the end of the file or at
a line that does not fit the buffer of the scanner (`scanTokens`). -/
def lineloop (env : Env) (si : Nat) : State → List String → State × List Output
  | s, [] => ({ s with eof := true, scanner := { s.scanner with rest := [] } }, [])
  | s, l :: rest =>
    let r := classify env si (readLine s l rest)
    if r.2 = true then (r.1, [])
    else if r.1.reIdx = -1 ∧ r.1.warnedSkipping = false then
      let q := lineloop env si { r.1 with warnedSkipping := true } rest
      (q.1, Output.skipWarning r.1 :: q.2)
    else lineloop env si r.1 rest

/-- Lines 516-629: the body of the refill loop for the stream at index `si`. -/
def refill (env : Env) (si : Nat) (s : State) : State × List Output :=
  if s.haveLine = false ∧ s.eof = false then lineloop env si s s.scanner.rest else (s, [])

/-- Lines 515-630: the refill loop over `state`, from index `si` on. -/
def refillAll (env : Env) : Nat → List State → List State × List Output
  | _, [] => ([], [])
  | si, s :: ss =>
    let r := refill env si s
    let q := refillAll env (si + 1) ss
    (r.1 :: q.1, r.2 ++ q.2)

/-- Lines 632-641: the streams that reached the end of their file are removed. -/
def dropEof (state : List State) : List State :=
  state.filter (fun s => !s.eof)

/-- The comparator handed to `sort.Slice` (line 651). -/
def less (a b : State) : Bool :=
  a.continuation || decide (a.tm < b.tm)

/-- The inner loop of Go's `insertionSortLessFunc`: `x` stands at index `j`, `left` is
`data[a:j]` read from index `j-1` down; while `Less(j, j-1)` the two are swapped. The
result is the new `data[a:j+1]`, again read from the right. -/
def sinkLeft (lt : State → State → Bool) (x : State) : List State → List State
  | [] => [x]
  | y :: left => if lt x y then y :: sinkLeft lt x left else x :: y :: left

/-- The reordering of `sort.Slice` (line 650), as Go's `insertionSortLessFunc`: that is
what `sort.Slice` runs on a slice of at most 12 elements. On a longer slice `sort.Slice`
runs a pattern-defeating quicksort, which is not embedded: with more than 12 active
streams this function stands for it only where the comparator orders the streams (a
cutoff not before the zero instant, where at most the head is continuation-flagged), and
there up to the order of streams with equal stored timestamps. -/
def sortSlice (lt : State → State → Bool) (data : List State) : List State :=
  (data.foldl (fun left x => sinkLeft lt x left) []).reverse

/-- Lines 657-665: the source label of the emitted line. -/
def logFileArg (env : Env) (lastFile : String) (h : State) : String :=
  if h.continuation = true ∨ lastFile = h.filename then ""
  else if env.opts.UseFullname then h.filename else h.basename

/-- Lines 709-710: the emitted stream gives up its line and its continuation flag. -/
def consume (h : State) : State :=
  { h with haveLine := false, continuation := false }

/-- Lines 514-711: the merge loop, started with `lastFile` and `state`; each unit of
fuel pays for one pass of the outer `for`. `none` is a run that needs more fuel. -/
def mergeLoop (env : Env) : Nat → String → List State → Option (List Output)
  | 0, _, _ => none
  | fuel + 1, lastFile, state =>
    let r := refillAll env 0 state
    match sortSlice less (dropEof r.1) with
    | [] => some r.2
    | h :: t =>
      (mergeLoop env fuel h.filename (consume h :: t)).map
        (fun out => r.2 ++ Output.logLine h (logFileArg env lastFile h) :: out)

/-- The constant `bufio.MaxScanTokenSize`: the largest buffer of a scanner made by
`bufio.NewScanner` (line 413; the program never calls `Buffer`). -/
def maxScanTokenSize : Nat := 64 * 1024

/-- The lines a `bufio.Scanner` with the split function `ScanLines` delivers on a
content of the given lines: a line is delivered while it fits the buffer together with
the line feed behind it. At the first line that does not, `Scan` returns false
(`ErrTooLong`) and goes on returning false; the program never reads `Err` and takes
this for the end of the file (lines 522-524). -/
def scanTokens (lines : List String) : List String :=
  lines.takeWhile (fun l => decide (l.utf8ByteSize < maxScanTokenSize))

/-- Lines 410-415: the initial state of the stream of the `i`-th file. -/
def initState (env : Env) (i : Nat) (f : LogFile) : State :=
  { filename := f.name, basename := env.base f.name, scanner := ⟨i, scanTokens f.lines⟩,
    line := "",
    eof := false, haveLine := false, reIdx := -1, newEnough := false, tm := 0,
    continuation := false, warnedSkipping := false }

/-- Lines 381-416: the initial `state`, one entry per file, from index `i` on. -/
def initStates (env : Env) : Nat → List LogFile → List State
  | _, [] => []
  | i, f :: fs => initState env i f :: initStates env (i + 1) fs

/-- Lines 205-207: tail-F style implies that timestamps are not replaced. -/
def effective (env : Env) : Env :=
  if env.opts.TailStyle then
    { env with opts := { env.opts with DontReplaceTimestamp := true } }
  else env

/-- The lines a stream can still give to the output: those its scanner holds and the
one it has buffered. -/
def pending (s : State) : Nat :=
  if s.eof then 0 else s.scanner.rest.length + (if s.haveLine then 1 else 0)

/-- Fuel for the merge loop started on `state`: one pass for each line that can still
be emitted, and one for the pass that finds `state` empty. -/
def fuelFor (state : List State) : Nat :=
  (state.map pending).sum + 1

/-- The merge of `cmain` on the opened files: everything the loop prints, in order. -/
def cmain (env : Env) (files : List LogFile) : Option (List Output) :=
  mergeLoop (effective env) (fuelFor (initStates (effective env) 0 files)) ""
    (initStates (effective env) 0 files)

/-- The values of `lastFile` and `state` at the top of the outer `for`, over the run of
the merge loop on `files`: the initial ones, and those left by a pass that emitted a
line. -/
inductive Reach (env : Env) (files : List LogFile) : String → List State → Prop where
  | init : Reach env files "" (initStates env 0 files)
  | pass {lastFile : String} {state : List State} {h : State} {t : List State} :
      Reach env files lastFile state →
      sortSlice less (dropEof (refillAll env 0 state).1) = h :: t →
      Reach env files h.filename (consume h :: t)

/-- The emitted head states of an output, in order of emission. -/
def emitted : List Output → List State
  | [] => []
  | Output.logLine s _ :: out => s :: emitted out
  | Output.skipWarning _ :: out => emitted out

/-- The streams warned about, in order. -/
def warned : List Output → List State
  | [] => []
  | Output.skipWarning s :: out => s :: warned out
  | Output.logLine _ _ :: out => warned out

/-! ## Predicates of the proofs -/

/-- What a classification never touches: the scanner, the end-of-file and buffer flags,
the names and the warning flag. -/
def SameFrame (s r : State) : Prop :=
  r.scanner = s.scanner ∧ r.eof = s.eof ∧ r.haveLine = s.haveLine ∧
  r.filename = s.filename ∧ r.basename = s.basename ∧ r.warnedSkipping = s.warnedSkipping

/-- The order the comparator of `cmain` guarantees between `u` and a stream `v` placed
after it, whatever the flags of the other streams: an unflagged `u` is not later than
`v`, and strictly earlier when `v` is flagged. -/
def Ordered (u v : State) : Prop :=
  u.continuation = false → u.tm ≤ v.tm ∧ (v.continuation = true → u.tm < v.tm)

/-- A stream that has not taken a timestamp yet: the cutoff flag is not set, the stored
timestamp is the zero instant and the continuation flag is not set. -/
def Unset (s : State) : Prop :=
  s.newEnough = false ∧ s.tm = 0 ∧ s.continuation = false

/-- A stream before its first refill. -/
def Fresh (s : State) : Prop :=
  s.haveLine = false ∧ s.eof = false ∧ Unset s ∧ s.reIdx = -1

/-- A stream whose line was emitted by the pass before: it has to be refilled, its rule
is established and its cutoff flag is set. -/
def Emitted (s : State) : Prop :=
  s.haveLine = false ∧ s.eof = false ∧ s.newEnough = true ∧ s.reIdx ≠ -1 ∧
  s.continuation = false

/-- A stream that holds a line with a stored timestamp not earlier than `lb`. -/
def Ready (lb : Time) (s : State) : Prop :=
  s.haveLine = true ∧ s.eof = false ∧ s.newEnough = true ∧ s.reIdx ≠ -1 ∧ lb ≤ s.tm

/-- A stream that waits behind the head: it holds a line that is not a continuation. -/
def Waiting (lb : Time) (s : State) : Prop :=
  Ready lb s ∧ s.continuation = false

/-- The shape of `state` at the top of the outer `for` when the cutoff is not before the
zero instant: either no stream has been refilled yet, or the head is the stream emitted
last, `lb` is its stored timestamp, and all others wait with later or equal ones. -/
def Top (env : Env) (lb : Time) (st : List State) : Prop :=
  ((∀ s ∈ st, Fresh s) ∧ lb ≤ env.startAfter) ∨
  (∃ h t, st = h :: t ∧ Emitted h ∧ h.tm = lb ∧ ∀ s ∈ t, Waiting lb s)

/-- A stream that is not exhausted, has an established rule and a set cutoff flag. -/
def Live (s : State) : Prop :=
  s.eof = false ∧ s.newEnough = true ∧ s.reIdx ≠ -1

/-- The shape of `state` at the top of the outer `for`, for every cutoff: either no
stream has been refilled yet, or the head is the stream emitted last and all others
hold a line. -/
def Shape (st : List State) : Prop :=
  (∀ s ∈ st, Fresh s) ∨
  (∃ h t, st = h :: t ∧ Live h ∧ h.haveLine = false ∧ ∀ s ∈ t, Live s ∧ s.haveLine = true)

/-- The rule a stream is bound to, if any. -/
def bound (s : State) : Option Nat :=
  if s.reIdx = -1 then none else some s.reIdx.toNat

/-- The scanners of `state` are pairwise distinct. -/
def PtrNodup (st : List State) : Prop :=
  (st.map (fun s => s.scanner.ptr)).Nodup

/-- The state of a stream with the warning flag set to `w`. -/
def setWarned (w : Bool) (s : State) : State :=
  { s with warnedSkipping := w }

/-- The state of a stream without its warning flag: what the output shows of it. -/
def erase (s : State) : State :=
  setWarned false s

/-- The state of a stream whose lines `L` all match rule `i` with the timestamps `ts`,
under the cutoff `c`: it has not read a line yet, or it has reached the end of its
file, or it is bound to rule `i` and its stored timestamp is that of the line it read
last, which is after the cutoff and not a continuation. -/
def OnTrack (c : Time) (ts : String → Time) (L : List String) (i : Nat) (s : State) :
    Prop :=
  (s.haveLine = false ∧ s.reIdx = -1 ∧ s.newEnough = false ∧ s.continuation = false ∧
    s.tm = 0 ∧ s.scanner.rest = L) ∨
  s.eof = true ∨
  (s.reIdx = (i : Int) ∧ s.newEnough = true ∧ s.continuation = false ∧ c < s.tm ∧
    ∃ pre l, L = pre ++ l :: s.scanner.rest ∧ s.tm = ts l)

/-! ## The discarded leading lines, in the words of the specification -/

/-- The first rule of the configured list, in order, whose pattern matches the line and
whose captured text resolves to a timestamp: its index and the timestamp. -/
def firstResolving (env : Env) (line : String) : Option (Nat × Time) :=
  (env.conf.enum.find? (fun p => (resolve env p.2 line).isSome)).bind (fun p =>
    (resolve env p.2 line).map (fun r => (p.1, r.2.2)))

/-- The timestamp a line has for a stream: under the bound rule `some i` of an
established stream, under the first resolving rule for a stream without rule. -/
def stampOf (env : Env) (rule : Option Nat) (line : String) : Option (Nat × Time) :=
  match rule with
  | none => firstResolving env line
  | some i => (env.conf[i]?.bind (fun m => resolve env m line)).map (fun r => (i, r.2.2))

/-- The number of leading lines a stream discards: the lines before its first line
with a timestamp after the cutoff. A line that resolves to a timestamp not after the
cutoff is discarded too, and binds the rule of a stream that had none. -/
def leadingDiscarded (env : Env) : Option Nat → List String → Nat
  | _, [] => 0
  | rule, l :: rest =>
    match stampOf env rule l with
    | none => 1 + leadingDiscarded env rule rest
    | some (i, tm) =>
      if env.startAfter < tm then 0 else 1 + leadingDiscarded env (some i) rest

/-- The unparseable leading lines of a stream: the lines before the first one that
some rule resolves. -/
def unparseableLeading (env : Env) (lines : List String) : Nat :=
  (lines.takeWhile (fun l => (firstResolving env l).isNone)).length

/-! ## Rule matching, in the words of the specification -/

/-- Parsing with the explicit format of a rule, if it has one; a result without year
is taken to fall in the current year. -/
def explicitParse (env : Env) (m : Match) (text : String) : Option Time :=
  if m.Format = "" then none
  else (env.timeParse m.Format text).map (fun t => if env.year t = 0 then env.addYears t else t)

/-- Resolving a captured text: the explicit format if present and, if that is absent or
fails, generic inference on the same text. -/
def resolveText (env : Env) (m : Match) (text : String) : Option Time :=
  match explicitParse env m text with
  | some t => some t
  | none => env.parseAny text

/-- A rule matches a line: its pattern matches with a capture span and the captured
text resolves to a timestamp. -/
def Resolves (env : Env) (m : Match) (line : String) : Prop :=
  ∃ a b tm, m.re line = some (a, b) ∧ resolveText env m (slice line a b) = some tm

/-- The index `i` is the least index of the configured rule list whose rule matches the
line. -/
def LeastResolving (env : Env) (line : String) (i : Nat) : Prop :=
  (∃ m, env.conf[i]? = some m ∧ Resolves env m line) ∧
  ∀ j < i, ∀ m, env.conf[j]? = some m → ¬ Resolves env m line

/-- Every line of `lines` fits the buffer of the scanner together with its line feed,
so that the scanner delivers all of them. -/
def FitsBuffer (lines : List String) : Prop :=
  ∀ l ∈ lines, l.utf8ByteSize < maxScanTokenSize

/-- The number of lines of all files. -/
def totalLines (files : List LogFile) : Nat :=
  (files.map (fun f => f.lines.length)).sum

/-- The lines a stream at the top of the loop will still give to the output. -/
def yield (env : Env) (s : State) : Nat :=
  if s.eof then 0
  else if s.haveLine then 1 + s.scanner.rest.length
  else if s.newEnough then s.scanner.rest.length
  else s.scanner.rest.length - leadingDiscarded env (bound s) s.scanner.rest

/-- Every line of `lines` matches rule `i` of the rule list, which is `m`: the rule
resolves the line to the timestamp `ts` gives it, no earlier rule resolves the first
line, and the timestamps do not decrease along `lines`. -/
def RuleFor (env : Env) (ts : String → Time) (lines : List String) (i : Nat) (m : Match) :
    Prop :=
  env.conf[i]? = some m ∧
  (∀ l ∈ lines, ∃ a b, resolve env m l = some (a, b, ts l)) ∧
  (∀ l0, lines.head? = some l0 →
    ∀ j < i, ∀ m', env.conf[j]? = some m' → resolve env m' l0 = none) ∧
  lines.Pairwise (fun a b => ts a ≤ ts b)

/-- Every line of a stream matches the rule of the stream, and the timestamps do not
decrease within the stream. -/
def Stamped (env : Env) (ts : String → Time) (lines : List String) : Prop :=
  ∃ i m, RuleFor env ts lines i m

/-- The lines of a stream whose timestamp is after the cutoff. -/
def afterCutoff (env : Env) (ts : String → Time) (lines : List String) : List String :=
  lines.filter (fun l => decide (env.startAfter < ts l))

/-- The number of lines of all files whose timestamp is after the cutoff. -/
def linesAfterCutoff (env : Env) (ts : String → Time) (files : List LogFile) : Nat :=
  (files.map (fun f => (afterCutoff env ts f.lines).length)).sum

/-! ## A concrete environment

One rule without explicit format, whose pattern captures a leading
`YYYY-MM-DD hh:mm:ss`, and a generic parser that reads such a text as the number of
seconds since the zero instant (proleptic Gregorian calendar, UTC). -/

/-- The number written by the decimal digits at the positions `ps` of `cs`. -/
def digitsAt (cs : List Char) (ps : List Nat) : Option Nat :=
  ps.foldl (fun acc p =>
    match acc, cs.get? p with
    | some n, some c => if c.isDigit then some (10 * n + (c.toNat - 48)) else none
    | _, _ => none) (some 0)

/-- The character `c` stands at position `p` of `cs`. -/
def charAt (cs : List Char) (p : Nat) (c : Char) : Bool :=
  cs.get? p == some c

/-- The text starts with `dddd-dd-dd dd:dd:dd`. -/
def stampShape (cs : List Char) : Bool :=
  (digitsAt cs [0, 1, 2, 3, 5, 6, 8, 9, 11, 12, 14, 15, 17, 18]).isSome
    && charAt cs 4 '-' && charAt cs 7 '-' && charAt cs 10 ' '
    && charAt cs 13 ':' && charAt cs 16 ':'

/-- The pattern `^(\d{4}-\d\d-\d\d \d\d:\d\d:\d\d)`: the capture span is `[0, 19)`. -/
def stampRe (line : String) : Option (Nat × Nat) :=
  if stampShape line.data then some (0, 19) else none

/-- Seconds from the zero instant (0001-01-01 00:00:00) to the given civil time; the
year counts from March, shifted by 400 years to stay in the naturals. -/
def civil (y m d hh mm ss : Nat) : Time :=
  let yy := y + 400 - (if m ≤ 2 then 1 else 0)
  let mp := (m + 9) % 12
  let days : Int := (365 * yy + yy / 4 - yy / 100 + yy / 400 + (153 * mp + 2) / 5 + d - 1 : Nat)
  (days - 146403) * 86400 + (hh * 3600 + mm * 60 + ss : Nat)

/-- Generic inference on a text of the form `YYYY-MM-DD hh:mm:ss`. -/
def stampParse (ln : String) : Option Time :=
  if stampShape ln.data ∧ ln.data.length = 19 then
    match digitsAt ln.data [0, 1, 2, 3], digitsAt ln.data [5, 6], digitsAt ln.data [8, 9],
      digitsAt ln.data [11, 12], digitsAt ln.data [14, 15], digitsAt ln.data [17, 18] with
    | some y, some m, some d, some hh, some mm, some ss => some (civil y m d hh mm ss)
    | _, _, _, _, _, _ => none
  else none

/-- The rule of the concrete environment. -/
def stampRule : Match := { Format := "", re := stampRe }

/-- The concrete environment with the given cutoff; the replacement token is the
default `<T>`. -/
def demoEnv (cutoff : Time) : Env :=
  { timeParse := fun _ _ => none, parseAny := stampParse, year := fun _ => 1,
    addYears := fun t => t, base := fun n => n, conf := [stampRule],
    opts := { UseFullname := false, DontReplaceTimestamp := false,
              ReplaceTimestampToken := "<T>", TailStyle := false },
    startAfter := cutoff }

/-- Stream A emits at 10:00:00 and 10:00:05, stream B at 10:00:02. -/
def scenarioAB : List LogFile :=
  [⟨"A", ["2020-10-05 10:00:00 a1", "2020-10-05 10:00:05 a2"]⟩,
   ⟨"B", ["2020-10-05 10:00:02 b1"]⟩]

/-- The timestamp the rule of the concrete environment gives a line; the zero instant
for a line it does not match. -/
def lineStamp (l : String) : Time :=
  match resolve (demoEnv 0) stampRule l with
  | some r => r.2.2
  | none => 0

/-- What is compared of an emitted line: the file and the stored timestamp. -/
def stamps (out : List Output) : List (String × Time) :=
  (emitted out).map (fun s => (s.filename, s.tm))

/-- Stream A of `scenarioAB` after its first refill: it holds its line of 10:00:00. -/
def headA : State :=
  (refill (demoEnv 0) 0 (initState (demoEnv 0) 0 ⟨"A",
    ["2020-10-05 10:00:00 a1", "2020-10-05 10:00:05 a2"]⟩)).1

/-- Stream B of `scenarioAB` after its first refill: it holds its line of 10:00:02. -/
def headB : State :=
  (refill (demoEnv 0) 1 (initState (demoEnv 0) 1 ⟨"B", ["2020-10-05 10:00:02 b1"]⟩)).1

/-- What is read of an emitted line: the file, the text and the continuation flag. -/
def view (out : List Output) : List (String × String × Bool) :=
  (emitted out).map (fun s => (s.filename, s.line, s.continuation))

/-- Stream A has a line at 12:00:00 followed by a line with the timestamp 11:59:00;
stream B has a line at 12:00:00. -/
def regressionAB : List LogFile :=
  [⟨"A", ["2020-10-05 12:00:00 a1", "2020-10-05 11:59:00 a2"]⟩,
   ⟨"B", ["2020-10-05 12:00:00 b1"]⟩]

/-- Stream A of `regressionAB` after its first refill. -/
def regressionHead : State :=
  (refill (demoEnv 0) 0 (initState (demoEnv 0) 0 ⟨"A",
    ["2020-10-05 12:00:00 a1", "2020-10-05 11:59:00 a2"]⟩)).1

/-- Stream B of `regressionAB` after its first refill. -/
def regressionTail : List State :=
  [(refill (demoEnv 0) 1 (initState (demoEnv 0) 1 ⟨"B", ["2020-10-05 12:00:00 b1"]⟩)).1]

/-- A cutoff before the zero instant: March 1 of year 0. -/
def yearZeroCutoff : Time := civil 0 3 1 0 0 0

/-- Logs of the year 0. The first line of stream C is not after `yearZeroCutoff`; its
second line is, and is earlier than the zero instant. Stream S has a line at 12:00:00
followed by a line with the timestamp 11:59:00. -/
def yearZeroCS : List LogFile :=
  [⟨"C", ["0000-02-01 00:00:00 c0", "0000-05-01 00:00:00 c1"]⟩,
   ⟨"S", ["0000-06-01 12:00:00 s1", "0000-06-01 11:59:00 s2"]⟩]

/-- The cutoff 2020-10-05 12:00:00. -/
def noonCutoff : Time := civil 2020 10 5 12 0 0

/-- One stream with a line before `noonCutoff` and a line after it. -/
def oldNew : List LogFile :=
  [⟨"A", ["2020-10-05 10:00:00 old", "2020-10-05 13:00:00 new"]⟩]

/-- One stream with a single line, before `noonCutoff`. -/
def oldOnly : List LogFile :=
  [⟨"A", ["2020-10-05 10:00:00 old"]⟩]

/-- One stream with a line after `noonCutoff` followed by a line before it. -/
def newOld : List LogFile :=
  [⟨"A", ["2020-10-05 13:00:00 new", "2020-10-05 10:00:00 old"]⟩]

/-- Stream A of `newOld` after its first refill under `noonCutoff`. -/
def newHead : State :=
  (refill (demoEnv noonCutoff) 0 (initState (demoEnv noonCutoff) 0 ⟨"A",
    ["2020-10-05 13:00:00 new", "2020-10-05 10:00:00 old"]⟩)).1

/-- One stream of the year 0 with a single line, after `yearZeroCutoff`. -/
def yearZeroLine : LogFile :=
  ⟨"C", ["0000-05-01 00:00:00 c1"]⟩

/-- A rule whose pattern `^\[(.*?)\]` captures the text between leading brackets, with
the explicit format `2006-01-02`. -/
def bracketRule : Match :=
  { Format := "2006-01-02",
    re := fun line =>
      match line.data with
      | '[' :: cs => if ']' ∈ cs then some (1, 1 + (cs.takeWhile (fun c => c != ']')).length)
                     else none
      | _ => none }

/-- An environment with two rules, `bracketRule` before `stampRule`; the explicit format
`2006-01-02` parses no text here, generic inference reads `YYYY-MM-DD hh:mm:ss`. -/
def twoRuleEnv : Env :=
  { demoEnv 0 with conf := [bracketRule, stampRule] }

/-- A stream without rule that has just read a line with a bracketed timestamp. -/
def bracketLine : State :=
  readLine (initState twoRuleEnv 0 ⟨"A", []⟩) "[2020-10-05 10:00:00] started" []

/-- A line that carries its timestamp twice. -/
def twiceStamped : List LogFile :=
  [⟨"A", ["2020-10-05 10:00:00 again 2020-10-05 10:00:00"]⟩]

/-- The three leading lines of the scenario, which no rule resolves. -/
def threeJunk : List String :=
  ["junk 1", "junk 2", "junk 3"]

/-! ## The source labels of the output -/

/-- The log lines of an output, in order of emission: the emitted head state and the
source label `logFileArg` computed for it (lines 657-665), which line 697 hands to the
output line. -/
def logLines : List Output → List (State × String)
  | [] => []
  | Output.logLine s arg :: out => (s, arg) :: logLines out
  | Output.skipWarning _ :: out => logLines out

/-- The value of `lastFile` after the emissions `pre` of a loop started with `start`:
the file of the emission before (line 708). -/
def lastEmitted (start : String) (pre : List (State × String)) : String :=
  match pre.getLast? with
  | some p => p.1.filename
  | none => start

/-- Lines 660-664: the name a stream is shown with. -/
def sourceName (env : Env) (s : State) : String :=
  if env.opts.UseFullname then s.filename else s.basename

/-- The source label in the words of the specification: shown when the source changed
since the emission before or the line is not a continuation, empty otherwise. -/
def specLabel (env : Env) (lastFile : String) (s : State) : String :=
  if lastFile ≠ s.filename ∨ s.continuation = false then sourceName env s else ""

/-- The labels the words of the specification give to the log lines of an output. -/
def specLabels (env : Env) : String → List (State × String) → List String
  | _, [] => []
  | lastFile, p :: rest => specLabel env lastFile p.1 :: specLabels env p.1.filename rest

/-- What is read of the label of an emitted line: the file, the continuation flag and
the label. -/
def labels (out : List Output) : List (String × Bool × String) :=
  (logLines out).map (fun p => (p.1.filename, p.1.continuation, p.2))

/-- One stream with two lines. -/
def sameSource : List LogFile :=
  [⟨"A", ["2020-10-05 10:00:00 a1", "2020-10-05 10:00:05 a2"]⟩]

/-! ## Lines that the bound rule does not match -/

/-- Stream A has a line at 12:00:00 followed by a line without timestamp; stream B has
a line at 12:00:00. -/
def unmatchedAB : List LogFile :=
  [⟨"A", ["2020-10-05 12:00:00 a1", "  at line 7 of a2"]⟩,
   ⟨"B", ["2020-10-05 12:00:00 b1"]⟩]

/-- Stream A of `unmatchedAB` after its first refill. -/
def unmatchedHead : State :=
  (refill (demoEnv 0) 0 (initState (demoEnv 0) 0 ⟨"A",
    ["2020-10-05 12:00:00 a1", "  at line 7 of a2"]⟩)).1

/-- Stream B of `unmatchedAB` after its first refill. -/
def unmatchedTail : List State :=
  [(refill (demoEnv 0) 1 (initState (demoEnv 0) 1 ⟨"B", ["2020-10-05 12:00:00 b1"]⟩)).1]

/-- Logs of the year 0. The first line of stream C is not after `yearZeroCutoff`; its
second line is, and is earlier than the zero instant. Stream S has a line at 12:00:00
followed by a line without timestamp. -/
def yearZeroUnmatched : List LogFile :=
  [⟨"C", ["0000-02-01 00:00:00 c0", "0000-05-01 00:00:00 c1"]⟩,
   ⟨"S", ["0000-06-01 12:00:00 s1", "  at line 7 of s2"]⟩]

/-! ## The lines a refill reads -/

/-- The `lineloop` of lines 521-628 once more, keeping a record: for every line it
reads, the state of the stream after the line was processed and the value of
`foundTimestampInLine` at line 607. -/
def lineloopTrace (env : Env) (si : Nat) : State → List String → List (State × Bool)
  | _, [] => []
  | s, l :: rest =>
    let r := classify env si (readLine s l rest)
    if r.2 = true then [r]
    else if r.1.reIdx = -1 ∧ r.1.warnedSkipping = false then
      r :: lineloopTrace env si { r.1 with warnedSkipping := true } rest
    else r :: lineloopTrace env si r.1 rest

/-- The record of the refill of the stream at index `si` (lines 516-629). -/
def refillTrace (env : Env) (si : Nat) (s : State) : List (State × Bool) :=
  if s.haveLine = false ∧ s.eof = false then lineloopTrace env si s s.scanner.rest else []

/-- Stream A has a line after `noonCutoff`; stream B has two lines before it and one
after it. -/
def cutoffAB : List LogFile :=
  [⟨"A", ["2020-10-05 13:00:00 a1"]⟩,
   ⟨"B", ["2020-10-05 10:00:00 old1", "2020-10-05 11:00:00 old2",
          "2020-10-05 13:00:00 new"]⟩]

/-- Stream B of `cutoffAB` before its first refill. -/
def cutoffB : State :=
  initState (demoEnv noonCutoff) 1
    ⟨"B", ["2020-10-05 10:00:00 old1", "2020-10-05 11:00:00 old2",
           "2020-10-05 13:00:00 new"]⟩

/-- Stream B of `cutoffAB` after its first line was processed. -/
def cutoffSkipped : State × Bool :=
  classify (demoEnv noonCutoff) 1 (readLine cutoffB "2020-10-05 10:00:00 old1"
    ["2020-10-05 11:00:00 old2", "2020-10-05 13:00:00 new"])

/-- What is read of a record: the line, the rule index and `foundTimestampInLine`. -/
def traceView (tr : List (State × Bool)) : List (String × Int × Bool) :=
  tr.map (fun r => (r.1.line, r.1.reIdx, r.2))

/-! ## The continuation flags at the reordering -/

/-- What is compared at the reordering: the file, the continuation flag and the stored
timestamp of each active stream. -/
def flags (state : List State) : List (String × Bool × Time) :=
  state.map (fun s => (s.filename, s.continuation, s.tm))

/-- Stream A of `regressionAB` after its line was emitted and its next line read. -/
def regressionFlagged : State :=
  (refill (demoEnv 0) 0 (consume regressionHead)).1

/-! ## A line longer than the buffer of the scanner -/

/-- A line of 70000 characters `x`: it does not fit the buffer of 64 KiB. -/
def overlong : String := String.mk (List.replicate 70000 'x')

/-- One stream whose first line is `overlong` and matches no rule, and whose second line
has a timestamp. -/
def overlongJunk : List LogFile :=
  [⟨"A", [overlong, "2020-10-05 10:00:00 a2"]⟩]

/-- One stream with a line of 10:00:00, the line `overlong` and a line of 10:00:02. -/
def overlongMiddle : List LogFile :=
  [⟨"A", ["2020-10-05 10:00:00 a1", overlong, "2020-10-05 10:00:02 a3"]⟩]

/-! ## More than 12 active streams -/

/-- Twenty logs of the year 0. Streams `s01`, `s05` and `s16` have one line, of March
2, 3 and 4; each other stream has a line of February 1, not after `yearZeroCutoff`, and
a line of March 10. -/
def twentyStreams : List LogFile :=
  [⟨"s00", ["0000-02-01 00:00:00 s00 old", "0000-03-10 00:00:00 s00"]⟩,
   ⟨"s01", ["0000-03-02 00:00:00 s01"]⟩,
   ⟨"s02", ["0000-02-01 00:00:00 s02 old", "0000-03-10 00:00:00 s02"]⟩,
   ⟨"s03", ["0000-02-01 00:00:00 s03 old", "0000-03-10 00:00:00 s03"]⟩,
   ⟨"s04", ["0000-02-01 00:00:00 s04 old", "0000-03-10 00:00:00 s04"]⟩,
   ⟨"s05", ["0000-03-03 00:00:00 s05"]⟩,
   ⟨"s06", ["0000-02-01 00:00:00 s06 old", "0000-03-10 00:00:00 s06"]⟩,
   ⟨"s07", ["0000-02-01 00:00:00 s07 old", "0000-03-10 00:00:00 s07"]⟩,
   ⟨"s08", ["0000-02-01 00:00:00 s08 old", "0000-03-10 00:00:00 s08"]⟩,
   ⟨"s09", ["0000-02-01 00:00:00 s09 old", "0000-03-10 00:00:00 s09"]⟩,
   ⟨"s10", ["0000-02-01 00:00:00 s10 old", "0000-03-10 00:00:00 s10"]⟩,
   ⟨"s11", ["0000-02-01 00:00:00 s11 old", "0000-03-10 00:00:00 s11"]⟩,
   ⟨"s12", ["0000-02-01 00:00:00 s12 old", "0000-03-10 00:00:00 s12"]⟩,
   ⟨"s13", ["0000-02-01 00:00:00 s13 old", "0000-03-10 00:00:00 s13"]⟩,
   ⟨"s14", ["0000-02-01 00:00:00 s14 old", "0000-03-10 00:00:00 s14"]⟩,
   ⟨"s15", ["0000-02-01 00:00:00 s15 old", "0000-03-10 00:00:00 s15"]⟩,
   ⟨"s16", ["0000-03-04 00:00:00 s16"]⟩,
   ⟨"s17", ["0000-02-01 00:00:00 s17 old", "0000-03-10 00:00:00 s17"]⟩,
   ⟨"s18", ["0000-02-01 00:00:00 s18 old", "0000-03-10 00:00:00 s18"]⟩,
   ⟨"s19", ["0000-02-01 00:00:00 s19 old", "0000-03-10 00:00:00 s19"]⟩]

/-! ## The effective flags -/

theorem effective_startAfter (env : Env) : (effective env).startAfter = env.startAfter := by
  unfold effective
  split <;> rfl

theorem resolve_effective (env : Env) (m : Match) (line : String) :
    resolve (effective env) m line = resolve env m line := by
  unfold effective
  split <;> rfl

theorem effective_conf (env : Env) : (effective env).conf = env.conf := by
  unfold effective
  split <;> rfl

/-! ## The lines the scanner delivers -/

theorem scanTokens_of_fits (lines : List String) (h : FitsBuffer lines) :
    scanTokens lines = lines := by
  unfold scanTokens
  rw [List.takeWhile_eq_self_iff]
  intro l hl
  exact decide_eq_true (h l hl)

theorem scanTokens_cons_fits (l : String) (lines : List String)
    (h : l.utf8ByteSize < maxScanTokenSize) :
    scanTokens (l :: lines) = l :: scanTokens lines := by
  unfold scanTokens
  rw [List.takeWhile_cons, if_pos (decide_eq_true h)]

theorem scanTokens_cons_long (l : String) (lines : List String)
    (h : ¬ l.utf8ByteSize < maxScanTokenSize) : scanTokens (l :: lines) = [] := by
  unfold scanTokens
  rw [List.takeWhile_cons, if_neg]
  intro hh
  exact h (of_decide_eq_true hh)

theorem scanTokens_append_fits (junk lines : List String) (h : FitsBuffer junk) :
    scanTokens (junk ++ lines) = junk ++ scanTokens lines := by
  induction junk with
  | nil => rfl
  | cons l junk ih =>
    rw [List.cons_append, scanTokens_cons_fits l _ (h l (List.mem_cons_self _ _)),
      ih (fun x hx => h x (List.mem_cons_of_mem _ hx))]
    rfl

/-- The delivered lines are the first lines of the content. -/
theorem scanTokens_prefix (lines : List String) : ∃ post, lines = scanTokens lines ++ post :=
  ⟨lines.dropWhile (fun l => decide (l.utf8ByteSize < maxScanTokenSize)),
    (List.takeWhile_append_dropWhile _ lines).symm⟩

theorem byteSize_ge_length (cs : List Char) : cs.length ≤ String.utf8ByteSize.go cs := by
  induction cs with
  | nil => exact Nat.le_refl _
  | cons c cs ih =>
    have hpos := Char.utf8Size_pos c
    show cs.length + 1 ≤ String.utf8ByteSize.go cs + c.utf8Size
    omega

/-! ## Frame properties of the classification -/

theorem sameFrame_refl (s : State) : SameFrame s s := ⟨rfl, rfl, rfl, rfl, rfl, rfl⟩

theorem replaceSpan_frame (env : Env) (s : State) (a b : Nat) :
    SameFrame s (replaceSpan env s a b) := by
  unfold replaceSpan
  split <;> exact ⟨rfl, rfl, rfl, rfl, rfl, rfl⟩

theorem acceptBound_frame (env : Env) (s : State) (a b : Nat) (tm : Time) :
    SameFrame s (acceptBound env s a b tm) := by
  unfold acceptBound replaceSpan
  dsimp only
  split <;> split <;> exact ⟨rfl, rfl, rfl, rfl, rfl, rfl⟩

theorem matchBound_frame (env : Env) (s : State) : SameFrame s (matchBound env s).1 := by
  unfold matchBound
  split
  · exact sameFrame_refl s
  · split
    · exact sameFrame_refl s
    · split
      · exact acceptBound_frame env s _ _ _
      · exact sameFrame_refl s

theorem established_frame (env : Env) (si : Nat) (s : State) :
    SameFrame s (established env si s).1 := by
  unfold established
  have h := matchBound_frame env s
  dsimp only
  split
  · exact h
  · exact h

theorem bindRule_frame (env : Env) (s : State) (mi a b : Nat) (tm : Time) :
    SameFrame s (bindRule env s mi a b tm).1 := by
  unfold bindRule replaceSpan
  dsimp only
  split
  · split <;> exact ⟨rfl, rfl, rfl, rfl, rfl, rfl⟩
  · exact ⟨rfl, rfl, rfl, rfl, rfl, rfl⟩

theorem tryRules_frame (env : Env) (s : State) (ms : List Match) :
    ∀ mi, SameFrame s (tryRules env s mi ms).1 := by
  induction ms with
  | nil => intro mi; exact sameFrame_refl s
  | cons m ms ih =>
    intro mi
    unfold tryRules
    split
    · exact ih _
    · exact bindRule_frame env s mi _ _ _

theorem classify_frame (env : Env) (si : Nat) (s : State) :
    SameFrame s (classify env si s).1 := by
  unfold classify
  split
  · exact established_frame env si s
  · exact tryRules_frame env s env.conf 0

theorem lineloop_frame (env : Env) (si : Nat) (rest : List String) :
    ∀ s, (lineloop env si s rest).1.scanner.ptr = s.scanner.ptr ∧
      (lineloop env si s rest).1.filename = s.filename ∧
      (lineloop env si s rest).1.basename = s.basename := by
  induction rest with
  | nil => intro s; exact ⟨rfl, rfl, rfl⟩
  | cons l rest ih =>
    intro s
    unfold lineloop
    dsimp only
    obtain ⟨h1, -, -, h4, h5, -⟩ := classify_frame env si (readLine s l rest)
    split
    · rw [h1, h4, h5]; exact ⟨rfl, rfl, rfl⟩
    · split
      · have := ih { (classify env si (readLine s l rest)).1 with warnedSkipping := true }
        dsimp only at this ⊢
        rw [this.1, this.2.1, this.2.2, h1, h4, h5]; exact ⟨rfl, rfl, rfl⟩
      · have := ih (classify env si (readLine s l rest)).1
        rw [this.1, this.2.1, this.2.2, h1, h4, h5]; exact ⟨rfl, rfl, rfl⟩

/-- A `lineloop` ends at the end of the file or with a buffered line, and then it has
taken at least one line from the scanner. -/
theorem lineloop_pending (env : Env) (si : Nat) (rest : List String) :
    ∀ s, (lineloop env si s rest).1.eof = true ∨
      ((lineloop env si s rest).1.eof = false ∧ (lineloop env si s rest).1.haveLine = true ∧
        (lineloop env si s rest).1.scanner.rest.length < rest.length) := by
  induction rest with
  | nil => intro s; exact Or.inl rfl
  | cons l rest ih =>
    intro s
    unfold lineloop
    dsimp only
    obtain ⟨h1, h2, h3, -, -, -⟩ := classify_frame env si (readLine s l rest)
    split
    · right
      rw [h1, h2, h3]
      exact ⟨rfl, rfl, Nat.lt_succ_self _⟩
    · split
      · rcases ih { (classify env si (readLine s l rest)).1 with warnedSkipping := true }
          with h | ⟨ha, hb, hc⟩
        · exact Or.inl h
        · exact Or.inr ⟨ha, hb, Nat.lt_succ_of_lt hc⟩
      · rcases ih (classify env si (readLine s l rest)).1 with h | ⟨ha, hb, hc⟩
        · exact Or.inl h
        · exact Or.inr ⟨ha, hb, Nat.lt_succ_of_lt hc⟩

theorem refill_ptr (env : Env) (si : Nat) (s : State) :
    (refill env si s).1.scanner.ptr = s.scanner.ptr := by
  unfold refill
  split
  · exact (lineloop_frame env si _ s).1
  · rfl

theorem refill_filename (env : Env) (si : Nat) (s : State) :
    (refill env si s).1.filename = s.filename := by
  unfold refill
  split
  · exact (lineloop_frame env si _ s).2.1
  · rfl

/-- After its refill a stream is at the end of its file or holds a line. -/
theorem refill_ready (env : Env) (si : Nat) (s : State) :
    (refill env si s).1.eof = true ∨ (refill env si s).1.haveLine = true := by
  unfold refill
  split
  · rcases lineloop_pending env si s.scanner.rest s with h | ⟨-, h, -⟩
    · exact Or.inl h
    · exact Or.inr h
  · rename_i h
    dsimp only
    cases h1 : s.haveLine
    · cases h2 : s.eof
      · exact absurd ⟨h1, h2⟩ h
      · exact Or.inl rfl
    · exact Or.inr rfl

theorem refill_pending_le (env : Env) (si : Nat) (s : State) :
    pending (refill env si s).1 ≤ pending s := by
  unfold refill
  split
  · rename_i h
    rcases lineloop_pending env si s.scanner.rest s with h1 | ⟨h1, h2, h3⟩
    · simp [pending, h1]
    · simp only [pending, h1, h2, h.1, h.2]
      simp
      omega
  · exact Nat.le_refl _

theorem refill_of_haveLine (env : Env) (si : Nat) (s : State) (h : s.haveLine = true) :
    refill env si s = (s, []) := by
  unfold refill
  simp [h]

/-! ## The reordering -/

theorem sinkLeft_perm (lt : State → State → Bool) (x : State) (left : List State) :
    (sinkLeft lt x left).Perm (x :: left) := by
  induction left with
  | nil => exact List.Perm.refl _
  | cons y left ih =>
    unfold sinkLeft
    split
    · exact (List.Perm.cons y ih).trans (List.Perm.swap x y left)
    · exact List.Perm.refl _

theorem foldl_sinkLeft_perm (lt : State → State → Bool) (data : List State) :
    ∀ left, (data.foldl (fun left x => sinkLeft lt x left) left).Perm (data.reverse ++ left) := by
  induction data with
  | nil => intro left; exact List.Perm.refl _
  | cons x data ih =>
    intro left
    rw [List.foldl_cons, List.reverse_cons, List.append_assoc]
    exact (ih _).trans (List.Perm.append_left _ (sinkLeft_perm lt x left))

/-- The reordering permutes `state`. -/
theorem sortSlice_perm (lt : State → State → Bool) (data : List State) :
    (sortSlice lt data).Perm data := by
  unfold sortSlice
  have h := foldl_sinkLeft_perm lt data []
  rw [List.append_nil] at h
  exact (List.reverse_perm _).trans (h.trans (List.reverse_perm _))

theorem sinkLeft_ordered (x : State) (left : List State)
    (h : left.Pairwise (fun v u => Ordered u v)) :
    (sinkLeft less x left).Pairwise (fun v u => Ordered u v) := by
  induction left with
  | nil => exact List.pairwise_singleton _ _
  | cons y left ih =>
    rw [List.pairwise_cons] at h
    unfold sinkLeft
    split
    · rename_i hlt
      rw [List.pairwise_cons]
      refine ⟨?_, ih h.2⟩
      intro z hz
      rcases List.mem_cons.mp ((sinkLeft_perm less x left).mem_iff.mp hz) with rfl | hz
      · intro hz0
        simp only [less, hz0, Bool.false_or, decide_eq_true_eq] at hlt
        exact ⟨le_of_lt hlt, fun _ => hlt⟩
      · exact h.1 z hz
    · rename_i hlt
      simp only [less, Bool.or_eq_true, decide_eq_true_eq, not_or, Bool.not_eq_true,
        not_lt] at hlt
      rw [List.pairwise_cons]
      refine ⟨?_, List.pairwise_cons.mpr h⟩
      intro z hz
      rw [List.mem_cons] at hz
      have hx : x.continuation = true → False := by rw [hlt.1]; exact Bool.noConfusion
      rcases hz with rfl | hz
      · intro _
        exact ⟨hlt.2, fun hc => absurd hc (by rw [hlt.1]; exact Bool.noConfusion)⟩
      · intro hz0
        have hzy := h.1 z hz hz0
        refine ⟨?_, fun hc => absurd hc (by rw [hlt.1]; exact Bool.noConfusion)⟩
        exact le_trans hzy.1 hlt.2

theorem foldl_sinkLeft_ordered (data : List State) :
    ∀ left, left.Pairwise (fun v u => Ordered u v) →
      (data.foldl (fun left x => sinkLeft less x left) left).Pairwise
        (fun v u => Ordered u v) := by
  induction data with
  | nil => intro left h; exact h
  | cons x data ih =>
    intro left h
    rw [List.foldl_cons]
    exact ih _ (sinkLeft_ordered x left h)

/-- After the reordering every stream stands in the order `Ordered` to those behind it,
also when the comparator is not an ordering (some streams are continuation-flagged). -/
theorem sortSlice_ordered (data : List State) :
    (sortSlice less data).Pairwise Ordered := by
  unfold sortSlice
  rw [List.pairwise_reverse]
  exact foldl_sinkLeft_ordered data [] List.Pairwise.nil

/-! ## The refill loop and the fuel of the merge loop -/

theorem refillAll_of_buffered (env : Env) (t : List State)
    (h : ∀ s ∈ t, s.haveLine = true) : ∀ si, refillAll env si t = (t, []) := by
  induction t with
  | nil => intro si; rfl
  | cons s t ih =>
    intro si
    unfold refillAll
    rw [refill_of_haveLine env si s (h s (List.mem_cons_self _ _)),
      ih (fun x hx => h x (List.mem_cons_of_mem _ hx))]
    rfl

theorem refillAll_pending_le (env : Env) (st : List State) :
    ∀ si, ((refillAll env si st).1.map pending).sum ≤ (st.map pending).sum := by
  induction st with
  | nil => intro si; exact Nat.le_refl _
  | cons s st ih =>
    intro si
    unfold refillAll
    simp only [List.map_cons, List.sum_cons]
    exact Nat.add_le_add (refill_pending_le env si s) (ih _)

theorem refillAll_ready (env : Env) (st : List State) :
    ∀ si, ∀ s ∈ (refillAll env si st).1, s.eof = true ∨ s.haveLine = true := by
  induction st with
  | nil => intro si s hs; exact absurd hs (List.not_mem_nil _)
  | cons x st ih =>
    intro si s hs
    unfold refillAll at hs
    rcases List.mem_cons.mp hs with rfl | hs
    · exact refill_ready env si x
    · exact ih _ s hs

theorem dropEof_pending_le (l : List State) :
    ((dropEof l).map pending).sum ≤ (l.map pending).sum := by
  induction l with
  | nil => exact Nat.le_refl _
  | cons s l ih =>
    unfold dropEof at ih ⊢
    rw [List.filter_cons]
    split
    · simp only [List.map_cons, List.sum_cons]
      exact Nat.add_le_add_left ih _
    · simp only [List.map_cons, List.sum_cons]
      exact le_trans ih (Nat.le_add_left _ _)

theorem mem_dropEof {l : List State} {s : State} :
    s ∈ dropEof l ↔ s ∈ l ∧ s.eof = false := by
  unfold dropEof
  rw [List.mem_filter]
  simp

theorem consume_pending (h : State) (h1 : h.eof = false) (h2 : h.haveLine = true) :
    pending (consume h) + 1 = pending h := by
  simp [pending, consume, h1, h2]

/-- One pass of the loop that emits the head `h` leaves less to emit. -/
theorem pass_pending_lt (env : Env) (st : List State) (h : State) (t : List State)
    (hs : sortSlice less (dropEof (refillAll env 0 st).1) = h :: t) :
    ((consume h :: t).map pending).sum < (st.map pending).sum := by
  have hp := sortSlice_perm less (dropEof (refillAll env 0 st).1)
  rw [hs] at hp
  have hmem : h ∈ dropEof (refillAll env 0 st).1 := hp.mem_iff.mp (List.mem_cons_self _ _)
  obtain ⟨hm1, hm2⟩ := mem_dropEof.mp hmem
  have hl : h.haveLine = true := by
    rcases refillAll_ready env st 0 h hm1 with h3 | h3
    · rw [hm2] at h3; exact absurd h3 Bool.noConfusion
    · exact h3
  have e1 : ((h :: t).map pending).sum = ((dropEof (refillAll env 0 st).1).map pending).sum :=
    (hp.map pending).sum_eq
  have e2 := dropEof_pending_le (refillAll env 0 st).1
  have e3 := refillAll_pending_le env st 0
  have e4 := consume_pending h hm2 hl
  simp only [List.map_cons, List.sum_cons] at e1 ⊢
  omega

/-- With the fuel `fuelFor state` (or more) the merge loop runs to its end. -/
theorem mergeLoop_returns (env : Env) :
    ∀ fuel lastFile st, (st.map pending).sum < fuel →
      ∃ out, mergeLoop env fuel lastFile st = some out := by
  intro fuel
  induction fuel with
  | zero => intro lastFile st h; exact absurd h (Nat.not_lt_zero _)
  | succ fuel ih =>
    intro lastFile st h
    unfold mergeLoop
    dsimp only
    split
    · exact ⟨_, rfl⟩
    · rename_i hd t hs
      have hlt := pass_pending_lt env st hd t hs
      obtain ⟨out, ho⟩ := ih hd.filename (consume hd :: t) (by omega)
      rw [ho]
      exact ⟨_, rfl⟩

/-- More fuel does not change the result of a run that came to its end. -/
theorem mergeLoop_fuel_mono (env : Env) :
    ∀ fuel lastFile st out, mergeLoop env fuel lastFile st = some out →
      ∀ k, mergeLoop env (fuel + k) lastFile st = some out := by
  intro fuel
  induction fuel with
  | zero => intro lastFile st out h; exact absurd h (by simp [mergeLoop])
  | succ fuel ih =>
    intro lastFile st out h k
    rw [Nat.add_right_comm]
    unfold mergeLoop at h ⊢
    dsimp only at h ⊢
    split
    · rename_i hs
      rw [hs] at h
      exact h
    · rename_i hd t hs
      rw [hs] at h
      dsimp only at h
      cases hr : mergeLoop env fuel hd.filename (consume hd :: t) with
      | none => rw [hr] at h; exact absurd h (by simp)
      | some o =>
        rw [hr] at h
        rw [ih _ _ _ hr k]
        exact h

theorem cmain_returns (env : Env) (files : List LogFile) :
    ∃ out, cmain env files = some out :=
  mergeLoop_returns _ _ _ _ (Nat.lt_succ_self _)

/-! ## Classification of a line -/

theorem replaceSpan_fields (env : Env) (s : State) (a b : Nat) :
    (replaceSpan env s a b).reIdx = s.reIdx ∧ (replaceSpan env s a b).newEnough = s.newEnough ∧
    (replaceSpan env s a b).tm = s.tm ∧ (replaceSpan env s a b).continuation = s.continuation := by
  unfold replaceSpan
  split <;> exact ⟨rfl, rfl, rfl, rfl⟩

/-- The outcomes of the bound rule: no timestamp and an unchanged state, or a timestamp
after the cutoff that is taken by `acceptBound`. -/
theorem matchBound_cases (env : Env) (s : State) :
    matchBound env s = (s, false) ∨
    ∃ m a b tm, env.conf[s.reIdx.toNat]? = some m ∧ resolve env m s.line = some (a, b, tm) ∧
      env.startAfter < tm ∧ matchBound env s = (acceptBound env s a b tm, true) := by
  unfold matchBound
  split
  · exact Or.inl rfl
  · rename_i m hm
    split
    · exact Or.inl rfl
    · rename_i a b tm hr
      split
      · rename_i hlt
        exact Or.inr ⟨m, a, b, tm, hm, hr, hlt, rfl⟩
      · exact Or.inl rfl

theorem acceptBound_fields (env : Env) (s : State) (a b : Nat) (tm : Time) :
    (acceptBound env s a b tm).reIdx = s.reIdx ∧ (acceptBound env s a b tm).newEnough = true ∧
    ((tm < s.tm ∧ (acceptBound env s a b tm).continuation = true ∧
        (acceptBound env s a b tm).tm = s.tm) ∨
     (s.tm ≤ tm ∧ (acceptBound env s a b tm).continuation = s.continuation ∧
        (acceptBound env s a b tm).tm = tm)) := by
  unfold acceptBound
  dsimp only
  obtain ⟨h1, h2, h3, h4⟩ := replaceSpan_fields env
    (if tm < s.tm then { s with newEnough := true, continuation := true }
      else { s with newEnough := true, tm := tm }) a b
  rw [h1, h2, h3, h4]
  split
  · rename_i h
    exact ⟨rfl, rfl, Or.inl ⟨h, rfl, rfl⟩⟩
  · rename_i h
    exact ⟨rfl, rfl, Or.inr ⟨not_lt.mp h, rfl, rfl⟩⟩

/-- The outcomes of the rule list on a stream without rule: nothing resolves and the
state is unchanged, or the first resolving rule is bound. -/
theorem tryRules_cases (env : Env) (s : State) (ms : List Match) :
    ∀ mi, tryRules env s mi ms = (s, false) ∨
      ∃ k a b tm, tryRules env s mi ms = bindRule env s (mi + k) a b tm := by
  induction ms with
  | nil => intro mi; exact Or.inl rfl
  | cons m ms ih =>
    intro mi
    unfold tryRules
    split
    · rcases ih (mi + 1) with h | ⟨k, a, b, tm, h⟩
      · exact Or.inl h
      · exact Or.inr ⟨k + 1, a, b, tm, by rw [h]; congr 1; omega⟩
    · rename_i a b tm _
      exact Or.inr ⟨0, a, b, tm, rfl⟩

theorem bindRule_fields (env : Env) (s : State) (mi a b : Nat) (tm : Time) :
    (bindRule env s mi a b tm).1.reIdx = (mi : Int) ∧
    (bindRule env s mi a b tm).1.continuation = s.continuation ∧
    (((bindRule env s mi a b tm).2 = true ∧ env.startAfter < tm ∧
        (bindRule env s mi a b tm).1.newEnough = true ∧ (bindRule env s mi a b tm).1.tm = tm) ∨
     ((bindRule env s mi a b tm).2 = false ∧ tm ≤ env.startAfter ∧
        (bindRule env s mi a b tm).1.newEnough = s.newEnough ∧
        (bindRule env s mi a b tm).1.tm = s.tm)) := by
  unfold bindRule
  dsimp only
  split
  · rename_i h
    obtain ⟨h1, h2, h3, h4⟩ := replaceSpan_fields env
      { s with reIdx := (mi : Int), newEnough := true, tm := tm } a b
    dsimp only
    rw [h1, h2, h3, h4]
    exact ⟨rfl, rfl, Or.inl ⟨rfl, h, rfl, rfl⟩⟩
  · rename_i h
    exact ⟨rfl, rfl, Or.inr ⟨rfl, not_lt.mp h, rfl, rfl⟩⟩

theorem natCast_ne_neg_one (n : Nat) : (n : Int) ≠ -1 := by omega

theorem established_of_found (env : Env) (si : Nat) (s x : State)
    (h : matchBound env s = (x, true)) : established env si s = (x, true) := by
  unfold established
  rw [h]
  simp

theorem established_of_miss_head (env : Env) (s : State)
    (h : matchBound env s = (s, false)) (hn : s.newEnough = true) :
    established env 0 s = ({ s with continuation := true }, true) := by
  unfold established
  rw [h]
  simp [hn]

theorem established_of_miss (env : Env) (si : Nat) (s : State)
    (h : matchBound env s = (s, false)) (hn : ¬ (si = 0 ∧ s.newEnough = true)) :
    established env si s = (s, false) := by
  unfold established
  rw [h]
  dsimp only
  rw [if_neg]
  intro hh
  exact hn ⟨hh.1, hh.2.2⟩

/-- With a cutoff not before the zero instant, a stream that has not taken a timestamp
either takes one after the cutoff (as an advance) or stays as it is. -/
theorem classify_unset (env : Env) (hc : 0 ≤ env.startAfter) (si : Nat) (s : State)
    (hs : Unset s) :
    ((classify env si s).2 = true ∧ (classify env si s).1.newEnough = true ∧
      (classify env si s).1.reIdx ≠ -1 ∧ (classify env si s).1.continuation = false ∧
      env.startAfter < (classify env si s).1.tm) ∨
    ((classify env si s).2 = false ∧ Unset (classify env si s).1) := by
  obtain ⟨h1, h2, h3⟩ := hs
  unfold classify
  split
  · rename_i hidx
    rcases matchBound_cases env s with h | ⟨m, a, b, tm, -, -, hlt, h⟩
    · rw [established_of_miss env si s h (fun hh => by rw [h1] at hh; exact Bool.noConfusion hh.2)]
      exact Or.inr ⟨rfl, h1, h2, h3⟩
    · rw [established_of_found env si s _ h]
      obtain ⟨e1, e2, e3⟩ := acceptBound_fields env s a b tm
      left
      refine ⟨rfl, e2, ?_, ?_, ?_⟩
      · rw [e1]; exact hidx
      · rcases e3 with ⟨hlt2, -, -⟩ | ⟨-, e4, -⟩
        · rw [h2] at hlt2; exact absurd (lt_trans (lt_of_le_of_lt hc hlt) hlt2) (lt_irrefl _)
        · rw [e4]; exact h3
      · rcases e3 with ⟨hlt2, -, -⟩ | ⟨-, -, e5⟩
        · rw [h2] at hlt2; exact absurd (lt_trans (lt_of_le_of_lt hc hlt) hlt2) (lt_irrefl _)
        · rw [e5]; exact hlt
  · rcases tryRules_cases env s env.conf 0 with h | ⟨k, a, b, tm, h⟩
    · rw [h]; exact Or.inr ⟨rfl, h1, h2, h3⟩
    · rw [h]
      obtain ⟨e1, e2, e3⟩ := bindRule_fields env s (0 + k) a b tm
      rcases e3 with ⟨f1, f2, f3, f4⟩ | ⟨f1, f2, f3, f4⟩
      · left
        refine ⟨f1, f3, ?_, ?_, ?_⟩
        · rw [e1]; exact natCast_ne_neg_one _
        · rw [e2]; exact h3
        · rw [f4]; exact f2
      · right
        refine ⟨f1, ?_, ?_, ?_⟩
        · rw [f3]; exact h1
        · rw [f4]; exact h2
        · rw [e2]; exact h3

/-- The stream at index 0 with an established rule and a set cutoff flag always finds
its line: as an advance with a timestamp not earlier than the stored one, or as a
continuation that keeps the stored timestamp. -/
theorem classify_head (env : Env) (s : State) (hidx : s.reIdx ≠ -1)
    (hn : s.newEnough = true) (hcont : s.continuation = false) :
    (classify env 0 s).2 = true ∧ (classify env 0 s).1.newEnough = true ∧
    (classify env 0 s).1.reIdx = s.reIdx ∧
    (((classify env 0 s).1.continuation = true ∧ (classify env 0 s).1.tm = s.tm) ∨
     ((classify env 0 s).1.continuation = false ∧ s.tm ≤ (classify env 0 s).1.tm)) := by
  unfold classify
  rw [if_pos hidx]
  rcases matchBound_cases env s with h | ⟨m, a, b, tm, -, -, hlt, h⟩
  · rw [established_of_miss_head env s h hn]
    exact ⟨rfl, hn, rfl, Or.inl ⟨rfl, rfl⟩⟩
  · rw [established_of_found env 0 s _ h]
    obtain ⟨e1, e2, e3⟩ := acceptBound_fields env s a b tm
    refine ⟨rfl, e2, e1, ?_⟩
    rcases e3 with ⟨-, e4, e5⟩ | ⟨hle, e4, e5⟩
    · exact Or.inl ⟨e4, e5⟩
    · refine Or.inr ⟨?_, ?_⟩
      · rw [e4]; exact hcont
      · rw [e5]; exact hle

/-! ## The shape of `state` over the run, for a cutoff not before the zero instant -/

theorem emitted_append (a b : List Output) : emitted (a ++ b) = emitted a ++ emitted b := by
  induction a with
  | nil => rfl
  | cons x a ih =>
    cases x with
    | skipWarning s => simpa [emitted] using ih
    | logLine s l => simpa [emitted] using ih

theorem warned_append (a b : List Output) : warned (a ++ b) = warned a ++ warned b := by
  induction a with
  | nil => rfl
  | cons x a ih =>
    cases x with
    | skipWarning s => simpa [warned] using ih
    | logLine s l => simpa [warned] using ih

/-- A `lineloop` prints warnings only. -/
theorem lineloop_emitted (env : Env) (si : Nat) (rest : List String) :
    ∀ s, emitted (lineloop env si s rest).2 = [] := by
  induction rest with
  | nil => intro s; rfl
  | cons l rest ih =>
    intro s
    unfold lineloop
    dsimp only
    split
    · rfl
    · split
      · exact ih _
      · exact ih _

theorem refillAll_emitted (env : Env) (st : List State) :
    ∀ si, emitted (refillAll env si st).2 = [] := by
  induction st with
  | nil => intro si; rfl
  | cons s st ih =>
    intro si
    unfold refillAll
    dsimp only
    rw [emitted_append, ih]
    unfold refill
    split
    · rw [lineloop_emitted]; rfl
    · rfl

theorem refillAll_mem (env : Env) (st : List State) :
    ∀ si, ∀ r ∈ (refillAll env si st).1, ∃ s ∈ st, ∃ i, r = (refill env i s).1 := by
  induction st with
  | nil => intro si r hr; exact absurd hr (List.not_mem_nil _)
  | cons x st ih =>
    intro si r hr
    unfold refillAll at hr
    rcases List.mem_cons.mp hr with rfl | hr
    · exact ⟨x, List.mem_cons_self _ _, si, rfl⟩
    · obtain ⟨s, hs, i, hi⟩ := ih _ r hr
      exact ⟨s, List.mem_cons_of_mem _ hs, i, hi⟩

theorem readLine_unset (s : State) (l : String) (rest : List String) (h : Unset s) :
    Unset (readLine s l rest) := h

/-- With a cutoff not before the zero instant, the first refill of a stream ends at the
end of the file or with an advance to a timestamp after the cutoff. -/
theorem lineloop_unset (env : Env) (hc : 0 ≤ env.startAfter) (si : Nat)
    (rest : List String) :
    ∀ s, Unset s → (lineloop env si s rest).1.eof = true ∨
      Waiting env.startAfter (lineloop env si s rest).1 := by
  induction rest with
  | nil => intro s _; exact Or.inl rfl
  | cons l rest ih =>
    intro s hs
    unfold lineloop
    dsimp only
    obtain ⟨-, f2, f3, -, -, -⟩ := classify_frame env si (readLine s l rest)
    rcases classify_unset env hc si (readLine s l rest) (readLine_unset s l rest hs) with
      ⟨h1, h2, h3, h4, h5⟩ | ⟨h1, h2⟩
    · rw [if_pos h1]
      exact Or.inr ⟨⟨f3, f2, h2, h3, le_of_lt h5⟩, h4⟩
    · rw [if_neg (by rw [h1]; exact Bool.noConfusion)]
      split
      · exact ih _ h2
      · exact ih _ h2

/-- The refill of the stream emitted last: the end of its file, or its next line, as
an advance or as a continuation with the stored timestamp kept. -/
theorem refill_emitted (env : Env) (h : State) (he : Emitted h) :
    (refill env 0 h).1.eof = true ∨
      (Ready h.tm (refill env 0 h).1 ∧
        ((refill env 0 h).1.continuation = true → (refill env 0 h).1.tm = h.tm)) := by
  obtain ⟨e1, e2, e3, e4, e5⟩ := he
  unfold refill
  rw [if_pos ⟨e1, e2⟩]
  cases hrest : h.scanner.rest with
  | nil => exact Or.inl rfl
  | cons l rest =>
    right
    unfold lineloop
    dsimp only
    obtain ⟨-, f2, f3, -, -, -⟩ := classify_frame env 0 (readLine h l rest)
    obtain ⟨c1, c2, c3, c4⟩ := classify_head env (readLine h l rest) e4 e3 e5
    rw [if_pos c1]
    refine ⟨⟨f3, f2, c2, by rw [c3]; exact e4, ?_⟩, ?_⟩
    · rcases c4 with ⟨-, c5⟩ | ⟨-, c5⟩
      · rw [c5]; exact le_refl _
      · exact c5
    · intro hcont
      rcases c4 with ⟨-, c5⟩ | ⟨c5, -⟩
      · exact c5
      · dsimp only at hcont; rw [c5] at hcont; exact absurd hcont Bool.noConfusion

theorem dropEof_of_active (l : List State) (h : ∀ s ∈ l, s.eof = false) : dropEof l = l := by
  unfold dropEof
  rw [List.filter_eq_self]
  intro s hs
  rw [h s hs]
  rfl

theorem dropEof_cons_eof (s : State) (l : List State) (h : s.eof = true) :
    dropEof (s :: l) = dropEof l := by
  unfold dropEof
  rw [List.filter_cons, h]
  rfl

theorem dropEof_cons_active (s : State) (l : List State) (h : s.eof = false) :
    dropEof (s :: l) = s :: dropEof l := by
  unfold dropEof
  rw [List.filter_cons, h]
  rfl

/-- After the refill loop and the removal of exhausted streams: every stream holds a
line not earlier than `lb`, only the first can be continuation-flagged, and then its
stored timestamp is `lb`. -/
theorem top_refill (env : Env) (hc : 0 ≤ env.startAfter) (lb : Time) (st : List State)
    (ht : Top env lb st) :
    (∀ s ∈ dropEof (refillAll env 0 st).1, Ready lb s) ∧
    (∀ s ∈ dropEof (refillAll env 0 st).1, s.continuation = true → s.tm = lb) ∧
    (∀ h t, dropEof (refillAll env 0 st).1 = h :: t → ∀ s ∈ t, s.continuation = false) := by
  rcases ht with ⟨hf, hlb⟩ | ⟨h, t, rfl, he, htm, hw⟩
  · have key : ∀ s ∈ dropEof (refillAll env 0 st).1, Waiting lb s := by
      intro s hs
      obtain ⟨hs1, hs2⟩ := mem_dropEof.mp hs
      obtain ⟨x, hx, i, rfl⟩ := refillAll_mem env st 0 s hs1
      obtain ⟨x1, x2, x3, -⟩ := hf x hx
      unfold refill at hs2 ⊢
      rw [if_pos ⟨x1, x2⟩] at hs2 ⊢
      rcases lineloop_unset env hc i x.scanner.rest x x3 with h1 | h1
      · rw [hs2] at h1; exact absurd h1 Bool.noConfusion
      · obtain ⟨⟨a1, a2, a3, a4, a5⟩, a6⟩ := h1
        exact ⟨⟨a1, a2, a3, a4, le_trans hlb a5⟩, a6⟩
    refine ⟨fun s hs => (key s hs).1, ?_, ?_⟩
    · intro s hs hcont
      rw [(key s hs).2] at hcont
      exact absurd hcont Bool.noConfusion
    · intro h t hL s hs
      exact (key s (by rw [hL]; exact List.mem_cons_of_mem _ hs)).2
  · have hall : (refillAll env 0 (h :: t)).1 = (refill env 0 h).1 :: t := by
      unfold refillAll
      rw [refillAll_of_buffered env t (fun s hs => (hw s hs).1.1)]
    have ht2 : dropEof t = t := dropEof_of_active t (fun s hs => (hw s hs).1.2.1)
    rw [hall]
    rcases refill_emitted env h he with h1 | ⟨h1, h2⟩
    · rw [dropEof_cons_eof _ _ h1, ht2]
      refine ⟨fun s hs => (hw s hs).1, ?_, ?_⟩
      · intro s hs hcont
        rw [(hw s hs).2] at hcont
        exact absurd hcont Bool.noConfusion
      · intro x r hL s hs
        exact (hw s (by rw [hL]; exact List.mem_cons_of_mem _ hs)).2
    · rw [dropEof_cons_active _ _ h1.2.1, ht2]
      rw [htm] at h1 h2
      refine ⟨?_, ?_, ?_⟩
      · intro s hs
        rcases List.mem_cons.mp hs with rfl | hs
        · exact h1
        · exact (hw s hs).1
      · intro s hs hcont
        rcases List.mem_cons.mp hs with rfl | hs
        · exact h2 hcont
        · rw [(hw s hs).2] at hcont
          exact absurd hcont Bool.noConfusion
      · intro x r hL s hs
        have := List.cons.inj hL
        rw [← this.2] at hs
        exact (hw s hs).2

/-- The head chosen by the reordering: it is earliest, and no stream behind it is
continuation-flagged. -/
theorem sorted_head (L : List State) (lb : Time) (h1 : ∀ s ∈ L, Ready lb s)
    (h2 : ∀ s ∈ L, s.continuation = true → s.tm = lb)
    (h3 : ∀ h t, L = h :: t → ∀ s ∈ t, s.continuation = false)
    (x : State) (rest : List State) (hs : sortSlice less L = x :: rest) :
    Ready lb x ∧ ∀ s ∈ rest, Waiting x.tm s := by
  have hp := sortSlice_perm less L
  have ho := sortSlice_ordered L
  rw [hs] at hp ho
  rw [List.pairwise_cons] at ho
  have hx : x ∈ L := hp.mem_iff.mp (List.mem_cons_self _ _)
  refine ⟨h1 x hx, ?_⟩
  intro s hsr
  have hsL : s ∈ L := hp.mem_iff.mp (List.mem_cons_of_mem _ hsr)
  obtain ⟨a1, a2, a3, a4, a5⟩ := h1 s hsL
  have hsc : s.continuation = false := by
    cases hc : s.continuation with
    | false => rfl
    | true =>
      exfalso
      cases L with
      | nil => exact absurd hsL (List.not_mem_nil _)
      | cons h t =>
        have ht := h3 h t rfl
        rcases List.mem_cons.mp hsL with rfl | hst
        · by_cases hxs : x = s
          · subst hxs
            have hr : rest.Perm t := (List.perm_cons x).mp hp
            have := ht x (hr.mem_iff.mp hsr)
            rw [this] at hc
            exact absurd hc Bool.noConfusion
          · have hxt : x ∈ t := by
              rcases List.mem_cons.mp hx with h | h
              · exact absurd h hxs
              · exact h
            have hlt := (ho.1 s hsr (ht x hxt)).2 hc
            have hle := (h1 x hx).2.2.2.2
            rw [h2 s hsL hc] at hlt
            exact absurd (lt_of_le_of_lt hle hlt) (lt_irrefl _)
        · rw [ht s hst] at hc
          exact absurd hc Bool.noConfusion
  refine ⟨⟨a1, a2, a3, a4, ?_⟩, hsc⟩
  cases hxc : x.continuation with
  | false => exact (ho.1 s hsr hxc).1
  | true => rw [h2 x hx hxc]; exact a5

/-- The shape `Top` is kept by a pass of the loop, and the emitted head is not earlier
than the bound of the pass before. -/
theorem top_pass (env : Env) (hc : 0 ≤ env.startAfter) (lb : Time) (st : List State)
    (ht : Top env lb st) (x : State) (rest : List State)
    (hs : sortSlice less (dropEof (refillAll env 0 st).1) = x :: rest) :
    lb ≤ x.tm ∧ Top env x.tm (consume x :: rest) := by
  obtain ⟨h1, h2, h3⟩ := top_refill env hc lb st ht
  obtain ⟨⟨a1, a2, a3, a4, a5⟩, hw⟩ := sorted_head _ lb h1 h2 h3 x rest hs
  exact ⟨a5, Or.inr ⟨consume x, rest, rfl, ⟨rfl, a2, a3, a4, rfl⟩, rfl, hw⟩⟩

theorem initStates_fresh (env : Env) (files : List LogFile) :
    ∀ i, ∀ s ∈ initStates env i files, Fresh s := by
  induction files with
  | nil => intro i s hs; exact absurd hs (List.not_mem_nil _)
  | cons f files ih =>
    intro i s hs
    unfold initStates at hs
    rcases List.mem_cons.mp hs with rfl | hs
    · exact ⟨rfl, rfl, ⟨rfl, rfl, rfl⟩, rfl⟩
    · exact ih _ s hs

/-- Every value of `state` at the top of the loop has the shape `Top`, when the cutoff
is not before the zero instant. -/
theorem reach_top (env : Env) (hc : 0 ≤ env.startAfter) (files : List LogFile)
    (lastFile : String) (st : List State) (hr : Reach env files lastFile st) :
    ∃ lb, Top env lb st := by
  induction hr with
  | init => exact ⟨env.startAfter, Or.inl ⟨initStates_fresh env files 0, le_refl _⟩⟩
  | pass _ hs ih =>
    obtain ⟨lb, ht⟩ := ih
    exact ⟨_, (top_pass env hc lb _ ht _ _ hs).2⟩

/-- From a state of shape `Top` the emitted heads come with non-decreasing stored
timestamps, none earlier than the bound `lb`. -/
theorem mergeLoop_sorted (env : Env) (hc : 0 ≤ env.startAfter) :
    ∀ fuel lastFile lb st out, Top env lb st → mergeLoop env fuel lastFile st = some out →
      (emitted out).Pairwise (fun a b => a.tm ≤ b.tm) ∧ ∀ e ∈ emitted out, lb ≤ e.tm := by
  intro fuel
  induction fuel with
  | zero => intro lastFile lb st out _ h; exact absurd h (by simp [mergeLoop])
  | succ fuel ih =>
    intro lastFile lb st out ht h
    unfold mergeLoop at h
    dsimp only at h
    split at h
    · injection h with h
      subst h
      rw [refillAll_emitted]
      exact ⟨List.Pairwise.nil, fun e he => absurd he (List.not_mem_nil _)⟩
    · rename_i x rest hs
      obtain ⟨hlb, htop⟩ := top_pass env hc lb st ht x rest hs
      cases hr : mergeLoop env fuel x.filename (consume x :: rest) with
      | none => rw [hr] at h; exact absurd h (by simp)
      | some o =>
        rw [hr] at h
        injection h with h
        subst h
        obtain ⟨i1, i2⟩ := ih _ _ _ _ htop hr
        rw [emitted_append, refillAll_emitted, List.nil_append]
        show (x :: emitted o).Pairwise _ ∧ _
        refine ⟨List.pairwise_cons.mpr ⟨i2, i1⟩, ?_⟩
        intro e he
        rcases List.mem_cons.mp he with rfl | he
        · exact hlb
        · exact le_trans hlb (i2 e he)

/-! ## Identity of the streams -/

theorem refillAll_ptrs (env : Env) (st : List State) :
    ∀ si, (refillAll env si st).1.map (fun s => s.scanner.ptr) =
      st.map (fun s => s.scanner.ptr) := by
  induction st with
  | nil => intro si; rfl
  | cons s st ih =>
    intro si
    unfold refillAll
    simp only [List.map_cons]
    rw [refill_ptr, ih]

theorem pass_ptrNodup (env : Env) (st : List State) (hn : PtrNodup st) :
    PtrNodup (sortSlice less (dropEof (refillAll env 0 st).1)) := by
  unfold PtrNodup at hn ⊢
  have h1 : ((refillAll env 0 st).1.map (fun s => s.scanner.ptr)).Nodup := by
    rw [refillAll_ptrs]; exact hn
  have h2 : ((dropEof (refillAll env 0 st).1).map (fun s => s.scanner.ptr)).Nodup :=
    h1.sublist ((List.filter_sublist _).map _)
  exact ((sortSlice_perm less _).map _).nodup_iff.mpr h2

theorem consume_ptrNodup (x : State) (rest : List State) (hn : PtrNodup (x :: rest)) :
    PtrNodup (consume x :: rest) := hn

theorem initStates_ptr_le (env : Env) (files : List LogFile) :
    ∀ i, ∀ s ∈ initStates env i files, i ≤ s.scanner.ptr := by
  induction files with
  | nil => intro i s hs; exact absurd hs (List.not_mem_nil _)
  | cons f files ih =>
    intro i s hs
    unfold initStates at hs
    rcases List.mem_cons.mp hs with rfl | hs
    · exact Nat.le_refl _
    · exact Nat.le_of_succ_le (ih _ s hs)

theorem initStates_ptrNodup (env : Env) (files : List LogFile) :
    ∀ i, PtrNodup (initStates env i files) := by
  induction files with
  | nil => intro i; exact List.nodup_nil
  | cons f files ih =>
    intro i
    unfold initStates PtrNodup
    rw [List.map_cons, List.nodup_cons]
    refine ⟨?_, ih (i + 1)⟩
    intro hmem
    obtain ⟨s, hs, he⟩ := List.mem_map.mp hmem
    have := initStates_ptr_le env files (i + 1) s hs
    have e : s.scanner.ptr = i := he
    omega

theorem reach_ptrNodup (env : Env) (files : List LogFile) (lastFile : String)
    (st : List State) (hr : Reach env files lastFile st) : PtrNodup st := by
  induction hr with
  | init => exact initStates_ptrNodup env files 0
  | pass _ hs ih =>
    have := pass_ptrNodup env _ ih
    rw [hs] at this
    exact consume_ptrNodup _ _ this

theorem ptr_ne_of_mem_tail (x : State) (rest : List State) (hn : PtrNodup (x :: rest))
    (s : State) (hs : s ∈ rest) : x.scanner.ptr ≠ s.scanner.ptr := by
  unfold PtrNodup at hn
  rw [List.map_cons, List.nodup_cons] at hn
  intro he
  exact hn.1 (List.mem_map.mpr ⟨s, hs, he.symm⟩)

/-! ## A buffered line stays until it is emitted -/

theorem mem_refillAll_of_buffered (env : Env) (st : List State) (s : State)
    (hs : s ∈ st) (hl : s.haveLine = true) : ∀ si, s ∈ (refillAll env si st).1 := by
  induction st with
  | nil => exact absurd hs (List.not_mem_nil _)
  | cons x st ih =>
    intro si
    unfold refillAll
    rcases List.mem_cons.mp hs with rfl | hs
    · rw [refill_of_haveLine env si s hl]
      exact List.mem_cons_self _ _
    · exact List.mem_cons_of_mem _ (ih hs _)

/-- A stream that holds a line keeps it over the refill, the removal of exhausted
streams and the reordering. -/
theorem mem_pass_of_buffered (env : Env) (st : List State) (s : State)
    (hs : s ∈ st) (hl : s.haveLine = true) (he : s.eof = false) :
    s ∈ sortSlice less (dropEof (refillAll env 0 st).1) :=
  (sortSlice_perm less _).mem_iff.mpr
    (mem_dropEof.mpr ⟨mem_refillAll_of_buffered env st s hs hl 0, he⟩)

/-- Every stream in the reordered `state` holds a line. -/
theorem buffered_of_mem_pass (env : Env) (st : List State) (s : State)
    (hs : s ∈ sortSlice less (dropEof (refillAll env 0 st).1)) :
    s.haveLine = true ∧ s.eof = false := by
  obtain ⟨h1, h2⟩ := mem_dropEof.mp ((sortSlice_perm less _).mem_iff.mp hs)
  rcases refillAll_ready env st 0 s h1 with h3 | h3
  · rw [h2] at h3; exact absurd h3 Bool.noConfusion
  · exact ⟨h3, h2⟩

/-- One unfolding of the merge loop on a pass that emits `x`. -/
theorem mergeLoop_pass (env : Env) (fuel : Nat) (lastFile : String) (st : List State)
    (out : List Output) (x : State) (rest : List State)
    (hs : sortSlice less (dropEof (refillAll env 0 st).1) = x :: rest)
    (h : mergeLoop env (fuel + 1) lastFile st = some out) :
    ∃ o, mergeLoop env fuel x.filename (consume x :: rest) = some o ∧
      out = (refillAll env 0 st).2 ++ Output.logLine x (logFileArg env lastFile x) :: o ∧
      emitted out = x :: emitted o := by
  unfold mergeLoop at h
  dsimp only at h
  rw [hs] at h
  dsimp only at h
  cases hr : mergeLoop env fuel x.filename (consume x :: rest) with
  | none => rw [hr] at h; exact absurd h (by simp)
  | some o =>
    rw [hr] at h
    injection h with h
    refine ⟨o, rfl, h.symm, ?_⟩
    rw [← h, emitted_append, refillAll_emitted]
    rfl

/-- A buffered line is emitted, unchanged, as the next line of its stream. -/
theorem buffered_emitted (env : Env) :
    ∀ fuel lastFile st out, mergeLoop env fuel lastFile st = some out → PtrNodup st →
      ∀ B ∈ st, B.haveLine = true → B.eof = false →
        ∃ mid post, emitted out = mid ++ B :: post ∧
          ∀ e ∈ mid, e.scanner.ptr ≠ B.scanner.ptr := by
  intro fuel
  induction fuel with
  | zero => intro lastFile st out h; exact absurd h (by simp [mergeLoop])
  | succ fuel ih =>
    intro lastFile st out h hn B hB hl he
    have hmem := mem_pass_of_buffered env st B hB hl he
    have hn2 := pass_ptrNodup env st hn
    cases hs : sortSlice less (dropEof (refillAll env 0 st).1) with
    | nil => rw [hs] at hmem; exact absurd hmem (List.not_mem_nil _)
    | cons x rest =>
      rw [hs] at hmem hn2
      obtain ⟨o, ho, -, hem⟩ := mergeLoop_pass env fuel lastFile st out x rest hs h
      rcases List.mem_cons.mp hmem with rfl | hBr
      · exact ⟨[], emitted o, by rw [hem]; rfl, fun e he => absurd he (List.not_mem_nil _)⟩
      · obtain ⟨mid, post, h1, h2⟩ := ih _ _ _ ho (consume_ptrNodup x rest hn2) B
          (List.mem_cons_of_mem _ hBr) hl he
        refine ⟨x :: mid, post, by rw [hem, h1]; rfl, ?_⟩
        intro e hemem
        rcases List.mem_cons.mp hemem with rfl | hemem
        · exact ptr_ne_of_mem_tail _ rest hn2 B hBr
        · exact h2 e hemem

/-- Two unflagged streams of the reordered `state` with different stored timestamps
are emitted in the order of their timestamps. -/
theorem ordered_emission (env : Env) :
    ∀ fuel lastFile st out, mergeLoop env fuel lastFile st = some out → PtrNodup st →
      ∀ A ∈ sortSlice less (dropEof (refillAll env 0 st).1),
      ∀ B ∈ sortSlice less (dropEof (refillAll env 0 st).1),
        A.continuation = false → B.continuation = false → A.tm < B.tm →
        ∃ pre mid post, emitted out = pre ++ A :: (mid ++ B :: post) ∧
          (∀ e ∈ pre, e.scanner.ptr ≠ A.scanner.ptr ∧ e.scanner.ptr ≠ B.scanner.ptr) ∧
          (∀ e ∈ mid, e.scanner.ptr ≠ B.scanner.ptr) := by
  intro fuel
  induction fuel with
  | zero => intro lastFile st out h; exact absurd h (by simp [mergeLoop])
  | succ fuel ih =>
    intro lastFile st out h hn A hA B hB hAc hBc hlt
    have hn2 := pass_ptrNodup env st hn
    have hord := sortSlice_ordered (dropEof (refillAll env 0 st).1)
    have hbA := buffered_of_mem_pass env st A hA
    have hbB := buffered_of_mem_pass env st B hB
    cases hs : sortSlice less (dropEof (refillAll env 0 st).1) with
    | nil => rw [hs] at hA; exact absurd hA (List.not_mem_nil _)
    | cons x rest =>
      rw [hs] at hA hB hn2 hord
      rw [List.pairwise_cons] at hord
      obtain ⟨o, ho, -, hem⟩ := mergeLoop_pass env fuel lastFile st out x rest hs h
      have hBr : B ∈ rest := by
        rcases List.mem_cons.mp hB with rfl | hBr
        · exfalso
          rcases List.mem_cons.mp hA with rfl | hAr
          · exact lt_irrefl _ hlt
          · exact absurd (lt_of_le_of_lt (hord.1 A hAr hBc).1 hlt) (lt_irrefl _)
        · exact hBr
      have hn3 := consume_ptrNodup x rest hn2
      rcases List.mem_cons.mp hA with rfl | hAr
      · obtain ⟨mid, post, h1, h2⟩ := buffered_emitted env _ _ _ _ ho hn3 B
          (List.mem_cons_of_mem _ hBr) hbB.1 hbB.2
        exact ⟨[], mid, post, by rw [hem, h1]; rfl,
          fun e he => absurd he (List.not_mem_nil _), h2⟩
      · have hA2 := mem_pass_of_buffered env (consume x :: rest) A
          (List.mem_cons_of_mem _ hAr) hbA.1 hbA.2
        have hB2 := mem_pass_of_buffered env (consume x :: rest) B
          (List.mem_cons_of_mem _ hBr) hbB.1 hbB.2
        obtain ⟨pre, mid, post, h1, h2, h3⟩ := ih _ _ _ ho hn3 A hA2 B hB2 hAc hBc hlt
        refine ⟨x :: pre, mid, post, by rw [hem, h1]; rfl, ?_, h3⟩
        intro e he
        rcases List.mem_cons.mp he with rfl | he
        · exact ⟨ptr_ne_of_mem_tail _ rest hn2 A hAr, ptr_ne_of_mem_tail _ rest hn2 B hBr⟩
        · exact h2 e he

/-! ## The refill loop against the discarded leading lines of the specification -/

theorem tryRules_enumFrom (env : Env) (s : State) (ms : List Match) :
    ∀ mi, (((ms.enumFrom mi).find? (fun p => (resolve env p.2 s.line).isSome)).bind
        (fun p => (resolve env p.2 s.line).map (fun r => (p.1, r.2.2))) = none ∧
        tryRules env s mi ms = (s, false)) ∨
      ∃ i a b tm, ((ms.enumFrom mi).find? (fun p => (resolve env p.2 s.line).isSome)).bind
        (fun p => (resolve env p.2 s.line).map (fun r => (p.1, r.2.2))) = some (i, tm) ∧
        tryRules env s mi ms = bindRule env s i a b tm := by
  induction ms with
  | nil => intro mi; exact Or.inl ⟨rfl, rfl⟩
  | cons m ms ih =>
    intro mi
    unfold tryRules
    rw [List.enumFrom_cons, List.find?_cons]
    cases hr : resolve env m s.line with
    | none =>
      simp only [Option.isSome_none]
      exact ih (mi + 1)
    | some r =>
      obtain ⟨a, b, tm⟩ := r
      simp only [Option.isSome_some]
      exact Or.inr ⟨mi, a, b, tm, by simp [hr], rfl⟩

theorem bound_of_natCast (s : State) (i : Nat) (h : s.reIdx = (i : Int)) :
    bound s = some i := by
  unfold bound
  rw [if_neg (by rw [h]; exact natCast_ne_neg_one i), h]
  rfl

/-- The classification of a line by a stream that has not passed the cutoff, against
the timestamp `stampOf` the specification gives the line. -/
theorem classify_pre (env : Env) (si : Nat) (s : State) (hn : s.newEnough = false) :
    (stampOf env (bound s) s.line = none ∧ classify env si s = (s, false)) ∨
    (∃ i tm, stampOf env (bound s) s.line = some (i, tm) ∧ env.startAfter < tm ∧
      (classify env si s).2 = true ∧ (classify env si s).1.newEnough = true ∧
      (classify env si s).1.reIdx ≠ -1) ∨
    (∃ i tm, stampOf env (bound s) s.line = some (i, tm) ∧ tm ≤ env.startAfter ∧
      (classify env si s).2 = false ∧ (classify env si s).1.newEnough = false ∧
      bound (classify env si s).1 = some i) := by
  unfold classify
  by_cases hidx : s.reIdx = -1
  · rw [if_neg (not_not.mpr hidx)]
    have hb : bound s = none := by unfold bound; rw [if_pos hidx]
    rw [hb]
    unfold stampOf firstResolving List.enum
    dsimp only
    rcases tryRules_enumFrom env s env.conf 0 with ⟨h1, h2⟩ | ⟨i, a, b, tm, h1, h2⟩
    · exact Or.inl ⟨h1, h2⟩
    · right
      rw [h1, h2]
      obtain ⟨e1, -, e3⟩ := bindRule_fields env s i a b tm
      rcases e3 with ⟨f1, f2, f3, -⟩ | ⟨f1, f2, f3, -⟩
      · exact Or.inl ⟨i, tm, rfl, f2, f1, f3, by rw [e1]; exact natCast_ne_neg_one _⟩
      · exact Or.inr ⟨i, tm, rfl, f2, f1, by rw [f3]; exact hn, bound_of_natCast _ i e1⟩
  · rw [if_pos hidx]
    have hb : bound s = some s.reIdx.toNat := by unfold bound; rw [if_neg hidx]
    rw [hb]
    have hmiss : ¬ (si = 0 ∧ s.newEnough = true) := by
      intro hh; rw [hn] at hh; exact Bool.noConfusion hh.2
    unfold stampOf
    dsimp only
    rcases matchBound_cases env s with h | ⟨m, a, b, tm, hm, hres, hlt, h⟩
    · rw [established_of_miss env si s h hmiss]
      unfold matchBound at h
      cases hm : env.conf[s.reIdx.toNat]? with
      | none => exact Or.inl ⟨rfl, rfl⟩
      | some m =>
        rw [hm] at h
        dsimp only at h
        cases hres : resolve env m s.line with
        | none => exact Or.inl ⟨by simp [hres], rfl⟩
        | some r =>
          obtain ⟨a, b, tm⟩ := r
          rw [hres] at h
          dsimp only at h
          by_cases hlt : env.startAfter < tm
          · rw [if_pos hlt] at h
            exact absurd (congrArg Prod.snd h) (by simp)
          · right; right
            exact ⟨s.reIdx.toNat, tm, by simp [hres], not_lt.mp hlt, rfl, hn, hb⟩
    · rw [established_of_found env si s _ h]
      obtain ⟨e1, e2, -⟩ := acceptBound_fields env s a b tm
      right; left
      exact ⟨s.reIdx.toNat, tm, by simp [hm, hres], hlt, rfl, e2, by rw [e1]; exact hidx⟩

theorem bound_readLine (s : State) (l : String) (rest : List String) :
    bound (readLine s l rest) = bound s := rfl

/-- The first refill of a stream discards exactly the leading lines counted by
`leadingDiscarded`, and then holds the first line with a timestamp after the cutoff. -/
theorem lineloop_discarded (env : Env) (si : Nat) (rest : List String) :
    ∀ s, s.newEnough = false →
      ((lineloop env si s rest).1.eof = true ∧
        leadingDiscarded env (bound s) rest = rest.length) ∨
      ((lineloop env si s rest).1.eof = false ∧ (lineloop env si s rest).1.haveLine = true ∧
        (lineloop env si s rest).1.newEnough = true ∧ (lineloop env si s rest).1.reIdx ≠ -1 ∧
        (lineloop env si s rest).1.scanner.rest.length + 1 +
          leadingDiscarded env (bound s) rest = rest.length) := by
  induction rest with
  | nil => intro s _; exact Or.inl ⟨rfl, rfl⟩
  | cons l rest ih =>
    intro s hn
    unfold lineloop leadingDiscarded
    dsimp only
    obtain ⟨f1, f2, f3, -, -, -⟩ := classify_frame env si (readLine s l rest)
    have hline : (readLine s l rest).line = l := rfl
    rcases classify_pre env si (readLine s l rest) hn with
      ⟨h1, h2⟩ | ⟨i, tm, h1, h2, h3, h4, h5⟩ | ⟨i, tm, h1, h2, h3, h4, h5⟩
    · rw [bound_readLine, hline] at h1
      rw [h1, h2]
      dsimp only
      rw [if_neg (by exact Bool.noConfusion)]
      have key : ∀ s', s'.newEnough = false → bound s' = bound s →
          ((lineloop env si s' rest).1.eof = true ∧
            1 + leadingDiscarded env (bound s) rest = (l :: rest).length) ∨
          ((lineloop env si s' rest).1.eof = false ∧
            (lineloop env si s' rest).1.haveLine = true ∧
            (lineloop env si s' rest).1.newEnough = true ∧
            (lineloop env si s' rest).1.reIdx ≠ -1 ∧
            (lineloop env si s' rest).1.scanner.rest.length + 1 +
              (1 + leadingDiscarded env (bound s) rest) = (l :: rest).length) := by
        intro s' hn' hb'
        rcases ih s' hn' with ⟨a1, a2⟩ | ⟨a1, a2, a3, a4, a5⟩
        · left; rw [hb'] at a2; exact ⟨a1, by rw [List.length_cons]; omega⟩
        · right; rw [hb'] at a5; exact ⟨a1, a2, a3, a4, by rw [List.length_cons]; omega⟩
      split
      · exact key _ hn rfl
      · exact key _ hn rfl
    · rw [bound_readLine, hline] at h1
      rw [h1]
      dsimp only
      rw [if_pos h2, if_pos h3]
      right
      refine ⟨f2, f3, h4, h5, ?_⟩
      rw [f1]
      show rest.length + 1 + 0 = (l :: rest).length
      rfl
    · rw [bound_readLine, hline] at h1
      rw [h1]
      dsimp only
      rw [if_neg (not_lt.mpr h2), if_neg (by rw [h3]; exact Bool.noConfusion)]
      have key : ∀ s', s'.newEnough = false → bound s' = some i →
          ((lineloop env si s' rest).1.eof = true ∧
            1 + leadingDiscarded env (some i) rest = (l :: rest).length) ∨
          ((lineloop env si s' rest).1.eof = false ∧
            (lineloop env si s' rest).1.haveLine = true ∧
            (lineloop env si s' rest).1.newEnough = true ∧
            (lineloop env si s' rest).1.reIdx ≠ -1 ∧
            (lineloop env si s' rest).1.scanner.rest.length + 1 +
              (1 + leadingDiscarded env (some i) rest) = (l :: rest).length) := by
        intro s' hn' hb'
        rcases ih s' hn' with ⟨a1, a2⟩ | ⟨a1, a2, a3, a4, a5⟩
        · left; rw [hb'] at a2; exact ⟨a1, by rw [List.length_cons]; omega⟩
        · right; rw [hb'] at a5; exact ⟨a1, a2, a3, a4, by rw [List.length_cons]; omega⟩
      split
      · exact key _ h4 h5
      · exact key _ h4 h5

/-! ## The shape of `state` over the run, for every cutoff -/

/-- The stream at index 0 with an established rule and a set cutoff flag finds every
line: the bound rule gives a timestamp after the cutoff, or the line is a continuation
with its text unchanged. -/
theorem classify_live (env : Env) (s : State) (hidx : s.reIdx ≠ -1)
    (hn : s.newEnough = true) :
    (matchBound env s = (s, false) ∧
      classify env 0 s = ({ s with continuation := true }, true)) ∨
    (∃ m a b tm, env.conf[s.reIdx.toNat]? = some m ∧
      resolve env m s.line = some (a, b, tm) ∧ env.startAfter < tm ∧
      classify env 0 s = (acceptBound env s a b tm, true)) := by
  unfold classify
  rw [if_pos hidx]
  rcases matchBound_cases env s with h | ⟨m, a, b, tm, hm, hres, hlt, h⟩
  · exact Or.inl ⟨h, established_of_miss_head env s h hn⟩
  · exact Or.inr ⟨m, a, b, tm, hm, hres, hlt, established_of_found env 0 s _ h⟩

theorem classify_live_fields (env : Env) (s : State) (hidx : s.reIdx ≠ -1)
    (hn : s.newEnough = true) :
    (classify env 0 s).2 = true ∧ (classify env 0 s).1.newEnough = true ∧
    (classify env 0 s).1.reIdx = s.reIdx := by
  rcases classify_live env s hidx hn with ⟨-, h⟩ | ⟨m, a, b, tm, -, -, -, h⟩
  · rw [h]; exact ⟨rfl, hn, rfl⟩
  · rw [h]
    obtain ⟨e1, e2, -⟩ := acceptBound_fields env s a b tm
    exact ⟨rfl, e2, e1⟩

/-- The refill of the stream emitted last reads exactly one line, if there is one. -/
theorem refill_live (env : Env) (h : State) (hl : Live h) (hh : h.haveLine = false) :
    (h.scanner.rest = [] ∧ (refill env 0 h).1.eof = true) ∨
    (∃ l rest, h.scanner.rest = l :: rest ∧
      refill env 0 h = ((classify env 0 (readLine h l rest)).1, []) ∧
      Live (classify env 0 (readLine h l rest)).1 ∧
      (classify env 0 (readLine h l rest)).1.haveLine = true ∧
      (classify env 0 (readLine h l rest)).1.scanner.rest = rest) := by
  obtain ⟨e1, e2, e3⟩ := hl
  unfold refill
  rw [if_pos ⟨hh, e1⟩]
  cases hrest : h.scanner.rest with
  | nil => exact Or.inl ⟨rfl, rfl⟩
  | cons l rest =>
    right
    obtain ⟨f1, f2, f3, -, -, -⟩ := classify_frame env 0 (readLine h l rest)
    obtain ⟨c1, c2, c3⟩ := classify_live_fields env (readLine h l rest) e3 e2
    refine ⟨l, rest, rfl, ?_, ⟨f2, c2, by rw [c3]; exact e3⟩, f3, by rw [f1]; rfl⟩
    unfold lineloop
    dsimp only
    rw [if_pos c1]

theorem refill_fresh (env : Env) (si : Nat) (s : State) (hf : Fresh s) :
    ((refill env si s).1.eof = true ∧
      leadingDiscarded env none s.scanner.rest = s.scanner.rest.length) ∨
    (Live (refill env si s).1 ∧ (refill env si s).1.haveLine = true ∧
      (refill env si s).1.scanner.rest.length + 1 +
        leadingDiscarded env none s.scanner.rest = s.scanner.rest.length) := by
  obtain ⟨h1, h2, ⟨h3, -, -⟩, h4⟩ := hf
  have hb : bound s = none := by unfold bound; rw [if_pos h4]
  unfold refill
  rw [if_pos ⟨h1, h2⟩]
  rcases lineloop_discarded env si s.scanner.rest s h3 with ⟨a1, a2⟩ | ⟨a1, a2, a3, a4, a5⟩
  · rw [hb] at a2; exact Or.inl ⟨a1, a2⟩
  · rw [hb] at a5; exact Or.inr ⟨⟨a1, a3, a4⟩, a2, a5⟩

/-- After the refill loop and the removal of exhausted streams every stream holds a
line, has an established rule and a set cutoff flag. -/
theorem shape_refill (env : Env) (st : List State) (hs : Shape st) :
    ∀ s ∈ dropEof (refillAll env 0 st).1, Live s ∧ s.haveLine = true := by
  rcases hs with hf | ⟨h, t, rfl, hl, hh, ht⟩
  · intro s hs
    obtain ⟨hs1, hs2⟩ := mem_dropEof.mp hs
    obtain ⟨x, hx, i, rfl⟩ := refillAll_mem env st 0 s hs1
    rcases refill_fresh env i x (hf x hx) with ⟨a1, -⟩ | ⟨a1, a2, -⟩
    · rw [hs2] at a1; exact absurd a1 Bool.noConfusion
    · exact ⟨a1, a2⟩
  · have hall : (refillAll env 0 (h :: t)).1 = (refill env 0 h).1 :: t := by
      unfold refillAll
      rw [refillAll_of_buffered env t (fun s hs => (ht s hs).2)]
    rw [hall]
    intro s hs
    obtain ⟨hs1, hs2⟩ := mem_dropEof.mp hs
    rcases List.mem_cons.mp hs1 with rfl | hs1
    · rcases refill_live env h hl hh with ⟨-, a1⟩ | ⟨l, rest, -, a1, a2, a3, -⟩
      · rw [hs2] at a1; exact absurd a1 Bool.noConfusion
      · rw [a1]; exact ⟨a2, a3⟩
    · exact ht s hs1

theorem shape_pass (env : Env) (st : List State) (hs : Shape st) (x : State)
    (rest : List State)
    (hsort : sortSlice less (dropEof (refillAll env 0 st).1) = x :: rest) :
    Live x ∧ x.haveLine = true ∧ Shape (consume x :: rest) := by
  have hall := shape_refill env st hs
  have hp := sortSlice_perm less (dropEof (refillAll env 0 st).1)
  rw [hsort] at hp
  have hx := hall x (hp.mem_iff.mp (List.mem_cons_self _ _))
  refine ⟨hx.1, hx.2, Or.inr ⟨consume x, rest, rfl, hx.1, rfl, ?_⟩⟩
  intro s hsr
  exact hall s (hp.mem_iff.mp (List.mem_cons_of_mem _ hsr))

theorem reach_shape (env : Env) (files : List LogFile) (lastFile : String)
    (st : List State) (hr : Reach env files lastFile st) : Shape st := by
  induction hr with
  | init => exact Or.inl (initStates_fresh env files 0)
  | pass _ hs ih => exact (shape_pass env _ ih _ _ hs).2.2

/-! ## The number of emitted lines -/

theorem leadingDiscarded_le (env : Env) (lines : List String) :
    ∀ rule, leadingDiscarded env rule lines ≤ lines.length := by
  induction lines with
  | nil => intro rule; exact Nat.le_refl _
  | cons l lines ih =>
    intro rule
    unfold leadingDiscarded
    split
    · have := ih rule
      rw [List.length_cons]; omega
    · split
      · exact Nat.zero_le _
      · rename_i i tm _ _
        have := ih (some i)
        rw [List.length_cons]; omega

theorem yield_refill_fresh (env : Env) (si : Nat) (s : State) (hf : Fresh s) :
    yield env (refill env si s).1 = yield env s := by
  have hb : bound s = none := by unfold bound; rw [if_pos hf.2.2.2]
  have hy : yield env s = s.scanner.rest.length - leadingDiscarded env none s.scanner.rest := by
    unfold yield
    rw [hf.1, hf.2.1, hf.2.2.1.1, hb]
    rfl
  rw [hy]
  rcases refill_fresh env si s hf with ⟨a1, a2⟩ | ⟨⟨a1, -, -⟩, a2, a3⟩
  · unfold yield
    rw [a1, a2]
    simp
  · unfold yield
    rw [a1, a2]
    simp only [Bool.false_eq_true, if_false, if_true]
    omega

theorem yield_refill_live (env : Env) (h : State) (hl : Live h) (hh : h.haveLine = false) :
    yield env (refill env 0 h).1 = yield env h := by
  have hy : yield env h = h.scanner.rest.length := by
    unfold yield
    rw [hl.1, hh, hl.2.1]
    rfl
  rw [hy]
  rcases refill_live env h hl hh with ⟨a1, a2⟩ | ⟨l, rest, a1, a2, ⟨a3, -, -⟩, a4, a5⟩
  · unfold yield
    rw [a2, a1]
    rfl
  · rw [a2]
    unfold yield
    dsimp only
    rw [a3, a4, a5, a1]
    simp only [Bool.false_eq_true, if_false, if_true, List.length_cons]
    omega

theorem yield_dropEof (env : Env) (l : List State) :
    ((dropEof l).map (yield env)).sum = (l.map (yield env)).sum := by
  induction l with
  | nil => rfl
  | cons s l ih =>
    cases he : s.eof with
    | true =>
      rw [dropEof_cons_eof s l he, ih]
      have : yield env s = 0 := by unfold yield; rw [he]; rfl
      simp [this]
    | false =>
      rw [dropEof_cons_active s l he]
      simp only [List.map_cons, List.sum_cons, ih]

theorem refillAll_yield_fresh (env : Env) (st : List State) (hf : ∀ s ∈ st, Fresh s) :
    ∀ si, ((refillAll env si st).1.map (yield env)).sum = (st.map (yield env)).sum := by
  induction st with
  | nil => intro si; rfl
  | cons s st ih =>
    intro si
    unfold refillAll
    simp only [List.map_cons, List.sum_cons]
    rw [yield_refill_fresh env si s (hf s (List.mem_cons_self _ _)),
      ih (fun x hx => hf x (List.mem_cons_of_mem _ hx))]

theorem refillAll_yield (env : Env) (st : List State) (hs : Shape st) :
    ((refillAll env 0 st).1.map (yield env)).sum = (st.map (yield env)).sum := by
  rcases hs with hf | ⟨h, t, rfl, hl, hh, ht⟩
  · exact refillAll_yield_fresh env st hf 0
  · have hall : (refillAll env 0 (h :: t)).1 = (refill env 0 h).1 :: t := by
      unfold refillAll
      rw [refillAll_of_buffered env t (fun s hs => (ht s hs).2)]
    rw [hall]
    simp only [List.map_cons, List.sum_cons]
    rw [yield_refill_live env h hl hh]

theorem yield_consume (env : Env) (x : State) (hl : Live x) (hh : x.haveLine = true) :
    yield env x = 1 + yield env (consume x) := by
  unfold yield consume
  dsimp only
  rw [hl.1, hh, hl.2.1]
  rfl

/-- From a state of shape `Shape` the merge loop emits as many lines as its streams
yield. -/
theorem mergeLoop_count (env : Env) :
    ∀ fuel lastFile st out, Shape st → mergeLoop env fuel lastFile st = some out →
      (emitted out).length = (st.map (yield env)).sum := by
  intro fuel
  induction fuel with
  | zero => intro lastFile st out _ h; exact absurd h (by simp [mergeLoop])
  | succ fuel ih =>
    intro lastFile st out hs h
    have e1 := refillAll_yield env st hs
    have e2 := yield_dropEof env (refillAll env 0 st).1
    have e3 := ((sortSlice_perm less (dropEof (refillAll env 0 st).1)).map (yield env)).sum_eq
    cases hsort : sortSlice less (dropEof (refillAll env 0 st).1) with
    | nil =>
      unfold mergeLoop at h
      dsimp only at h
      rw [hsort] at h
      injection h with h
      rw [hsort] at e3
      rw [← h, refillAll_emitted, ← e1, ← e2, ← e3]
      rfl
    | cons x rest =>
      obtain ⟨o, ho, -, hem⟩ := mergeLoop_pass env fuel lastFile st out x rest hsort h
      obtain ⟨hl, hh, hshape⟩ := shape_pass env st hs x rest hsort
      have := ih _ _ _ hshape ho
      rw [hsort] at e3
      rw [hem, List.length_cons, this, ← e1, ← e2, ← e3]
      simp only [List.map_cons, List.sum_cons]
      rw [yield_consume env x hl hh]
      omega

/-! ## The warning flag does not influence the merge -/

theorem replaceSpan_setWarned (env : Env) (w : Bool) (s : State) (a b : Nat) :
    replaceSpan env (setWarned w s) a b = setWarned w (replaceSpan env s a b) := by
  unfold replaceSpan
  split <;> rfl

theorem acceptBound_setWarned (env : Env) (w : Bool) (s : State) (a b : Nat) (tm : Time) :
    acceptBound env (setWarned w s) a b tm = setWarned w (acceptBound env s a b tm) := by
  unfold acceptBound replaceSpan setWarned
  dsimp only
  split <;> split <;> rfl

theorem matchBound_setWarned (env : Env) (w : Bool) (s : State) :
    matchBound env (setWarned w s) =
      (setWarned w (matchBound env s).1, (matchBound env s).2) := by
  unfold matchBound
  have e1 : (setWarned w s).reIdx = s.reIdx := rfl
  have e2 : (setWarned w s).line = s.line := rfl
  rw [e1, e2]
  cases env.conf[s.reIdx.toNat]? with
  | none => rfl
  | some m =>
    dsimp only
    cases resolve env m s.line with
    | none => rfl
    | some r =>
      obtain ⟨a, b, tm⟩ := r
      dsimp only
      split
      · rw [acceptBound_setWarned]
      · rfl

theorem established_setWarned (env : Env) (si : Nat) (w : Bool) (s : State) :
    established env si (setWarned w s) =
      (setWarned w (established env si s).1, (established env si s).2) := by
  unfold established
  rw [matchBound_setWarned]
  dsimp only
  have e : (setWarned w (matchBound env s).1).newEnough = (matchBound env s).1.newEnough := rfl
  rw [e]
  split <;> rfl

theorem bindRule_setWarned (env : Env) (w : Bool) (s : State) (mi a b : Nat) (tm : Time) :
    bindRule env (setWarned w s) mi a b tm =
      (setWarned w (bindRule env s mi a b tm).1, (bindRule env s mi a b tm).2) := by
  unfold bindRule replaceSpan setWarned
  dsimp only
  split
  · split <;> rfl
  · rfl

theorem tryRules_setWarned (env : Env) (w : Bool) (s : State) (ms : List Match) :
    ∀ mi, tryRules env (setWarned w s) mi ms =
      (setWarned w (tryRules env s mi ms).1, (tryRules env s mi ms).2) := by
  induction ms with
  | nil => intro mi; rfl
  | cons m ms ih =>
    intro mi
    unfold tryRules
    have e2 : (setWarned w s).line = s.line := rfl
    rw [e2]
    cases resolve env m s.line with
    | none => exact ih _
    | some r =>
      obtain ⟨a, b, tm⟩ := r
      exact bindRule_setWarned env w s mi a b tm

theorem classify_setWarned (env : Env) (si : Nat) (w : Bool) (s : State) :
    classify env si (setWarned w s) =
      (setWarned w (classify env si s).1, (classify env si s).2) := by
  unfold classify
  have e1 : (setWarned w s).reIdx = s.reIdx := rfl
  rw [e1]
  split
  · exact established_setWarned env si w s
  · exact tryRules_setWarned env w s env.conf 0

theorem eq_setWarned_of_erase (s s' : State) (h : erase s = erase s') :
    s' = setWarned s'.warnedSkipping s := by
  cases s
  cases s'
  simp only [erase, setWarned, State.mk.injEq] at h ⊢
  obtain ⟨h1, h2, h3, h4, h5, h6, h7, h8, h9, h10, -⟩ := h
  exact ⟨h1.symm, h2.symm, h3.symm, h4.symm, h5.symm, h6.symm, h7.symm, h8.symm, h9.symm,
    h10.symm, trivial⟩

theorem erase_setWarned (w : Bool) (s : State) : erase (setWarned w s) = erase s := rfl

/-- The classification of a line reads nothing of the warning flag. -/
theorem classify_erase (env : Env) (si : Nat) (s s' : State) (h : erase s = erase s') :
    erase (classify env si s).1 = erase (classify env si s').1 ∧
    (classify env si s).2 = (classify env si s').2 := by
  rw [eq_setWarned_of_erase s s' h, classify_setWarned]
  exact ⟨rfl, rfl⟩

theorem lineloop_erase (env : Env) (si : Nat) (rest : List String) :
    ∀ s s', erase s = erase s' →
      erase (lineloop env si s rest).1 = erase (lineloop env si s' rest).1 := by
  induction rest with
  | nil =>
    intro s s' h
    rw [eq_setWarned_of_erase s s' h]
    rfl
  | cons l rest ih =>
    intro s s' h
    have hr : erase (readLine s l rest) = erase (readLine s' l rest) := by
      rw [eq_setWarned_of_erase s s' h]
      rfl
    obtain ⟨c1, c2⟩ := classify_erase env si _ _ hr
    unfold lineloop
    dsimp only
    rw [← c2]
    by_cases hf : (classify env si (readLine s l rest)).2 = true
    · rw [if_pos hf, if_pos hf]
      exact c1
    · rw [if_neg hf, if_neg hf]
      have key : ∀ x x', erase x = erase x' →
          erase (lineloop env si x rest).1 = erase (lineloop env si x' rest).1 := ih
      split <;> split <;> exact key _ _ c1

theorem refill_erase (env : Env) (si : Nat) (s s' : State) (h : erase s = erase s') :
    erase (refill env si s).1 = erase (refill env si s').1 := by
  have e := eq_setWarned_of_erase s s' h
  unfold refill
  have e1 : s'.haveLine = s.haveLine := by rw [e]; rfl
  have e2 : s'.eof = s.eof := by rw [e]; rfl
  have e3 : s'.scanner = s.scanner := by rw [e]; rfl
  rw [e1, e2, e3]
  split
  · exact lineloop_erase env si _ s s' h
  · exact h

theorem refillAll_erase (env : Env) (st : List State) :
    ∀ si st', st.map erase = st'.map erase →
      (refillAll env si st).1.map erase = (refillAll env si st').1.map erase := by
  induction st with
  | nil =>
    intro si st' h
    cases st' with
    | nil => rfl
    | cons x st' => exact absurd h (by simp)
  | cons s st ih =>
    intro si st' h
    cases st' with
    | nil => exact absurd h (by simp)
    | cons s' st' =>
      simp only [List.map_cons, List.cons.injEq] at h
      unfold refillAll
      simp only [List.map_cons]
      rw [refill_erase env si s s' h.1, ih (si + 1) st' h.2]

theorem dropEof_erase (st : List State) : (dropEof st).map erase = dropEof (st.map erase) := by
  induction st with
  | nil => rfl
  | cons s st ih =>
    cases he : s.eof with
    | true =>
      rw [dropEof_cons_eof s st he, List.map_cons, dropEof_cons_eof (erase s) _ he, ih]
    | false =>
      rw [dropEof_cons_active s st he, List.map_cons, List.map_cons,
        dropEof_cons_active (erase s) _ he, ih]

theorem sinkLeft_erase (x : State) (left : List State) :
    (sinkLeft less x left).map erase = sinkLeft less (erase x) (left.map erase) := by
  induction left with
  | nil => rfl
  | cons y left ih =>
    unfold sinkLeft
    simp only [List.map_cons]
    have e : less (erase x) (erase y) = less x y := rfl
    rw [e]
    split
    · simp only [List.map_cons, ih]
    · rfl

theorem foldl_sinkLeft_erase (data : List State) :
    ∀ left, (data.foldl (fun left x => sinkLeft less x left) left).map erase =
      (data.map erase).foldl (fun left x => sinkLeft less x left) (left.map erase) := by
  induction data with
  | nil => intro left; rfl
  | cons x data ih =>
    intro left
    simp only [List.foldl_cons, List.map_cons]
    rw [ih, sinkLeft_erase]

theorem sortSlice_erase (data : List State) :
    (sortSlice less data).map erase = sortSlice less (data.map erase) := by
  unfold sortSlice
  rw [List.map_reverse, foldl_sinkLeft_erase]
  rfl

/-- The lists of streams the reordering yields from two states that agree up to the
warning flags agree up to the warning flags. -/
theorem pass_erase (env : Env) (st st' : List State)
    (h : (refillAll env 0 st).1.map erase = (refillAll env 0 st').1.map erase) :
    (sortSlice less (dropEof (refillAll env 0 st).1)).map erase =
      (sortSlice less (dropEof (refillAll env 0 st').1)).map erase := by
  rw [sortSlice_erase, sortSlice_erase, dropEof_erase, dropEof_erase, h]

/-- Two runs from states whose refills agree up to the warning flags emit the same
lines, up to the warning flags. -/
theorem mergeLoop_erase (env : Env) :
    ∀ fuel fuel' lastFile lastFile' st st' out out',
      (refillAll env 0 st).1.map erase = (refillAll env 0 st').1.map erase →
      mergeLoop env fuel lastFile st = some out →
      mergeLoop env fuel' lastFile' st' = some out' →
      (emitted out).map erase = (emitted out').map erase := by
  intro fuel
  induction fuel with
  | zero => intro fuel' lastFile lastFile' st st' out out' _ h; exact absurd h (by simp [mergeLoop])
  | succ fuel ih =>
    intro fuel' lastFile lastFile' st st' out out' hst h h'
    cases fuel' with
    | zero => exact absurd h' (by simp [mergeLoop])
    | succ fuel' =>
      have hp := pass_erase env st st' hst
      cases hs : sortSlice less (dropEof (refillAll env 0 st).1) with
      | nil =>
        rw [hs] at hp
        have hs' : sortSlice less (dropEof (refillAll env 0 st').1) = [] := by
          cases hq : sortSlice less (dropEof (refillAll env 0 st').1) with
          | nil => rfl
          | cons y r => rw [hq] at hp; exact absurd hp (by simp)
        unfold mergeLoop at h h'
        dsimp only at h h'
        rw [hs] at h
        rw [hs'] at h'
        injection h with h
        injection h' with h'
        rw [← h, ← h', refillAll_emitted, refillAll_emitted]
      | cons x rest =>
        rw [hs] at hp
        cases hs' : sortSlice less (dropEof (refillAll env 0 st').1) with
        | nil => rw [hs'] at hp; exact absurd hp (by simp)
        | cons x' rest' =>
          rw [hs'] at hp
          simp only [List.map_cons, List.cons.injEq] at hp
          obtain ⟨o, ho, -, hem⟩ := mergeLoop_pass env fuel lastFile st out x rest hs h
          obtain ⟨o', ho', -, hem'⟩ := mergeLoop_pass env fuel' lastFile' st' out' x' rest' hs' h'
          have hnext : (consume x :: rest).map erase = (consume x' :: rest').map erase := by
            simp only [List.map_cons, List.cons.injEq]
            refine ⟨?_, hp.2⟩
            have := congrArg consume hp.1
            exact this
          have := ih fuel' _ _ _ _ o o' (refillAll_erase env _ 0 _ hnext) ho ho'
          rw [hem, hem', List.map_cons, List.map_cons, hp.1, this]

/-! ## The established rule of a stream -/

/-- Every emitted line comes from a stream of `state`, and is related to it by every
relation that the refill and the emission keep. -/
theorem mergeLoop_related (env : Env) (R : State → State → Prop)
    (hrefill : ∀ i s, R s (refill env i s).1) (hcons : ∀ s, R s (consume s))
    (htrans : ∀ a b c, R a b → R b c → R a c) :
    ∀ fuel lastFile st out, mergeLoop env fuel lastFile st = some out →
      ∀ e ∈ emitted out, ∃ s ∈ st, e.scanner.ptr = s.scanner.ptr ∧ R s e := by
  intro fuel
  induction fuel with
  | zero => intro lastFile st out h; exact absurd h (by simp [mergeLoop])
  | succ fuel ih =>
    intro lastFile st out h e he
    cases hs : sortSlice less (dropEof (refillAll env 0 st).1) with
    | nil =>
      unfold mergeLoop at h
      dsimp only at h
      rw [hs] at h
      injection h with h
      rw [← h, refillAll_emitted] at he
      exact absurd he (List.not_mem_nil _)
    | cons x rest =>
      obtain ⟨o, ho, -, hem⟩ := mergeLoop_pass env fuel lastFile st out x rest hs h
      have hp := sortSlice_perm less (dropEof (refillAll env 0 st).1)
      rw [hs] at hp
      have origin : ∀ y ∈ x :: rest, ∃ s ∈ st, y.scanner.ptr = s.scanner.ptr ∧ R s y := by
        intro y hy
        obtain ⟨hy1, -⟩ := mem_dropEof.mp (hp.mem_iff.mp hy)
        obtain ⟨s, hs1, i, rfl⟩ := refillAll_mem env st 0 y hy1
        exact ⟨s, hs1, refill_ptr env i s, hrefill i s⟩
      rw [hem] at he
      rcases List.mem_cons.mp he with rfl | he
      · exact origin e (List.mem_cons_self _ _)
      · obtain ⟨s2, hs2, hp2, hr2⟩ := ih _ _ _ ho e he
        rcases List.mem_cons.mp hs2 with rfl | hs2
        · obtain ⟨s, hs1, hp1, hr1⟩ := origin x (List.mem_cons_self _ _)
          exact ⟨s, hs1, hp2.trans hp1, htrans _ _ _ hr1 (htrans _ _ _ (hcons x) hr2)⟩
        · obtain ⟨s, hs1, hp1, hr1⟩ := origin s2 (List.mem_cons_of_mem _ hs2)
          exact ⟨s, hs1, hp2.trans hp1, htrans _ _ _ hr1 hr2⟩

theorem ptr_injective (st : List State) (hn : PtrNodup st) (s s' : State) (hs : s ∈ st)
    (hs' : s' ∈ st) (h : s.scanner.ptr = s'.scanner.ptr) : s = s' :=
  List.inj_on_of_nodup_map hn hs hs' h

theorem classify_reIdx (env : Env) (si : Nat) (s : State) (hidx : s.reIdx ≠ -1) :
    (classify env si s).1.reIdx = s.reIdx := by
  unfold classify
  rw [if_pos hidx]
  rcases matchBound_cases env s with h | ⟨m, a, b, tm, -, -, -, h⟩
  · unfold established
    rw [h]
    dsimp only
    split <;> rfl
  · rw [established_of_found env si s _ h]
    exact (acceptBound_fields env s a b tm).1

theorem lineloop_reIdx (env : Env) (si : Nat) (rest : List String) :
    ∀ s, s.reIdx ≠ -1 → (lineloop env si s rest).1.reIdx = s.reIdx := by
  induction rest with
  | nil => intro s _; rfl
  | cons l rest ih =>
    intro s h
    unfold lineloop
    dsimp only
    have c : (classify env si (readLine s l rest)).1.reIdx = s.reIdx :=
      classify_reIdx env si (readLine s l rest) h
    split
    · exact c
    · split
      · rw [ih _ (by dsimp only; rw [c]; exact h)]; exact c
      · rw [ih _ (by rw [c]; exact h)]; exact c

theorem refill_reIdx (env : Env) (si : Nat) (s : State) (hidx : s.reIdx ≠ -1) :
    (refill env si s).1.reIdx = s.reIdx := by
  unfold refill
  split
  · exact lineloop_reIdx env si _ s hidx
  · rfl

theorem classify_conf (env : Env) (conf' : List Match) (si : Nat) (s : State)
    (hidx : s.reIdx ≠ -1) (h : conf'[s.reIdx.toNat]? = env.conf[s.reIdx.toNat]?) :
    classify { env with conf := conf' } si s = classify env si s := by
  unfold classify
  rw [if_pos hidx, if_pos hidx]
  have hm : matchBound { env with conf := conf' } s = matchBound env s := by
    unfold matchBound
    dsimp only
    rw [h]
    rfl
  unfold established
  rw [hm]

theorem lineloop_conf (env : Env) (conf' : List Match) (si : Nat) (rest : List String) :
    ∀ s, s.reIdx ≠ -1 → conf'[s.reIdx.toNat]? = env.conf[s.reIdx.toNat]? →
      lineloop { env with conf := conf' } si s rest = lineloop env si s rest := by
  induction rest with
  | nil => intro s _ _; rfl
  | cons l rest ih =>
    intro s hidx h
    unfold lineloop
    dsimp only
    have c := classify_conf env conf' si (readLine s l rest) hidx h
    have c2 : (classify env si (readLine s l rest)).1.reIdx = s.reIdx :=
      classify_reIdx env si (readLine s l rest) hidx
    rw [c]
    split
    · rfl
    · split
      · rw [ih _ (by dsimp only; rw [c2]; exact hidx) (by dsimp only; rw [c2]; exact h)]
      · rw [ih _ (by rw [c2]; exact hidx) (by rw [c2]; exact h)]

/-! ## Rule binding -/

theorem parseTimestampFromMatch_eq (env : Env) (m : Match) (text : String) :
    parseTimestampFromMatch env m text = resolveText env m text := by
  unfold parseTimestampFromMatch resolveText explicitParse
  by_cases hf : m.Format = ""
  · rw [if_neg (not_not.mpr hf), if_pos hf]
  · rw [if_pos hf, if_neg hf]
    cases env.timeParse m.Format text <;> rfl

theorem resolve_isSome_iff (env : Env) (m : Match) (line : String) :
    Resolves env m line ↔ resolve env m line ≠ none := by
  unfold Resolves resolve
  constructor
  · rintro ⟨a, b, tm, h1, h2⟩
    rw [h1]
    dsimp only
    rw [parseTimestampFromMatch_eq, h2]
    simp
  · intro h
    cases h1 : m.re line with
    | none => rw [h1] at h; exact absurd rfl h
    | some p =>
      obtain ⟨a, b⟩ := p
      rw [h1] at h
      dsimp only at h
      cases h2 : parseTimestampFromMatch env m (slice line a b) with
      | none => rw [h2] at h; exact absurd rfl h
      | some tm => exact ⟨a, b, tm, rfl, by rw [← parseTimestampFromMatch_eq, h2]⟩

/-- The loop over the rule list binds the first rule that resolves the line. -/
theorem tryRules_least (env : Env) (s : State) (ms : List Match) :
    ∀ mi, (tryRules env s mi ms = (s, false) ∧ ∀ m ∈ ms, resolve env m s.line = none) ∨
      (∃ k m a b tm, ms[k]? = some m ∧ resolve env m s.line = some (a, b, tm) ∧
        (∀ j < k, ∀ m', ms[j]? = some m' → resolve env m' s.line = none) ∧
        tryRules env s mi ms = bindRule env s (mi + k) a b tm) := by
  induction ms with
  | nil => intro mi; exact Or.inl ⟨rfl, fun m hm => absurd hm (List.not_mem_nil _)⟩
  | cons m ms ih =>
    intro mi
    unfold tryRules
    cases hr : resolve env m s.line with
    | none =>
      dsimp only
      rcases ih (mi + 1) with ⟨h1, h2⟩ | ⟨k, m', a, b, tm, h1, h2, h3, h4⟩
      · left
        refine ⟨h1, ?_⟩
        intro x hx
        rcases List.mem_cons.mp hx with rfl | hx
        · exact hr
        · exact h2 x hx
      · right
        refine ⟨k + 1, m', a, b, tm, by simpa using h1, h2, ?_, by rw [h4]; congr 1; omega⟩
        intro j hj x hx
        cases j with
        | zero =>
          have : x = m := by simpa using hx.symm
          rw [this]; exact hr
        | succ j => exact h3 j (by omega) x (by simpa using hx)
    | some r =>
      obtain ⟨a, b, tm⟩ := r
      right
      exact ⟨0, m, a, b, tm, List.getElem?_cons_zero, hr,
        fun j hj => absurd hj (Nat.not_lt_zero _), rfl⟩

/-! ## Unparseable leading lines -/

theorem lineloop_cons_erase (env : Env) (si : Nat) (l : String) (rest : List String)
    (s s' : State) (hr : erase (readLine s l rest) = erase (readLine s' l rest)) :
    erase (lineloop env si s (l :: rest)).1 = erase (lineloop env si s' (l :: rest)).1 := by
  obtain ⟨c1, c2⟩ := classify_erase env si _ _ hr
  unfold lineloop
  dsimp only
  rw [← c2]
  by_cases hf : (classify env si (readLine s l rest)).2 = true
  · rw [if_pos hf, if_pos hf]
    exact c1
  · rw [if_neg hf, if_neg hf]
    split <;> split <;> exact lineloop_erase env si rest _ _ c1

/-- A stream with an established rule prints no warning. -/
theorem lineloop_quiet (env : Env) (si : Nat) (rest : List String) :
    ∀ s, s.reIdx ≠ -1 → (lineloop env si s rest).2 = [] := by
  induction rest with
  | nil => intro s _; rfl
  | cons l rest ih =>
    intro s h
    unfold lineloop
    dsimp only
    have c : (classify env si (readLine s l rest)).1.reIdx = s.reIdx :=
      classify_reIdx env si (readLine s l rest) h
    split
    · rfl
    · rw [if_neg (fun hh => h (by rw [← c]; exact hh.1))]
      exact ih _ (by rw [c]; exact h)

theorem lineloop_warned_ptr (env : Env) (si : Nat) (rest : List String) :
    ∀ s, ∀ w ∈ warned (lineloop env si s rest).2, w.scanner.ptr = s.scanner.ptr := by
  induction rest with
  | nil => intro s w hw; exact absurd hw (List.not_mem_nil _)
  | cons l rest ih =>
    intro s w hw
    unfold lineloop at hw
    dsimp only at hw
    obtain ⟨f1, -, -, -, -, -⟩ := classify_frame env si (readLine s l rest)
    have hp : (classify env si (readLine s l rest)).1.scanner.ptr = s.scanner.ptr := by
      rw [f1]; rfl
    split at hw
    · exact absurd hw (List.not_mem_nil _)
    · split at hw
      · rcases List.mem_cons.mp hw with rfl | hw
        · exact hp
        · rw [ih _ w hw]; exact hp
      · rw [ih _ w hw]; exact hp

theorem lineloop_cons (env : Env) (si : Nat) (s : State) (l : String) (rest : List String) :
    lineloop env si s (l :: rest) =
      if (classify env si (readLine s l rest)).2 = true then
        ((classify env si (readLine s l rest)).1, [])
      else if (classify env si (readLine s l rest)).1.reIdx = -1 ∧
          (classify env si (readLine s l rest)).1.warnedSkipping = false then
        ((lineloop env si { (classify env si (readLine s l rest)).1 with
            warnedSkipping := true } rest).1,
          Output.skipWarning (classify env si (readLine s l rest)).1 ::
            (lineloop env si { (classify env si (readLine s l rest)).1 with
              warnedSkipping := true } rest).2)
      else lineloop env si (classify env si (readLine s l rest)).1 rest := by
  conv => lhs; unfold lineloop

theorem classify_unresolved (env : Env) (si : Nat) (s : State) (h : s.reIdx = -1)
    (hno : ∀ m ∈ env.conf, resolve env m s.line = none) : classify env si s = (s, false) := by
  unfold classify
  rw [if_neg (not_not.mpr h)]
  rcases tryRules_least env s env.conf 0 with ⟨h1, -⟩ | ⟨k, m, a, b, tm, h1, h2, -, -⟩
  · exact h1
  · have := hno m (List.getElem?_mem h1)
    rw [h2] at this
    exact absurd this (by simp)

theorem classify_binds (env : Env) (si : Nat) (s : State) (h : s.reIdx = -1)
    (hgood : ∃ m ∈ env.conf, resolve env m s.line ≠ none) :
    (classify env si s).1.reIdx ≠ -1 := by
  unfold classify
  rw [if_neg (not_not.mpr h)]
  rcases tryRules_least env s env.conf 0 with ⟨-, h2⟩ | ⟨k, m, a, b, tm, -, -, -, h4⟩
  · obtain ⟨m, hm, hres⟩ := hgood
    exact absurd (h2 m hm) hres
  · rw [h4, (bindRule_fields env s (0 + k) a b tm).1]
    exact natCast_ne_neg_one _

/-- The leading lines that no rule resolves are read one after the other by a stream
without rule; the first of them is warned about, unless the stream was warned before. -/
theorem lineloop_junk (env : Env) (si : Nat) (tail : List String) (junk : List String)
    (hno : ∀ l ∈ junk, ∀ m ∈ env.conf, resolve env m l = none) :
    ∀ s, s.reIdx = -1 → ∃ sk pre,
      lineloop env si s (junk ++ tail) =
        ((lineloop env si sk tail).1, pre ++ (lineloop env si sk tail).2) ∧
      sk.reIdx = -1 ∧ (∀ l r, erase (readLine sk l r) = erase (readLine s l r)) ∧
      emitted pre = [] ∧
      (warned pre).length = (if s.warnedSkipping = false ∧ junk ≠ [] then 1 else 0) ∧
      (∀ w ∈ warned pre, w.scanner.ptr = s.scanner.ptr) := by
  induction junk with
  | nil =>
    intro s h
    exact ⟨s, [], rfl, h, fun l r => rfl, rfl, by simp [warned],
      fun w hw => absurd hw (List.not_mem_nil _)⟩
  | cons l junk ih =>
    intro s h
    have hc : classify env si (readLine s l (junk ++ tail)) =
        (readLine s l (junk ++ tail), false) :=
      classify_unresolved env si _ h (hno l (List.mem_cons_self _ _))
    have hno' : ∀ x ∈ junk, ∀ m ∈ env.conf, resolve env m x = none :=
      fun x hx => hno x (List.mem_cons_of_mem _ hx)
    rw [List.cons_append, lineloop_cons, hc]
    dsimp only
    rw [if_neg (by exact Bool.noConfusion)]
    by_cases hw : s.warnedSkipping = false
    · have hcond : (readLine s l (junk ++ tail)).reIdx = -1 ∧
          (readLine s l (junk ++ tail)).warnedSkipping = false := ⟨h, hw⟩
      rw [if_pos hcond]
      obtain ⟨sk, pre, h1, h2, h3, h4, h5, h6⟩ :=
        ih hno' { readLine s l (junk ++ tail) with warnedSkipping := true } h
      refine ⟨sk, Output.skipWarning (readLine s l (junk ++ tail)) :: pre, ?_, h2, ?_, ?_, ?_, ?_⟩
      · rw [h1]; rfl
      · intro l' r; rw [h3]; rfl
      · exact h4
      · have e : warned (Output.skipWarning (readLine s l (junk ++ tail)) :: pre) =
            readLine s l (junk ++ tail) :: warned pre := rfl
        rw [e, List.length_cons, h5]
        simp [hw]
      · intro w hwm
        rcases List.mem_cons.mp hwm with rfl | hwm
        · rfl
        · exact h6 w hwm
    · have hcond : ¬ ((readLine s l (junk ++ tail)).reIdx = -1 ∧
          (readLine s l (junk ++ tail)).warnedSkipping = false) := fun hh => hw hh.2
      rw [if_neg hcond]
      obtain ⟨sk, pre, h1, h2, h3, h4, h5, h6⟩ := ih hno' (readLine s l (junk ++ tail)) h
      refine ⟨sk, pre, h1, h2, ?_, h4, ?_, h6⟩
      · intro l' r; rw [h3]; rfl
      · rw [h5]
        have : (readLine s l (junk ++ tail)).warnedSkipping = s.warnedSkipping := rfl
        rw [this]
        simp [hw]

theorem refillAll_cons (env : Env) (si : Nat) (s : State) (ss : List State) :
    refillAll env si (s :: ss) =
      ((refill env si s).1 :: (refillAll env (si + 1) ss).1,
       (refill env si s).2 ++ (refillAll env (si + 1) ss).2) := rfl

theorem refillAll_append (env : Env) (A B : List State) :
    ∀ si, refillAll env si (A ++ B) =
      ((refillAll env si A).1 ++ (refillAll env (si + A.length) B).1,
       (refillAll env si A).2 ++ (refillAll env (si + A.length) B).2) := by
  induction A with
  | nil => intro si; rfl
  | cons a A ih =>
    intro si
    have e : si + 1 + A.length = si + (a :: A).length := by
      rw [List.length_cons]; omega
    rw [List.cons_append, refillAll_cons, refillAll_cons, ih (si + 1), e]
    simp only [List.cons_append, List.append_assoc]

theorem initStates_cons (env : Env) (i : Nat) (f : LogFile) (fs : List LogFile) :
    initStates env i (f :: fs) = initState env i f :: initStates env (i + 1) fs := rfl

theorem initStates_append (env : Env) (A B : List LogFile) :
    ∀ i, initStates env i (A ++ B) = initStates env i A ++ initStates env (i + A.length) B := by
  induction A with
  | nil => intro i; rfl
  | cons a A ih =>
    intro i
    have e : i + 1 + A.length = i + (a :: A).length := by
      rw [List.length_cons]; omega
    rw [List.cons_append, initStates_cons, initStates_cons, ih (i + 1), e]
    rfl

theorem initStates_length (env : Env) (A : List LogFile) :
    ∀ i, (initStates env i A).length = A.length := by
  induction A with
  | nil => intro i; rfl
  | cons a A ih => intro i; unfold initStates; rw [List.length_cons, List.length_cons, ih]

theorem initStates_ptr_lt (env : Env) (files : List LogFile) :
    ∀ i, ∀ s ∈ initStates env i files, s.scanner.ptr < i + files.length := by
  induction files with
  | nil => intro i s hs; exact absurd hs (List.not_mem_nil _)
  | cons f files ih =>
    intro i s hs
    unfold initStates at hs
    rw [List.length_cons]
    rcases List.mem_cons.mp hs with rfl | hs
    · show i < i + (files.length + 1)
      omega
    · have := ih _ s hs
      omega

theorem refillAll_warned_ptr (env : Env) (st : List State) :
    ∀ si, ∀ w ∈ warned (refillAll env si st).2, ∃ s ∈ st, w.scanner.ptr = s.scanner.ptr := by
  induction st with
  | nil => intro si w hw; exact absurd hw (List.not_mem_nil _)
  | cons s st ih =>
    intro si w hw
    unfold refillAll at hw
    dsimp only at hw
    rw [warned_append] at hw
    rcases List.mem_append.mp hw with hw | hw
    · refine ⟨s, List.mem_cons_self _ _, ?_⟩
      unfold refill at hw
      split at hw
      · exact lineloop_warned_ptr env si _ s w hw
      · exact absurd hw (List.not_mem_nil _)
    · obtain ⟨x, hx, hp⟩ := ih _ w hw
      exact ⟨x, List.mem_cons_of_mem _ hx, hp⟩

theorem refill_live_quiet (env : Env) (h : State) (hl : Live h) (hh : h.haveLine = false) :
    (refill env 0 h).2 = [] := by
  rcases refill_live env h hl hh with ⟨a1, -⟩ | ⟨l, rest, -, a2, -, -, -⟩
  · unfold refill
    rw [if_pos ⟨hh, hl.1⟩, a1]
    rfl
  · rw [a2]

/-- After the first pass no warning is printed: the warnings of a run are those of the
refill loop of its first pass. -/
theorem mergeLoop_warned (env : Env) :
    ∀ fuel lastFile st out, Shape st → mergeLoop env fuel lastFile st = some out →
      warned out = warned (refillAll env 0 st).2 := by
  intro fuel
  induction fuel with
  | zero => intro lastFile st out _ h; exact absurd h (by simp [mergeLoop])
  | succ fuel ih =>
    intro lastFile st out hs h
    cases hsort : sortSlice less (dropEof (refillAll env 0 st).1) with
    | nil =>
      unfold mergeLoop at h
      dsimp only at h
      rw [hsort] at h
      injection h with h
      rw [h]
    | cons x rest =>
      obtain ⟨o, ho, hout, -⟩ := mergeLoop_pass env fuel lastFile st out x rest hsort h
      obtain ⟨hl, hh, hshape⟩ := shape_pass env st hs x rest hsort
      have h1 := ih _ _ _ hshape ho
      have h2 : (refillAll env 0 (consume x :: rest)).2 = [] := by
        rcases hshape with hf | ⟨h', t', heq, hl', hh', ht'⟩
        · have := (hf (consume x) (List.mem_cons_self _ _)).2.2.2
          exact absurd this hl.2.2
        · obtain ⟨rfl, rfl⟩ := List.cons.inj heq
          unfold refillAll
          rw [refillAll_of_buffered env rest (fun s hs => (ht' s hs).2)]
          dsimp only
          rw [refill_live_quiet env (consume x) hl' hh']
          rfl
      rw [h2] at h1
      rw [hout, warned_append]
      show warned (refillAll env 0 st).2 ++ warned o = _
      rw [h1]
      exact List.append_nil _

/-! ## The discarded lines of the initial state -/

theorem stampOf_effective (env : Env) (rule : Option Nat) (line : String) :
    stampOf (effective env) rule line = stampOf env rule line := by
  unfold effective
  split
  · cases rule <;> rfl
  · rfl

theorem leadingDiscarded_effective (env : Env) (lines : List String) :
    ∀ rule, leadingDiscarded (effective env) rule lines = leadingDiscarded env rule lines := by
  induction lines with
  | nil => intro rule; rfl
  | cons l lines ih =>
    intro rule
    unfold leadingDiscarded
    rw [stampOf_effective, effective_startAfter]
    split
    · rw [ih]
    · split
      · rfl
      · rw [ih]

theorem initStates_yield (env : Env) (files : List LogFile) :
    ∀ i, ((initStates env i files).map (yield env)).sum +
        (files.map (fun f => leadingDiscarded env none (scanTokens f.lines))).sum =
      (files.map (fun f => (scanTokens f.lines).length)).sum := by
  induction files with
  | nil => intro i; rfl
  | cons f files ih =>
    intro i
    unfold initStates
    simp only [List.map_cons, List.sum_cons]
    have h1 : yield env (initState env i f) =
        (scanTokens f.lines).length - leadingDiscarded env none (scanTokens f.lines) := rfl
    have h2 := leadingDiscarded_le env (scanTokens f.lines) none
    have h3 := ih (i + 1)
    rw [h1]
    omega

/-- When every line of every file fits the buffer of the scanner, the streams of the
initial state yield all lines but the discarded leading ones. -/
theorem initStates_yield_fits (env : Env) (files : List LogFile)
    (hfit : ∀ f ∈ files, FitsBuffer f.lines) :
    ((initStates env 0 files).map (yield env)).sum +
        (files.map (fun f => leadingDiscarded env none f.lines)).sum = totalLines files := by
  have h := initStates_yield env files 0
  have e1 : files.map (fun f => leadingDiscarded env none (scanTokens f.lines)) =
      files.map (fun f => leadingDiscarded env none f.lines) :=
    List.map_congr_left (fun f hf => by rw [scanTokens_of_fits f.lines (hfit f hf)])
  have e2 : files.map (fun f => (scanTokens f.lines).length) =
      files.map (fun f => f.lines.length) :=
    List.map_congr_left (fun f hf => by rw [scanTokens_of_fits f.lines (hfit f hf)])
  rw [e1, e2] at h
  exact h

theorem leadingDiscarded_unparseable (env : Env) (lines : List String)
    (h : ∀ l ∈ lines, ∀ i tm, firstResolving env l = some (i, tm) → env.startAfter < tm) :
    leadingDiscarded env none lines = unparseableLeading env lines := by
  induction lines with
  | nil => rfl
  | cons l lines ih =>
    unfold leadingDiscarded unparseableLeading
    have e : stampOf env none l = firstResolving env l := rfl
    rw [e, List.takeWhile_cons]
    cases hf : firstResolving env l with
    | none =>
      dsimp only
      rw [ih (fun x hx => h x (List.mem_cons_of_mem _ hx))]
      unfold unparseableLeading
      simp [Nat.add_comm]
    | some r =>
      obtain ⟨i, tm⟩ := r
      dsimp only
      rw [if_pos (h l (List.mem_cons_self _ _) i tm hf)]
      simp

/-! ## Streams whose lines all carry a timestamp -/

theorem emitted_buffered (env : Env) :
    ∀ fuel lastFile st out, mergeLoop env fuel lastFile st = some out →
      ∀ e ∈ emitted out, e.haveLine = true ∧ e.eof = false := by
  intro fuel
  induction fuel with
  | zero => intro lastFile st out h; exact absurd h (by simp [mergeLoop])
  | succ fuel ih =>
    intro lastFile st out h e he
    cases hs : sortSlice less (dropEof (refillAll env 0 st).1) with
    | nil =>
      unfold mergeLoop at h
      dsimp only at h
      rw [hs] at h
      injection h with h
      rw [← h, refillAll_emitted] at he
      exact absurd he (List.not_mem_nil _)
    | cons x rest =>
      obtain ⟨o, ho, -, hem⟩ := mergeLoop_pass env fuel lastFile st out x rest hs h
      rw [hem] at he
      rcases List.mem_cons.mp he with rfl | he
      · exact buffered_of_mem_pass env st e (by rw [hs]; exact List.mem_cons_self _ _)
      · exact ih _ _ _ ho e he

theorem initStates_mem (env : Env) (files : List LogFile) :
    ∀ i, ∀ s ∈ initStates env i files, ∃ f, files[s.scanner.ptr - i]? = some f ∧
      i ≤ s.scanner.ptr ∧ s = initState env s.scanner.ptr f := by
  induction files with
  | nil => intro i s hs; exact absurd hs (List.not_mem_nil _)
  | cons f files ih =>
    intro i s hs
    rw [initStates_cons] at hs
    rcases List.mem_cons.mp hs with rfl | hs
    · refine ⟨f, ?_, Nat.le_refl _, rfl⟩
      show (f :: files)[i - i]? = some f
      rw [Nat.sub_self]
      exact List.getElem?_cons_zero
    · obtain ⟨g, h1, h2, h3⟩ := ih (i + 1) s hs
      refine ⟨g, ?_, by omega, h3⟩
      have e : s.scanner.ptr - i = (s.scanner.ptr - (i + 1)) + 1 := by omega
      rw [e, List.getElem?_cons_succ]
      exact h1

/-- The first rule that resolves the first line of a stream without rule is rule `i`:
the line binds the stream to it. -/
theorem classify_first (env : Env) (ts : String → Time) (i : Nat) (m : Match)
    (hm : env.conf[i]? = some m) (si : Nat) (s : State) (l0 : String) (rest : List String)
    (a b : Nat) (hres : resolve env m l0 = some (a, b, ts l0))
    (hfirst : ∀ j < i, ∀ m', env.conf[j]? = some m' → resolve env m' l0 = none)
    (hidx : s.reIdx = -1) :
    classify env si (readLine s l0 rest) =
      bindRule env (readLine s l0 rest) i a b (ts l0) := by
  have hidx' : (readLine s l0 rest).reIdx = -1 := hidx
  unfold classify
  rw [if_neg (not_not.mpr hidx')]
  rcases tryRules_least env (readLine s l0 rest) env.conf 0 with
    ⟨-, g2⟩ | ⟨k, m', a', b', tm', g1, g2, g3, g4⟩
  · have := g2 m (List.getElem?_mem hm)
    rw [show (readLine s l0 rest).line = l0 from rfl, hres] at this
    exact absurd this (by simp)
  · have hki : k = i := by
      rcases Nat.lt_trichotomy k i with hlt' | heq | hgt
      · have := hfirst k hlt' m' g1
        rw [show (readLine s l0 rest).line = l0 from rfl] at g2
        rw [g2] at this
        exact absurd this (by simp)
      · exact heq
      · have := g3 i hgt m hm
        rw [show (readLine s l0 rest).line = l0 from rfl, hres] at this
        exact absurd this (by simp)
    subst hki
    rw [hm] at g1
    injection g1 with g1
    subst g1
    rw [show (readLine s l0 rest).line = l0 from rfl, hres] at g2
    injection g2 with g2
    obtain ⟨rfl, rfl, rfl⟩ : a = a' ∧ b = b' ∧ ts l0 = tm' := by simpa using g2
    rw [g4, Nat.zero_add]

/-- The bound rule `i` resolves the line, to a timestamp after the cutoff: the line is
taken. -/
theorem classify_taken (env : Env) (ts : String → Time) (i : Nat) (m : Match)
    (hm : env.conf[i]? = some m) (si : Nat) (s : State) (l : String) (rest : List String)
    (a b : Nat) (hres : resolve env m l = some (a, b, ts l)) (hidx : s.reIdx = (i : Int))
    (hlt : env.startAfter < ts l) :
    classify env si (readLine s l rest) =
      (acceptBound env (readLine s l rest) a b (ts l), true) := by
  have hidx' : (readLine s l rest).reIdx ≠ -1 := by
    show s.reIdx ≠ -1
    rw [hidx]; exact natCast_ne_neg_one i
  have hmb : matchBound env (readLine s l rest) =
      (acceptBound env (readLine s l rest) a b (ts l), true) := by
    unfold matchBound
    rw [show (readLine s l rest).reIdx = s.reIdx from rfl, hidx, Int.toNat_ofNat, hm]
    dsimp only
    rw [show (readLine s l rest).line = l from rfl, hres]
    dsimp only
    rw [if_pos hlt]
  unfold classify
  rw [if_pos hidx']
  exact established_of_found env si _ _ hmb

/-- The bound rule `i` resolves the line of a stream that seeks its first line after
the cutoff, to a timestamp not after the cutoff: the line is passed over. -/
theorem classify_passed (env : Env) (ts : String → Time) (i : Nat) (m : Match)
    (hm : env.conf[i]? = some m) (si : Nat) (s : State) (l : String) (rest : List String)
    (a b : Nat) (hres : resolve env m l = some (a, b, ts l)) (hidx : s.reIdx = (i : Int))
    (hn : s.newEnough = false) (hle : ¬ env.startAfter < ts l) :
    classify env si (readLine s l rest) = (readLine s l rest, false) := by
  have hidx' : (readLine s l rest).reIdx ≠ -1 := by
    show s.reIdx ≠ -1
    rw [hidx]; exact natCast_ne_neg_one i
  have hmb : matchBound env (readLine s l rest) = (readLine s l rest, false) := by
    unfold matchBound
    rw [show (readLine s l rest).reIdx = s.reIdx from rfl, hidx, Int.toNat_ofNat, hm]
    dsimp only
    rw [show (readLine s l rest).line = l from rfl, hres]
    dsimp only
    rw [if_neg hle]
  unfold classify
  rw [if_pos hidx']
  apply established_of_miss env si _ hmb
  intro hh
  have : (readLine s l rest).newEnough = false := hn
  rw [this] at hh
  exact absurd hh.2 Bool.noConfusion

/-- The first refill of a stream whose lines all match rule `i`, under a cutoff not
before the zero instant: the lines with a timestamp not after the cutoff are passed
over, and the first line after the cutoff is taken with its own timestamp. -/
theorem lineloop_seeking (env : Env) (hc : 0 ≤ env.startAfter) (ts : String → Time)
    (i : Nat) (m : Match) (hm : env.conf[i]? = some m) (si : Nat) :
    ∀ (rest : List String) (s : State),
      s.newEnough = false → s.continuation = false → s.tm = 0 →
      (∀ l ∈ rest, ∃ a b, resolve env m l = some (a, b, ts l)) →
      (s.reIdx = (i : Int) ∨ (s.reIdx = -1 ∧ ∀ l0, rest.head? = some l0 →
        ∀ j < i, ∀ m', env.conf[j]? = some m' → resolve env m' l0 = none)) →
      ((lineloop env si s rest).1.eof = true ∧ ∀ l ∈ rest, ts l ≤ env.startAfter) ∨
      ((lineloop env si s rest).1.eof = false ∧
        (lineloop env si s rest).1.reIdx = (i : Int) ∧
        (lineloop env si s rest).1.newEnough = true ∧
        (lineloop env si s rest).1.continuation = false ∧
        ∃ pre l, rest = pre ++ l :: (lineloop env si s rest).1.scanner.rest ∧
          (lineloop env si s rest).1.tm = ts l ∧ env.startAfter < ts l ∧
          ∀ x ∈ pre, ts x ≤ env.startAfter) := by
  intro rest
  induction rest with
  | nil =>
    intro s _ _ _ _ _
    exact Or.inl ⟨rfl, fun l hl => absurd hl (List.not_mem_nil _)⟩
  | cons l0 rest ih =>
    intro s hn hk htm hall hidx
    obtain ⟨a, b, hres⟩ := hall l0 (List.mem_cons_self _ _)
    have hall' : ∀ l ∈ rest, ∃ a b, resolve env m l = some (a, b, ts l) :=
      fun l hl => hall l (List.mem_cons_of_mem _ hl)
    -- what the rest of the loop gives once the first line is passed over
    have hnext : ∀ s' : State, s'.newEnough = false → s'.continuation = false → s'.tm = 0 →
        s'.reIdx = (i : Int) → ts l0 ≤ env.startAfter →
        lineloop env si s (l0 :: rest) = lineloop env si s' rest →
        ((lineloop env si s (l0 :: rest)).1.eof = true ∧
          ∀ l ∈ l0 :: rest, ts l ≤ env.startAfter) ∨
        ((lineloop env si s (l0 :: rest)).1.eof = false ∧
          (lineloop env si s (l0 :: rest)).1.reIdx = (i : Int) ∧
          (lineloop env si s (l0 :: rest)).1.newEnough = true ∧
          (lineloop env si s (l0 :: rest)).1.continuation = false ∧
          ∃ pre l, l0 :: rest = pre ++ l :: (lineloop env si s (l0 :: rest)).1.scanner.rest ∧
            (lineloop env si s (l0 :: rest)).1.tm = ts l ∧ env.startAfter < ts l ∧
            ∀ x ∈ pre, ts x ≤ env.startAfter) := by
      intro s' h1 h2 h3 h4 hle heq
      rw [heq]
      rcases ih s' h1 h2 h3 hall' (Or.inl h4) with ⟨k1, k2⟩ | ⟨k1, k2, k3, k4, pre, l, k5, k6, k7, k8⟩
      · left
        refine ⟨k1, ?_⟩
        intro l hl
        rcases List.mem_cons.mp hl with rfl | hl
        · exact hle
        · exact k2 l hl
      · right
        refine ⟨k1, k2, k3, k4, l0 :: pre, l, ?_, k6, k7, ?_⟩
        · rw [List.cons_append, ← k5]
        · intro x hx
          rcases List.mem_cons.mp hx with rfl | hx
          · exact hle
          · exact k8 x hx
    by_cases hlt : env.startAfter < ts l0
    · -- the first line is taken
      right
      rcases hidx with hidx | ⟨hidx, hfirst⟩
      · have hcl := classify_taken env ts i m hm si s l0 rest a b hres hidx hlt
        obtain ⟨e1, e2, e3⟩ := acceptBound_fields env (readLine s l0 rest) a b (ts l0)
        obtain ⟨f1, f2, -, -, -, -⟩ := acceptBound_frame env (readLine s l0 rest) a b (ts l0)
        rw [lineloop_cons, hcl, if_pos rfl]
        rcases e3 with ⟨g1, -, -⟩ | ⟨-, g2, g3⟩
        · have h0 : (readLine s l0 rest).tm = 0 := htm
          rw [h0] at g1
          exact absurd (lt_of_le_of_lt hc (lt_trans hlt g1)) (lt_irrefl _)
        · refine ⟨by rw [f2]; rfl, by rw [e1]; exact hidx, e2, by rw [g2]; exact hk,
            [], l0, ?_, g3, hlt, fun x hx => absurd hx (List.not_mem_nil _)⟩
          rw [f1]
          rfl
      · have hcl := classify_first env ts i m hm si s l0 rest a b hres
          (hfirst l0 rfl) hidx
        obtain ⟨e1, e2, e3⟩ := bindRule_fields env (readLine s l0 rest) i a b (ts l0)
        obtain ⟨f1, f2, -, -, -, -⟩ := bindRule_frame env (readLine s l0 rest) i a b (ts l0)
        rcases e3 with ⟨g1, -, g3, g4⟩ | ⟨-, g2, -, -⟩
        · rw [lineloop_cons, hcl, if_pos g1]
          refine ⟨by rw [f2]; rfl, e1, g3, by rw [e2]; exact hk, [], l0, ?_, g4, hlt,
            fun x hx => absurd hx (List.not_mem_nil _)⟩
          rw [f1]
          rfl
        · exact absurd (lt_of_lt_of_le hlt g2) (lt_irrefl _)
    · -- the first line is passed over
      have hle : ts l0 ≤ env.startAfter := not_lt.mp hlt
      rcases hidx with hidx | ⟨hidx, hfirst⟩
      · have hcl := classify_passed env ts i m hm si s l0 rest a b hres hidx hn hlt
        apply hnext (readLine s l0 rest) hn hk htm hidx hle
        have hidx' : ¬ ((readLine s l0 rest).reIdx = -1 ∧
            (readLine s l0 rest).warnedSkipping = false) := by
          intro hh
          have h5 : (readLine s l0 rest).reIdx = (i : Int) := hidx
          rw [h5] at hh
          exact natCast_ne_neg_one i hh.1
        rw [lineloop_cons, hcl]
        dsimp only
        rw [if_neg Bool.noConfusion, if_neg hidx']
      · have hcl := classify_first env ts i m hm si s l0 rest a b hres
          (hfirst l0 rfl) hidx
        obtain ⟨e1, e2, e3⟩ := bindRule_fields env (readLine s l0 rest) i a b (ts l0)
        rcases e3 with ⟨-, g2, -, -⟩ | ⟨g1, -, g3, g4⟩
        · exact absurd g2 hlt
        · apply hnext (bindRule env (readLine s l0 rest) i a b (ts l0)).1
            (by rw [g3]; exact hn) (by rw [e2]; exact hk) (by rw [g4]; exact htm) e1 hle
          have hidx' : ¬ ((bindRule env (readLine s l0 rest) i a b (ts l0)).1.reIdx = -1 ∧
              (bindRule env (readLine s l0 rest) i a b (ts l0)).1.warnedSkipping = false) := by
            intro hh
            rw [e1] at hh
            exact natCast_ne_neg_one i hh.1
          have g1' : ¬ (bindRule env (readLine s l0 rest) i a b (ts l0)).2 = true := by
            rw [g1]; exact Bool.noConfusion
          rw [lineloop_cons, hcl, if_neg g1', if_neg hidx']

/-- A stream whose lines all match its rule, with timestamps that do not decrease,
reads at each refill the next line after the cutoff and takes its timestamp as an
advance. -/
theorem lineloop_onTrack (env : Env) (hc : 0 ≤ env.startAfter) (ts : String → Time)
    (L : List String) (i : Nat) (m : Match) (hrule : RuleFor env ts L i m) (si : Nat)
    (s : State) (hs : OnTrack env.startAfter ts L i s) (he : s.eof = false) :
    OnTrack env.startAfter ts L i (lineloop env si s s.scanner.rest).1 := by
  obtain ⟨hm, hall, hfirst, hsorted⟩ := hrule
  rcases hs with ⟨-, h2, h3, h4, h5, h6⟩ | h1 | ⟨h1, h2, h3, hcut, pre, l, h4, h5⟩
  · rw [h6]
    rcases lineloop_seeking env hc ts i m hm si L s h3 h4 h5 hall (Or.inr ⟨h2, hfirst⟩) with
      ⟨k1, -⟩ | ⟨-, k2, k3, k4, pre, l, k5, k6, k7, -⟩
    · exact Or.inr (Or.inl k1)
    · refine Or.inr (Or.inr ⟨k2, k3, k4, ?_, pre, l, k5, k6⟩)
      rw [k6]
      exact k7
  · rw [he] at h1
    exact absurd h1 Bool.noConfusion
  · cases hrest : s.scanner.rest with
    | nil => exact Or.inr (Or.inl rfl)
    | cons l' rest =>
      rw [hrest] at h4
      have hl' : l' ∈ L := by rw [h4]; simp
      obtain ⟨a, b, hres⟩ := hall l' hl'
      have hle : ts l ≤ ts l' := by
        rw [h4] at hsorted
        have := (List.pairwise_append.mp hsorted).2.1
        exact (List.pairwise_cons.mp this).1 l' (List.mem_cons_self _ _)
      have hlt : env.startAfter < ts l' := by
        rw [h5] at hcut
        exact lt_of_lt_of_le hcut hle
      have hcl := classify_taken env ts i m hm si s l' rest a b hres h1 hlt
      obtain ⟨e1, e2, e3⟩ := acceptBound_fields env (readLine s l' rest) a b (ts l')
      obtain ⟨f1, -, -, -, -, -⟩ := acceptBound_frame env (readLine s l' rest) a b (ts l')
      rw [lineloop_cons, hcl, if_pos rfl]
      right; right
      rcases e3 with ⟨g1, -, -⟩ | ⟨-, g2, g3⟩
      · have : (readLine s l' rest).tm = ts l := h5
        rw [this] at g1
        exact absurd (lt_of_lt_of_le g1 hle) (lt_irrefl _)
      · refine ⟨by rw [e1]; exact h1, e2, by rw [g2]; exact h3, by rw [g3]; exact hlt,
          pre ++ [l], l', ?_, g3⟩
        rw [f1, h4]
        simp [readLine]

theorem refill_onTrack (env : Env) (hc : 0 ≤ env.startAfter) (ts : String → Time)
    (L : List String) (i : Nat) (m : Match) (hrule : RuleFor env ts L i m) (si : Nat)
    (s : State) (hs : OnTrack env.startAfter ts L i s) :
    OnTrack env.startAfter ts L i (refill env si s).1 := by
  unfold refill
  split
  · rename_i h
    exact lineloop_onTrack env hc ts L i m hrule si s hs h.2
  · exact hs

theorem consume_onTrack (c : Time) (ts : String → Time) (L : List String) (i : Nat)
    (s : State) (hs : OnTrack c ts L i s) : OnTrack c ts L i (consume s) := by
  rcases hs with ⟨-, h2, h3, -, h5, h6⟩ | h1 | ⟨h1, h2, -, h4, h5⟩
  · exact Or.inl ⟨rfl, h2, h3, rfl, h5, h6⟩
  · exact Or.inr (Or.inl h1)
  · exact Or.inr (Or.inr ⟨h1, h2, rfl, h4, h5⟩)

theorem stamped_effective (env : Env) (ts : String → Time) (lines : List String)
    (h : Stamped env ts lines) : Stamped (effective env) ts lines := by
  obtain ⟨i, m, h1, h2, h3, h4⟩ := h
  refine ⟨i, m, by rw [effective_conf]; exact h1, ?_, ?_, h4⟩
  · intro l hl
    obtain ⟨a, b, hr⟩ := h2 l hl
    exact ⟨a, b, by rw [resolve_effective]; exact hr⟩
  · intro l0 hl0 j hj m' hm'
    rw [resolve_effective]
    rw [effective_conf] at hm'
    exact h3 l0 hl0 j hj m' hm'

/-- Of a stream whose lines all match its rule with timestamps that do not decrease,
the discarded leading lines are the lines with a timestamp not after the cutoff. -/
theorem leadingDiscarded_stamped (env : Env) (hc : 0 ≤ env.startAfter)
    (ts : String → Time) (lines : List String) (h : Stamped env ts lines) :
    leadingDiscarded env none lines + (afterCutoff env ts lines).length = lines.length := by
  obtain ⟨i, m, hm, hall, hfirst, hsorted⟩ := h
  have hd := lineloop_discarded env 0 lines (initState env 0 ⟨"", lines⟩) rfl
  have hb : bound (initState env 0 ⟨"", lines⟩) = none := rfl
  rw [hb] at hd
  rcases lineloop_seeking env hc ts i m hm 0 lines (initState env 0 ⟨"", lines⟩) rfl rfl rfl
    hall (Or.inr ⟨rfl, hfirst⟩) with ⟨k1, k2⟩ | ⟨k1, -, -, -, pre, l, k5, -, k7, k8⟩
  · rcases hd with ⟨-, a2⟩ | ⟨a1, -⟩
    · have : afterCutoff env ts lines = [] := by
        unfold afterCutoff
        rw [List.filter_eq_nil_iff]
        intro x hx hh
        exact absurd (lt_of_lt_of_le (of_decide_eq_true hh) (k2 x hx)) (lt_irrefl _)
      rw [this, a2]
      rfl
    · rw [k1] at a1
      exact absurd a1 Bool.noConfusion
  · rcases hd with ⟨a1, -⟩ | ⟨-, -, -, -, a5⟩
    · rw [k1] at a1
      exact absurd a1 Bool.noConfusion
    · have hpre : (pre.filter (fun x => decide (env.startAfter < ts x))) = [] := by
        rw [List.filter_eq_nil_iff]
        intro x hx hh
        exact absurd (lt_of_lt_of_le (of_decide_eq_true hh) (k8 x hx)) (lt_irrefl _)
      have htail : ((l :: (lineloop env 0 (initState env 0 ⟨"", lines⟩) lines).1.scanner.rest).filter
          (fun x => decide (env.startAfter < ts x))) =
          l :: (lineloop env 0 (initState env 0 ⟨"", lines⟩) lines).1.scanner.rest := by
        rw [List.filter_eq_self]
        intro x hx
        apply decide_eq_true
        rcases List.mem_cons.mp hx with rfl | hx
        · exact k7
        · have hs2 := hsorted
          rw [k5] at hs2
          have := (List.pairwise_append.mp hs2).2.1
          exact lt_of_lt_of_le k7 ((List.pairwise_cons.mp this).1 x hx)
      have hlen : (afterCutoff env ts lines).length =
          (lineloop env 0 (initState env 0 ⟨"", lines⟩) lines).1.scanner.rest.length + 1 := by
        unfold afterCutoff
        conv => lhs; rw [k5]
        rw [List.filter_append, hpre, htail]
        rfl
      rw [hlen]
      omega

/-- The lines the scanner delivers of a stamped content are stamped. -/
theorem stamped_scanTokens (env : Env) (ts : String → Time) (lines : List String)
    (h : Stamped env ts lines) : Stamped env ts (scanTokens lines) := by
  obtain ⟨i, m, h1, h2, h3, h4⟩ := h
  obtain ⟨post, hp⟩ := scanTokens_prefix lines
  have hmem : ∀ l ∈ scanTokens lines, l ∈ lines := by
    intro l hl
    rw [hp]
    exact List.mem_append_left _ hl
  refine ⟨i, m, h1, fun l hl => h2 l (hmem l hl), ?_, ?_⟩
  · intro l0 hl0
    apply h3 l0
    cases hs : scanTokens lines with
    | nil => rw [hs] at hl0; exact absurd hl0 (by simp)
    | cons x xs =>
      rw [hs] at hl0 hp
      rw [hp]
      exact hl0
  · rw [hp] at h4
    exact (List.pairwise_append.mp h4).1

/-- When every line of every stream matches the rule of its stream, with timestamps
that do not decrease along the stream, and the cutoff is not before the zero instant:
as many lines are emitted as the scanners deliver with a timestamp after the cutoff,
each as an advance with its own timestamp as the stored timestamp. -/
theorem cmain_stamped (env : Env) (hc : 0 ≤ env.startAfter) (files : List LogFile)
    (ts : String → Time) (h : ∀ f ∈ files, Stamped env ts f.lines) :
    ∃ out, cmain env files = some out ∧
      (emitted out).length =
        (files.map (fun f => (afterCutoff env ts (scanTokens f.lines)).length)).sum ∧
      ∀ e ∈ emitted out, e.continuation = false ∧ env.startAfter < e.tm ∧
        ∃ f pre l, files[e.scanner.ptr]? = some f ∧
          scanTokens f.lines = pre ++ l :: e.scanner.rest ∧ e.tm = ts l := by
  have hc2 : 0 ≤ (effective env).startAfter := by
    rw [effective_startAfter]; exact hc
  obtain ⟨out, ho⟩ := cmain_returns env files
  refine ⟨out, ho, ?_, ?_⟩
  · have h1 := mergeLoop_count (effective env) _ _ _ out
      (Or.inl (initStates_fresh (effective env) files 0)) ho
    have h2 := initStates_yield (effective env) files 0
    have h3 : (files.map (fun f =>
          leadingDiscarded (effective env) none (scanTokens f.lines))).sum +
        (files.map (fun f => (afterCutoff env ts (scanTokens f.lines)).length)).sum =
        (files.map (fun f => (scanTokens f.lines).length)).sum := by
      rw [← List.sum_map_add]
      apply congrArg
      apply List.map_congr_left
      intro f hf
      have := leadingDiscarded_stamped (effective env) hc2 ts (scanTokens f.lines)
        (stamped_effective env ts _ (stamped_scanTokens env ts f.lines (h f hf)))
      unfold afterCutoff at this ⊢
      rw [effective_startAfter] at this
      exact this
    rw [h1]
    omega
  · intro e he
    obtain ⟨hbuf, heof⟩ : e.haveLine = true ∧ e.eof = false :=
      emitted_buffered (effective env) _ _ _ out ho e he
    obtain ⟨s, hs, hp, hR⟩ := mergeLoop_related (effective env)
      (fun a b => ∀ (L : List String) (i : Nat) (m : Match),
        RuleFor (effective env) ts L i m → OnTrack (effective env).startAfter ts L i a →
          OnTrack (effective env).startAfter ts L i b)
      (fun si a L i m g1 g5 => refill_onTrack _ hc2 ts L i m g1 si a g5)
      (fun a L i m _ g5 => consume_onTrack _ ts L i a g5)
      (fun a b c hab hbc L i m g1 g5 => hbc L i m g1 (hab L i m g1 g5))
      _ _ _ out ho e he
    obtain ⟨f, hf1, -, hf3⟩ := initStates_mem (effective env) files 0 s hs
    rw [Nat.sub_zero] at hf1
    obtain ⟨i, m, g1⟩ := stamped_effective env ts _
      (stamped_scanTokens env ts f.lines (h f (List.getElem?_mem hf1)))
    have hinit : OnTrack (effective env).startAfter ts (scanTokens f.lines) i s := by
      rw [hf3]
      exact Or.inl ⟨rfl, rfl, rfl, rfl, rfl, rfl⟩
    rcases hR (scanTokens f.lines) i m g1 hinit with
      ⟨k1, -⟩ | k1 | ⟨-, -, k3, kc, pre, l, k4, k5⟩
    · rw [hbuf] at k1
      exact absurd k1 Bool.noConfusion
    · rw [heof] at k1
      exact absurd k1 Bool.noConfusion
    · rw [effective_startAfter] at kc
      exact ⟨k3, kc, f, pre, l, by rw [hp]; exact hf1, k4, k5⟩

/-- Both streams of `scenarioAB` are stamped by the rule of the concrete environment. -/
theorem scenarioAB_stamped : ∀ f ∈ scenarioAB, Stamped (demoEnv 0) lineStamp f.lines := by
  intro f hf
  simp only [scenarioAB, List.mem_cons, List.mem_singleton, List.not_mem_nil, or_false] at hf
  rcases hf with rfl | rfl
  · refine ⟨0, stampRule, rfl, ?_, ?_, by decide⟩
    · intro l hl
      simp only [List.mem_cons, List.mem_singleton, List.not_mem_nil, or_false] at hl
      rcases hl with rfl | rfl
      · exact ⟨0, 19, by decide⟩
      · exact ⟨0, 19, by decide⟩
    · intro l0 _ j hj
      exact absurd hj (Nat.not_lt_zero j)
  · refine ⟨0, stampRule, rfl, ?_, ?_, by decide⟩
    · intro l hl
      simp only [List.mem_cons, List.mem_singleton, List.not_mem_nil, or_false] at hl
      rcases hl with rfl
      exact ⟨0, 19, by decide⟩
    · intro l0 _ j hj
      exact absurd hj (Nat.not_lt_zero j)

/-! ## The source labels over the run -/

theorem logLines_append (a b : List Output) : logLines (a ++ b) = logLines a ++ logLines b := by
  induction a with
  | nil => rfl
  | cons x a ih =>
    cases x with
    | skipWarning s => exact ih
    | logLine s arg =>
      show (s, arg) :: logLines (a ++ b) = (s, arg) :: logLines a ++ logLines b
      rw [ih]
      rfl

/-- A `lineloop` prints no log line. -/
theorem lineloop_logLines (env : Env) (si : Nat) (rest : List String) :
    ∀ s, logLines (lineloop env si s rest).2 = [] := by
  induction rest with
  | nil => intro s; rfl
  | cons l rest ih =>
    intro s
    unfold lineloop
    dsimp only
    split
    · rfl
    · split
      · exact ih _
      · exact ih _

theorem refillAll_logLines (env : Env) (st : List State) :
    ∀ si, logLines (refillAll env si st).2 = [] := by
  induction st with
  | nil => intro si; rfl
  | cons s st ih =>
    intro si
    unfold refillAll
    dsimp only
    rw [logLines_append, ih]
    unfold refill
    split
    · rw [lineloop_logLines]; rfl
    · rfl

theorem lastEmitted_cons (start : String) (p : State × String)
    (pre : List (State × String)) :
    lastEmitted start (p :: pre) = lastEmitted p.1.filename pre := by
  cases pre with
  | nil => rfl
  | cons q pre =>
    unfold lastEmitted
    rw [List.getLast?_cons_cons]
    cases h : (q :: pre).getLast? with
    | none => exact absurd (List.getLast?_eq_none_iff.mp h) (by simp)
    | some r => rfl

/-- The label of lines 657-665, by cases: the name of the source when the source
changed and the line is not a continuation, the empty string otherwise. -/
theorem logFileArg_eq (env : Env) (lastFile : String) (s : State) :
    logFileArg env lastFile s =
      if lastFile ≠ s.filename ∧ s.continuation = false then sourceName env s else "" := by
  unfold logFileArg sourceName
  by_cases h1 : s.continuation = true
  · rw [if_pos (Or.inl h1), if_neg]
    intro hh
    rw [h1] at hh
    exact absurd hh.2 Bool.noConfusion
  · by_cases h2 : lastFile = s.filename
    · rw [if_pos (Or.inr h2), if_neg]
      intro hh
      exact hh.1 h2
    · have h3 : lastFile ≠ s.filename ∧ s.continuation = false :=
        ⟨h2, by simpa using h1⟩
      rw [if_neg (fun hh => hh.elim h1 h2), if_pos h3]

theorem sourceName_effective (env : Env) (s : State) :
    sourceName (effective env) s = sourceName env s := by
  unfold sourceName effective
  split <;> rfl

/-- Every log line of a run of the merge loop carries the label computed from the
file of the emission before it. -/
theorem mergeLoop_labels (env : Env) :
    ∀ fuel lastFile st out, mergeLoop env fuel lastFile st = some out →
      ∀ pre s arg post, logLines out = pre ++ (s, arg) :: post →
        arg = logFileArg env (lastEmitted lastFile pre) s := by
  intro fuel
  induction fuel with
  | zero => intro lastFile st out h; exact absurd h (by simp [mergeLoop])
  | succ fuel ih =>
    intro lastFile st out h pre s arg post hl
    cases hs : sortSlice less (dropEof (refillAll env 0 st).1) with
    | nil =>
      unfold mergeLoop at h
      dsimp only at h
      rw [hs] at h
      injection h with h
      rw [← h, refillAll_logLines] at hl
      exact absurd hl.symm (by simp)
    | cons x rest =>
      obtain ⟨o, ho, hout, -⟩ := mergeLoop_pass env fuel lastFile st out x rest hs h
      rw [hout, logLines_append, refillAll_logLines] at hl
      have hl2 : (x, logFileArg env lastFile x) :: logLines o = pre ++ (s, arg) :: post := hl
      cases pre with
      | nil =>
        have := List.cons.inj hl2
        obtain ⟨h1, -⟩ := this
        have h2 : x = s := congrArg Prod.fst h1
        have h3 : logFileArg env lastFile x = arg := congrArg Prod.snd h1
        rw [← h3, h2]
        rfl
      | cons p pre =>
        obtain ⟨h1, h2⟩ := List.cons.inj hl2
        rw [lastEmitted_cons, ← h1]
        exact ih _ _ _ ho pre s arg post h2

/-! ## The claims -/

/-- The lines of `scenarioAB` fit the buffer of the scanner. -/
theorem scenarioAB_fits : ∀ f ∈ scenarioAB, FitsBuffer f.lines := by
  intro f hf l hl
  simp only [scenarioAB, List.mem_cons, List.mem_singleton, List.not_mem_nil, or_false] at hf
  rcases hf with rfl | rfl
  · simp only [List.mem_cons, List.mem_singleton, List.not_mem_nil, or_false] at hl
    rcases hl with rfl | rfl <;> decide
  · simp only [List.mem_singleton] at hl
    subst hl
    decide

/-- C1. With the default cutoff (the zero instant) the merge loop of `cmain` comes to
its end on every list of files and every rule list, and the stored timestamps
`state[0].tm` of the emitted heads are non-decreasing over the successive emissions. In
particular, when every line matches the rule of its stream and the timestamps do not
decrease within each stream (`Stamped`), every emitted line is a line its scanner
delivered that carries its own timestamp as the stored one and is not a continuation:
the lines come out in ascending timestamp order; and when moreover every line fits the
buffer of its scanner, as many lines are emitted as have a timestamp after the cutoff.
For stream A = [10:00:00, 10:00:05] and stream B = [10:00:02] the emission order is
A@10:00:00, B@10:00:02, A@10:00:05. -/
theorem merged_output_chronological (env : Env) (files : List LogFile)
    (hc : env.startAfter = 0) :
    (∃ out, cmain env files = some out ∧
      (emitted out).Pairwise (fun a b => a.tm ≤ b.tm) ∧
      ∀ ts : String → Time, (∀ f ∈ files, Stamped env ts f.lines) →
        ((∀ f ∈ files, FitsBuffer f.lines) →
          (emitted out).length = linesAfterCutoff env ts files) ∧
        ∀ e ∈ emitted out, e.continuation = false ∧
          ∃ f pre l, files[e.scanner.ptr]? = some f ∧
            scanTokens f.lines = pre ++ l :: e.scanner.rest ∧ e.tm = ts l) ∧
    (cmain (demoEnv 0) scenarioAB).map stamps =
      some [("A", civil 2020 10 5 10 0 0), ("B", civil 2020 10 5 10 0 2),
            ("A", civil 2020 10 5 10 0 5)] := by
  refine ⟨?_, by decide⟩
  obtain ⟨out, ho⟩ := cmain_returns env files
  refine ⟨out, ho, ?_, ?_⟩
  · have hc2 : 0 ≤ (effective env).startAfter := by
      rw [effective_startAfter, hc]
    exact (mergeLoop_sorted (effective env) hc2 _ _ (effective env).startAfter _ out
      (Or.inl ⟨initStates_fresh _ files 0, le_refl _⟩) ho).1
  · intro ts hts
    obtain ⟨out', ho', h1, h2⟩ := cmain_stamped env (le_of_eq hc.symm) files ts hts
    rw [ho] at ho'
    injection ho' with ho'
    subst ho'
    refine ⟨?_, fun e he => ⟨(h2 e he).1, (h2 e he).2.2⟩⟩
    intro hfit
    rw [h1]
    unfold linesAfterCutoff
    apply congrArg
    exact List.map_congr_left (fun f hf => by rw [scanTokens_of_fits f.lines (hfit f hf)])

theorem merged_output_chronological_witness :
    (demoEnv 0).startAfter = 0 ∧
    (∀ f ∈ scenarioAB, Stamped (demoEnv 0) lineStamp f.lines) ∧
    (∀ f ∈ scenarioAB, FitsBuffer f.lines) ∧
    ((∃ out, cmain (demoEnv 0) scenarioAB = some out ∧
      (emitted out).Pairwise (fun a b => a.tm ≤ b.tm) ∧
      ∀ ts : String → Time, (∀ f ∈ scenarioAB, Stamped (demoEnv 0) ts f.lines) →
        ((∀ f ∈ scenarioAB, FitsBuffer f.lines) →
          (emitted out).length = linesAfterCutoff (demoEnv 0) ts scenarioAB) ∧
        ∀ e ∈ emitted out, e.continuation = false ∧
          ∃ f pre l, scenarioAB[e.scanner.ptr]? = some f ∧
            scanTokens f.lines = pre ++ l :: e.scanner.rest ∧ e.tm = ts l) ∧
    (cmain (demoEnv 0) scenarioAB).map stamps =
      some [("A", civil 2020 10 5 10 0 0), ("B", civil 2020 10 5 10 0 2),
            ("A", civil 2020 10 5 10 0 5)]) :=
  ⟨rfl, scenarioAB_stamped, scenarioAB_fits,
    merged_output_chronological (demoEnv 0) scenarioAB rfl⟩

/-- C2, where the code meets it. With at most 12 input files (where `sort.Slice` is
the insertion sort of `sortSlice`, for every cutoff) or with a cutoff not before the
zero instant (where the comparator orders the streams): at every pass of the merge loop
(scheduling step), for any two streams `A` and `B` of the reordered `state` (both hold a
buffered line), if neither is continuation-flagged and the stored timestamp of `A` is
strictly earlier than that of `B`, then the rest of the run emits the buffered line of
`A` before the buffered line of `B`: `A` is the first line emitted from its stream, `B`
the first from its stream, and `A` comes first. -/
theorem earlier_head_emitted_first (env : Env) (files : List LogFile)
    (_hscope : files.length ≤ 12 ∨ 0 ≤ env.startAfter) (lastFile : String)
    (st : List State) (hr : Reach env files lastFile st) (A B : State)
    (hA : A ∈ sortSlice less (dropEof (refillAll env 0 st).1))
    (hB : B ∈ sortSlice less (dropEof (refillAll env 0 st).1))
    (hAc : A.continuation = false) (hBc : B.continuation = false) (hlt : A.tm < B.tm) :
    ∃ out pre mid post, mergeLoop env (fuelFor st) lastFile st = some out ∧
      emitted out = pre ++ A :: (mid ++ B :: post) ∧
      (∀ e ∈ pre, e.scanner.ptr ≠ A.scanner.ptr ∧ e.scanner.ptr ≠ B.scanner.ptr) ∧
      (∀ e ∈ mid, e.scanner.ptr ≠ B.scanner.ptr) := by
  obtain ⟨out, ho⟩ := mergeLoop_returns env (fuelFor st) lastFile st (Nat.lt_succ_self _)
  obtain ⟨pre, mid, post, h1, h2, h3⟩ := ordered_emission env _ _ _ _ ho
    (reach_ptrNodup env files lastFile st hr) A hA B hB hAc hBc hlt
  exact ⟨out, pre, mid, post, ho, h1, h2, h3⟩

theorem earlier_head_emitted_first_witness :
    (scenarioAB.length ≤ 12 ∨ (0 : Int) ≤ (demoEnv 0).startAfter) ∧
    headA ∈ sortSlice less
      (dropEof (refillAll (demoEnv 0) 0 (initStates (demoEnv 0) 0 scenarioAB)).1) ∧
    headB ∈ sortSlice less
      (dropEof (refillAll (demoEnv 0) 0 (initStates (demoEnv 0) 0 scenarioAB)).1) ∧
    headA.continuation = false ∧ headB.continuation = false ∧ headA.tm < headB.tm ∧
    ∃ out pre mid post,
      mergeLoop (demoEnv 0) (fuelFor (initStates (demoEnv 0) 0 scenarioAB)) ""
        (initStates (demoEnv 0) 0 scenarioAB) = some out ∧
      emitted out = pre ++ headA :: (mid ++ headB :: post) ∧
      (∀ e ∈ pre, e.scanner.ptr ≠ headA.scanner.ptr ∧ e.scanner.ptr ≠ headB.scanner.ptr) ∧
      (∀ e ∈ mid, e.scanner.ptr ≠ headB.scanner.ptr) :=
  ⟨Or.inl (by decide), by decide, by decide, by decide, by decide, by decide,
    earlier_head_emitted_first (demoEnv 0) scenarioAB (Or.inl (by decide)) "" _
      Reach.init headA headB
      (by decide) (by decide) (by decide) (by decide) (by decide)⟩

/-- The state handed to `sort.Slice` in the first pass on `twentyStreams` under the
cutoff of March 1 of year 0: twenty active streams, of which `s01`, `s05` and `s16` are
not continuation-flagged and hold lines of March 2, 3 and 4, and the others are flagged
with the stored timestamp zero. That is more than the 12 elements up to which
`sortSlice` is the reordering of `sort.Slice`. -/
theorem twentyStreams_first_pass :
    twentyStreams.length = 20 ∧
    (flags (dropEof (refillAll (demoEnv yearZeroCutoff) 0
        (initStates (demoEnv yearZeroCutoff) 0 twentyStreams)).1)).filter
        (fun p => !p.2.1) =
      [("s01", false, civil 0 3 2 0 0 0), ("s05", false, civil 0 3 3 0 0 0),
       ("s16", false, civil 0 3 4 0 0 0)] ∧
    ((flags (dropEof (refillAll (demoEnv yearZeroCutoff) 0
        (initStates (demoEnv yearZeroCutoff) 0 twentyStreams)).1)).filter
        (fun p => p.2.1)).map (fun p => p.2.2) = List.replicate 17 0 := by
  decide

theorem acceptBound_line (env : Env) (s : State) (a b : Nat) (tm : Time) :
    (acceptBound env s a b tm).line =
      if env.opts.DontReplaceTimestamp = true then s.line
      else redact s.line a b env.opts.ReplaceTimestampToken := by
  unfold acceptBound replaceSpan
  dsimp only
  split <;> split <;> rfl

/-- A continuation-flagged head that is not later than the unflagged streams behind it
stays the head. -/
theorem sorted_flagged_head (c : State) (t : List State) (hc : c.continuation = true)
    (ht : ∀ s ∈ t, s.continuation = false ∧ c.tm ≤ s.tm) :
    ∃ rest, sortSlice less (c :: t) = c :: rest := by
  have hp := sortSlice_perm less (c :: t)
  have ho := sortSlice_ordered (c :: t)
  cases hs : sortSlice less (c :: t) with
  | nil => rw [hs] at hp; exact absurd hp.length_eq (by simp)
  | cons x rest =>
    rw [hs] at hp ho
    rw [List.pairwise_cons] at ho
    by_cases hx : x = c
    · exact ⟨rest, by rw [hx]⟩
    · exfalso
      have hxt : x ∈ t := by
        rcases List.mem_cons.mp (hp.mem_iff.mp (List.mem_cons_self _ _)) with h | h
        · exact absurd h hx
        · exact h
      have hcr : c ∈ rest := by
        rcases List.mem_cons.mp (hp.mem_iff.mpr (List.mem_cons_self _ _)) with h | h
        · exact absurd h.symm hx
        · exact h
      have := (ho.1 c hcr (ht x hxt).1).2 hc
      exact absurd (lt_of_le_of_lt (ht x hxt).2 this) (lt_irrefl _)

/-- A stream of the reordered `state` is emitted, unchanged, as the next line of its
stream. -/
theorem pass_member_emitted (env : Env) (fuel : Nat) (lastFile : String)
    (st : List State) (out : List Output) (h : mergeLoop env fuel lastFile st = some out)
    (hn : PtrNodup st) (x : State)
    (hx : x ∈ sortSlice less (dropEof (refillAll env 0 st).1)) :
    ∃ mid post, emitted out = mid ++ x :: post ∧
      ∀ e ∈ mid, e.scanner.ptr ≠ x.scanner.ptr := by
  cases fuel with
  | zero => exact absurd h (by simp [mergeLoop])
  | succ fuel =>
    have hn2 := pass_ptrNodup env st hn
    have hb := buffered_of_mem_pass env st x hx
    cases hs : sortSlice less (dropEof (refillAll env 0 st).1) with
    | nil => rw [hs] at hx; exact absurd hx (List.not_mem_nil _)
    | cons y rest =>
      rw [hs] at hx hn2
      obtain ⟨o, ho, -, hem⟩ := mergeLoop_pass env fuel lastFile st out y rest hs h
      rcases List.mem_cons.mp hx with rfl | hxr
      · exact ⟨[], emitted o, by rw [hem]; rfl, fun e he => absurd he (List.not_mem_nil _)⟩
      · obtain ⟨mid, post, h1, h2⟩ := buffered_emitted env _ _ _ _ ho
          (consume_ptrNodup y rest hn2) x (List.mem_cons_of_mem _ hxr) hb.1 hb.2
        refine ⟨y :: mid, post, by rw [hem, h1]; rfl, ?_⟩
        intro e he
        rcases List.mem_cons.mp he with rfl | he
        · exact ptr_ne_of_mem_tail _ rest hn2 x hxr
        · exact h2 e he

/-- The refill of the stream emitted last, on a line that the bound rule resolves to a
timestamp earlier than the stored one: the line is buffered as a continuation, the
stored timestamp is kept, and the text is redacted exactly when the timestamp is after
the cutoff and replacement is on. -/
theorem refill_regression (env : Env) (h : State) (hl : Live h) (hh : h.haveLine = false)
    (l : String) (rest : List String) (hrest : h.scanner.rest = l :: rest)
    (m : Match) (a b : Nat) (tm : Time) (hm : env.conf[h.reIdx.toNat]? = some m)
    (hres : resolve env m l = some (a, b, tm)) (hlt : tm < h.tm) :
    (refill env 0 h).1.eof = false ∧ (refill env 0 h).1.haveLine = true ∧
    (refill env 0 h).1.scanner = ⟨h.scanner.ptr, rest⟩ ∧
    (refill env 0 h).1.continuation = true ∧ (refill env 0 h).1.tm = h.tm ∧
    (refill env 0 h).1.line =
      (if env.startAfter < tm ∧ env.opts.DontReplaceTimestamp = false
        then redact l a b env.opts.ReplaceTimestampToken else l) := by
  rcases refill_live env h hl hh with ⟨a1, -⟩ | ⟨l', rest', a1, a2, a3, a4, a5⟩
  · rw [hrest] at a1; exact absurd a1 (by simp)
  · rw [hrest] at a1
    obtain ⟨rfl, rfl⟩ := List.cons.inj a1
    rw [a2]
    dsimp only
    obtain ⟨f1, -, -, -, -, -⟩ := classify_frame env 0 (readLine h l rest)
    refine ⟨a3.1, a4, f1, ?_⟩
    rcases classify_live env (readLine h l rest) hl.2.2 hl.2.1 with
      ⟨c1, c2⟩ | ⟨m', a', b', tm', c1, c2, c3, c4⟩
    · rw [c2]
      refine ⟨rfl, rfl, ?_⟩
      have hnot : ¬ env.startAfter < tm := by
        intro hlt2
        unfold matchBound at c1
        have e1 : env.conf[(readLine h l rest).reIdx.toNat]? = some m := hm
        have e2 : resolve env m (readLine h l rest).line = some (a, b, tm) := hres
        rw [e1] at c1
        dsimp only at c1
        rw [e2] at c1
        dsimp only at c1
        rw [if_pos hlt2] at c1
        exact absurd (congrArg Prod.snd c1) (by simp)
      rw [if_neg (fun hh => hnot hh.1)]
      rfl
    · have e1 : env.conf[(readLine h l rest).reIdx.toNat]? = some m := hm
      have e2 : resolve env m (readLine h l rest).line = some (a, b, tm) := hres
      rw [e1] at c1
      injection c1 with c1
      subst c1
      rw [e2] at c2
      injection c2 with c2
      obtain ⟨rfl, rfl, rfl⟩ : a = a' ∧ b = b' ∧ tm = tm' := by
        simpa using c2
      rw [c4]
      dsimp only
      obtain ⟨-, -, g3⟩ := acceptBound_fields env (readLine h l rest) a b tm
      rcases g3 with ⟨-, g4, g5⟩ | ⟨g4, -, -⟩
      · refine ⟨g4, g5, ?_⟩
        rw [acceptBound_line]
        cases hd : env.opts.DontReplaceTimestamp with
        | true => simp [readLine]
        | false => simp [c3, readLine]
      · exact absurd (lt_of_lt_of_le hlt g4) (lt_irrefl _)

/-- C3, where the code meets it. With a cutoff not before the zero instant, for every
stream at the head of `state` with an established rule (the stream whose line was
emitted by the pass before) whose next line is resolved by the bound rule to a timestamp strictly earlier
than the stored one: that line is the very next emission of the merge loop, no line of
another stream comes in between, it is emitted as a continuation and the stored
timestamp is unchanged. A stream with a line at 12:00:00 followed by a line with the
timestamp 11:59:00 emits the second right after the first, with the stored timestamp
12:00:00, before the line of another stream at 12:00:00. -/
theorem regression_emitted_next (env : Env) (hc : 0 ≤ env.startAfter)
    (files : List LogFile) (lastFile : String) (h : State) (t : List State)
    (hr : Reach env files lastFile (h :: t)) (hidx : h.reIdx ≠ -1)
    (l : String) (rest : List String) (hrest : h.scanner.rest = l :: rest)
    (m : Match) (a b : Nat) (tm : Time) (hm : env.conf[h.reIdx.toNat]? = some m)
    (hres : resolve env m l = some (a, b, tm)) (hlt : tm < h.tm) :
    (∃ x out o, mergeLoop env (fuelFor (h :: t)) lastFile (h :: t) = some out ∧
      emitted out = x :: o ∧
      x.scanner = ⟨h.scanner.ptr, rest⟩ ∧ x.continuation = true ∧ x.tm = h.tm ∧
      x.line = (if env.startAfter < tm ∧ env.opts.DontReplaceTimestamp = false
        then redact l a b env.opts.ReplaceTimestampToken else l)) ∧
    (cmain (demoEnv 0) regressionAB).map (fun out => (view out, stamps out)) =
      some ([("A", "<T> a1", false), ("A", "<T> a2", true), ("B", "<T> b1", false)],
            [("A", civil 2020 10 5 12 0 0), ("A", civil 2020 10 5 12 0 0),
             ("B", civil 2020 10 5 12 0 0)]) := by
  refine ⟨?_, by decide⟩
  obtain ⟨lb, htop⟩ := reach_top env hc files lastFile (h :: t) hr
  rcases htop with ⟨hf, -⟩ | ⟨h', t', heq, he, htm, hw⟩
  · exact absurd (hf h (List.mem_cons_self _ _)).2.2.2 hidx
  · obtain ⟨rfl, rfl⟩ := List.cons.inj heq
    obtain ⟨e1, e2, e3, e4, e5⟩ := he
    obtain ⟨r1, r2, r3, r4, r5, r6⟩ := refill_regression env h ⟨e2, e3, e4⟩ e1 l rest hrest
      m a b tm hm hres hlt
    have hall : (refillAll env 0 (h :: t)).1 = (refill env 0 h).1 :: t := by
      unfold refillAll
      rw [refillAll_of_buffered env t (fun s hs => (hw s hs).1.1)]
    have hdrop : dropEof ((refill env 0 h).1 :: t) = (refill env 0 h).1 :: t :=
      dropEof_of_active _ (fun s hs => by
        rcases List.mem_cons.mp hs with rfl | hs
        · exact r1
        · exact (hw s hs).1.2.1)
    obtain ⟨rest', hsort⟩ := sorted_flagged_head (refill env 0 h).1 t r4
      (fun s hs => ⟨(hw s hs).2, by rw [r5, htm]; exact (hw s hs).1.2.2.2.2⟩)
    obtain ⟨out, ho⟩ := mergeLoop_returns env (fuelFor (h :: t)) lastFile (h :: t)
      (Nat.lt_succ_self _)
    have hsort2 : sortSlice less (dropEof (refillAll env 0 (h :: t)).1) =
        (refill env 0 h).1 :: rest' := by rw [hall, hdrop, hsort]
    obtain ⟨o, -, -, hem⟩ := mergeLoop_pass env _ lastFile (h :: t) out _ rest' hsort2 ho
    exact ⟨(refill env 0 h).1, out, emitted o, ho, hem, r3, r4, r5, r6⟩

theorem regression_emitted_next_witness :
    (0 : Int) ≤ (demoEnv 0).startAfter ∧
    ((∃ x out o, mergeLoop (demoEnv 0) (fuelFor (consume regressionHead :: regressionTail))
        regressionHead.filename (consume regressionHead :: regressionTail) = some out ∧
      emitted out = x :: o ∧
      x.scanner = ⟨(consume regressionHead).scanner.ptr, []⟩ ∧ x.continuation = true ∧
      x.tm = (consume regressionHead).tm ∧
      x.line = (if (demoEnv 0).startAfter < civil 2020 10 5 11 59 0 ∧
          (demoEnv 0).opts.DontReplaceTimestamp = false
        then redact "2020-10-05 11:59:00 a2" 0 19 (demoEnv 0).opts.ReplaceTimestampToken
        else "2020-10-05 11:59:00 a2")) ∧
    (cmain (demoEnv 0) regressionAB).map (fun out => (view out, stamps out)) =
      some ([("A", "<T> a1", false), ("A", "<T> a2", true), ("B", "<T> b1", false)],
            [("A", civil 2020 10 5 12 0 0), ("A", civil 2020 10 5 12 0 0),
             ("B", civil 2020 10 5 12 0 0)])) :=
  ⟨by decide, regression_emitted_next (demoEnv 0) (by decide) regressionAB
    regressionHead.filename (consume regressionHead) regressionTail
    (Reach.pass Reach.init (by decide)) (by decide) "2020-10-05 11:59:00 a2" [] (by decide)
    stampRule 0 19 (civil 2020 10 5 11 59 0) rfl (by decide) (by decide)⟩

/-- C3, failing input. With the cutoff at March 1 of year 0 (before the zero instant),
the first line stream C takes is compared with its unset stored timestamp, the zero
instant, and flagged as a continuation. Stream S emits its line of 12:00:00, then reads
a line that its rule resolves to 11:59:00: the next emission is the pending line of
stream C, under the stored timestamp zero, and the line of S comes only after it. -/
theorem regression_interleaved :
    (cmain (demoEnv yearZeroCutoff) yearZeroCS).map (fun out => (view out, stamps out)) =
      some ([("S", "<T> s1", false), ("C", "<T> c1", true), ("S", "<T> s2", true)],
            [("S", civil 0 6 1 12 0 0), ("C", 0), ("S", civil 0 6 1 12 0 0)]) := by
  decide

/-- The lines of `oldNew` fit the buffer of the scanner. -/
theorem oldNew_fits : ∀ f ∈ oldNew, FitsBuffer f.lines := by
  intro f hf l hl
  simp only [oldNew, List.mem_singleton] at hf
  subst hf
  simp only [List.mem_cons, List.mem_singleton, List.not_mem_nil, or_false] at hl
  rcases hl with rfl | rfl <;> decide

/-- C4, as amended. For all rule sets, all cutoffs and all inputs whose lines each fit
the buffer of the scanner, the merge loop comes to its end and the number of emitted
lines is the total number of input lines minus the leading lines the streams discard,
where a stream discards every line it reads before its first line with a timestamp
after the cutoff: the lines no rule resolves, and also the lines that resolve to a
timestamp not after the cutoff (which bind the rule) and the lines the bound rule does
not resolve. Every line from that first one on is emitted. When no line resolves to a
timestamp at or before the cutoff, the discarded lines are exactly the unparseable
leading lines. -/
theorem emitted_count (env : Env) (files : List LogFile)
    (hfit : ∀ f ∈ files, FitsBuffer f.lines) :
    (∃ out, cmain env files = some out ∧
      (emitted out).length + (files.map (fun f => leadingDiscarded env none f.lines)).sum
        = totalLines files) ∧
    ((∀ f ∈ files, ∀ l ∈ f.lines, ∀ i tm,
        firstResolving env l = some (i, tm) → env.startAfter < tm) →
      (files.map (fun f => leadingDiscarded env none f.lines)).sum =
        (files.map (fun f => unparseableLeading env f.lines)).sum) := by
  constructor
  · obtain ⟨out, ho⟩ := cmain_returns env files
    refine ⟨out, ho, ?_⟩
    have h1 := mergeLoop_count (effective env) _ _ _ out
      (Or.inl (initStates_fresh (effective env) files 0)) ho
    have h2 := initStates_yield_fits (effective env) files hfit
    have h3 : (files.map (fun f => leadingDiscarded (effective env) none f.lines)) =
        (files.map (fun f => leadingDiscarded env none f.lines)) :=
      List.map_congr_left (fun f _ => leadingDiscarded_effective env f.lines none)
    rw [h3] at h2
    rw [h1]
    exact h2
  · intro h
    congr 1
    exact List.map_congr_left (fun f hf => leadingDiscarded_unparseable env f.lines (h f hf))

theorem emitted_count_witness :
    (∀ f ∈ oldNew, FitsBuffer f.lines) ∧
    (∃ out, cmain (demoEnv noonCutoff) oldNew = some out ∧
      (emitted out).length +
        (oldNew.map (fun f => leadingDiscarded (demoEnv noonCutoff) none f.lines)).sum
        = totalLines oldNew) ∧
    (oldNew.map (fun f => leadingDiscarded (demoEnv noonCutoff) none f.lines)).sum = 1 :=
  ⟨oldNew_fits, (emitted_count (demoEnv noonCutoff) oldNew oldNew_fits).1, by decide⟩

/-- C4, counterexample. With the cutoff at 12:00:00, a stream with a line of 10:00:00
and a line of 13:00:00 has two input lines and no unparseable leading line (the rule
resolves its first line), and one line is emitted. -/
theorem count_misses_cutoff_lines :
    (cmain (demoEnv noonCutoff) oldNew).map (fun out => (emitted out).length) = some 1 ∧
    totalLines oldNew = 2 ∧
    (oldNew.map (fun f => unparseableLeading (demoEnv noonCutoff) f.lines)).sum = 0 := by
  decide

/-- C5, as amended. The cutoff suppresses the emission of the lines a stream reads
before its first line with a timestamp after the cutoff, and of no later line. Once the
cutoff flag of a stream is set (the stream at the head of `state` with an established
rule), a line that its rule resolves to a timestamp not after the cutoff is still
emitted by the merge loop, as the next line of its stream: a continuation with the stored
timestamp and the unchanged text. While the flag is not set, a line with a timestamp not
after the cutoff is passed over: the `lineloop` goes on with the following lines. -/
theorem cutoff_line_emitted_after_flag (env : Env) (files : List LogFile)
    (lastFile : String) (h : State) (t : List State)
    (hr : Reach env files lastFile (h :: t)) (hidx : h.reIdx ≠ -1)
    (l : String) (rest : List String) (hrest : h.scanner.rest = l :: rest)
    (m : Match) (a b : Nat) (tm : Time) (hm : env.conf[h.reIdx.toNat]? = some m)
    (hres : resolve env m l = some (a, b, tm)) (hle : tm ≤ env.startAfter) :
    (∃ out mid post, mergeLoop env (fuelFor (h :: t)) lastFile (h :: t) = some out ∧
      emitted out = mid ++ { readLine h l rest with continuation := true } :: post ∧
      ∀ e ∈ mid, e.scanner.ptr ≠ h.scanner.ptr) ∧
    (∀ si s i, s.newEnough = false → stampOf env (bound s) l = some (i, tm) →
      ∃ s', lineloop env si s (l :: rest) = lineloop env si s' rest ∧
        s'.newEnough = false) := by
  constructor
  · rcases reach_shape env files lastFile (h :: t) hr with hf | ⟨h', t', heq, hl, hh, ht⟩
    · exact absurd (hf h (List.mem_cons_self _ _)).2.2.2 hidx
    · obtain ⟨rfl, rfl⟩ := List.cons.inj heq
      obtain ⟨out, ho⟩ := mergeLoop_returns env (fuelFor (h :: t)) lastFile (h :: t)
        (Nat.lt_succ_self _)
      have hall : (refillAll env 0 (h :: t)).1 = (refill env 0 h).1 :: t := by
        unfold refillAll
        rw [refillAll_of_buffered env t (fun s hs => (ht s hs).2)]
      have hx : (refill env 0 h).1 = { readLine h l rest with continuation := true } := by
        rcases refill_live env h hl hh with ⟨a1, -⟩ | ⟨l', rest', a1, a2, -, -, -⟩
        · rw [hrest] at a1; exact absurd a1 (by simp)
        · rw [hrest] at a1
          obtain ⟨rfl, rfl⟩ := List.cons.inj a1
          rw [a2]
          dsimp only
          rcases classify_live env (readLine h l rest) hl.2.2 hl.2.1 with
            ⟨-, c2⟩ | ⟨m', a', b', tm', c1, c2, c3, -⟩
          · rw [c2]
          · exfalso
            have e1 : env.conf[(readLine h l rest).reIdx.toNat]? = some m := hm
            have e2 : resolve env m (readLine h l rest).line = some (a, b, tm) := hres
            rw [e1] at c1
            injection c1 with c1
            subst c1
            rw [e2] at c2
            injection c2 with c2
            obtain ⟨-, -, rfl⟩ : a = a' ∧ b = b' ∧ tm = tm' := by
              simpa using c2
            exact absurd (lt_of_lt_of_le c3 hle) (lt_irrefl _)
      have hmem : { readLine h l rest with continuation := true } ∈
          sortSlice less (dropEof (refillAll env 0 (h :: t)).1) := by
        rw [hall, hx]
        exact (sortSlice_perm less _).mem_iff.mpr
          (mem_dropEof.mpr ⟨List.mem_cons_self _ _, rfl⟩)
      obtain ⟨mid, post, h1, h2⟩ := pass_member_emitted env _ lastFile (h :: t) out ho
        (reach_ptrNodup env files lastFile _ hr) _ hmem
      exact ⟨out, mid, post, ho, h1, h2⟩
  · intro si s i hn hst
    have hline : (readLine s l rest).line = l := rfl
    rcases classify_pre env si (readLine s l rest) hn with
      ⟨h1, -⟩ | ⟨i', tm', h1, h2, -, -, -⟩ | ⟨i', tm', h1, -, h3, h4, h5⟩
    · rw [bound_readLine, hline, hst] at h1
      exact absurd h1 (by simp)
    · rw [bound_readLine, hline, hst] at h1
      injection h1 with h1
      obtain ⟨-, rfl⟩ : i = i' ∧ tm = tm' := by simpa using h1
      exact absurd (lt_of_lt_of_le h2 hle) (lt_irrefl _)
    · refine ⟨(classify env si (readLine s l rest)).1, ?_, h4⟩
      · have hre : (classify env si (readLine s l rest)).1.reIdx ≠ -1 := by
          intro hneg
          unfold bound at h5
          rw [if_pos hneg] at h5
          exact absurd h5 (by simp)
        conv => lhs; unfold lineloop
        dsimp only
        rw [if_neg (by rw [h3]; exact Bool.noConfusion), if_neg (fun hh => hre hh.1)]

theorem cutoff_line_emitted_after_flag_witness :
    civil 2020 10 5 10 0 0 ≤ (demoEnv noonCutoff).startAfter ∧
    ((∃ out mid post, mergeLoop (demoEnv noonCutoff) (fuelFor [consume newHead])
        newHead.filename [consume newHead] = some out ∧
      emitted out = mid ++ { readLine (consume newHead) "2020-10-05 10:00:00 old" [] with
        continuation := true } :: post ∧
      ∀ e ∈ mid, e.scanner.ptr ≠ (consume newHead).scanner.ptr) ∧
    (∀ si s i, s.newEnough = false →
      stampOf (demoEnv noonCutoff) (bound s) "2020-10-05 10:00:00 old" =
        some (i, civil 2020 10 5 10 0 0) →
      ∃ s', lineloop (demoEnv noonCutoff) si s ("2020-10-05 10:00:00 old" :: []) =
          lineloop (demoEnv noonCutoff) si s' [] ∧ s'.newEnough = false)) :=
  ⟨by decide, cutoff_line_emitted_after_flag (demoEnv noonCutoff) newOld newHead.filename
    (consume newHead) [] (Reach.pass Reach.init (by decide)) (by decide)
    "2020-10-05 10:00:00 old" [] (by decide) stampRule 0 19 (civil 2020 10 5 10 0 0) rfl
    (by decide) (by decide)⟩

/-- C5, counterexample. With the cutoff at 12:00:00, the only line of a stream matches
the rule and resolves to 10:00:00, which is not after the cutoff: the line is not
emitted, the output is empty. -/
theorem cutoff_suppresses_leading_line :
    resolve (demoEnv noonCutoff) stampRule "2020-10-05 10:00:00 old" =
      some (0, 19, civil 2020 10 5 10 0 0) ∧
    civil 2020 10 5 10 0 0 ≤ (demoEnv noonCutoff).startAfter ∧
    (cmain (demoEnv noonCutoff) oldOnly).map view = some [] := by
  decide

/-! ### The stored timestamp of a stream -/

theorem classify_tm_mono (env : Env) (si : Nat) (s : State)
    (h : s.reIdx ≠ -1 ∨ s.tm ≤ env.startAfter) :
    s.tm ≤ (classify env si s).1.tm ∧
    ((classify env si s).1.reIdx ≠ -1 ∨ (classify env si s).1.tm ≤ env.startAfter) := by
  unfold classify
  by_cases hidx : s.reIdx = -1
  · rw [if_neg (not_not.mpr hidx)]
    have hle : s.tm ≤ env.startAfter := by
      rcases h with h | h
      · exact absurd hidx h
      · exact h
    rcases tryRules_cases env s env.conf 0 with h1 | ⟨k, a, b, tm, h1⟩
    · rw [h1]; exact ⟨le_refl _, Or.inr hle⟩
    · rw [h1]
      obtain ⟨e1, -, e3⟩ := bindRule_fields env s (0 + k) a b tm
      refine ⟨?_, Or.inl (by rw [e1]; exact natCast_ne_neg_one _)⟩
      rcases e3 with ⟨-, f2, -, f4⟩ | ⟨-, -, -, f4⟩
      · rw [f4]; exact le_of_lt (lt_of_le_of_lt hle f2)
      · rw [f4]
  · rw [if_pos hidx]
    rcases matchBound_cases env s with h1 | ⟨m, a, b, tm, -, -, -, h1⟩
    · unfold established
      rw [h1]
      dsimp only
      split
      · exact ⟨le_refl _, Or.inl hidx⟩
      · exact ⟨le_refl _, Or.inl hidx⟩
    · rw [established_of_found env si s _ h1]
      obtain ⟨e1, -, e3⟩ := acceptBound_fields env s a b tm
      refine ⟨?_, Or.inl (by rw [e1]; exact hidx)⟩
      rcases e3 with ⟨-, -, e5⟩ | ⟨e4, -, e5⟩
      · rw [e5]
      · rw [e5]; exact e4

theorem lineloop_tm_mono (env : Env) (si : Nat) (rest : List String) :
    ∀ s, (s.reIdx ≠ -1 ∨ s.tm ≤ env.startAfter) → s.tm ≤ (lineloop env si s rest).1.tm := by
  induction rest with
  | nil => intro s _; exact le_refl _
  | cons l rest ih =>
    intro s h
    unfold lineloop
    dsimp only
    obtain ⟨c1, c2⟩ := classify_tm_mono env si (readLine s l rest) h
    have c1' : s.tm ≤ (classify env si (readLine s l rest)).1.tm := c1
    split
    · exact c1'
    · split
      · exact le_trans c1' (ih _ c2)
      · exact le_trans c1' (ih _ c2)

theorem refill_tm_mono (env : Env) (si : Nat) (s : State)
    (h : s.reIdx ≠ -1 ∨ s.tm ≤ env.startAfter) : s.tm ≤ (refill env si s).1.tm := by
  unfold refill
  split
  · exact lineloop_tm_mono env si _ s h
  · exact le_refl _

/-- C6, as amended. With a cutoff not before the zero instant (the default cutoff is
the zero instant), the stored timestamp `State.tm` of every stream is non-decreasing
over the whole run: at every value of `state` at the top of the loop, the refill of a
stream leaves it unchanged or replaces it by a timestamp that is not earlier, and the
emission leaves it unchanged. For every cutoff the same holds for every stream with an
established rule. A line that the bound rule of a stream resolves to a timestamp after
the cutoff and earlier than the stored one sets the continuation flag and leaves the
stored timestamp unchanged. -/
theorem stored_timestamp_nondecreasing (env : Env) (hc : 0 ≤ env.startAfter)
    (files : List LogFile) (lastFile : String) (st : List State)
    (hr : Reach env files lastFile st) (s : State) (hs : s ∈ st) :
    (∀ si, s.tm ≤ (refill env si s).1.tm) ∧ (consume s).tm = s.tm ∧
    (∀ env' si s', s'.reIdx ≠ -1 → s'.tm ≤ (refill env' si s').1.tm) ∧
    (∀ env' si s' m a b tm, s'.reIdx ≠ -1 → env'.conf[s'.reIdx.toNat]? = some m →
      resolve env' m s'.line = some (a, b, tm) → env'.startAfter < tm → tm < s'.tm →
      (classify env' si s').2 = true ∧ (classify env' si s').1.continuation = true ∧
      (classify env' si s').1.tm = s'.tm) := by
  refine ⟨?_, rfl, fun env' si s' h => refill_tm_mono env' si s' (Or.inl h), ?_⟩
  · intro si
    apply refill_tm_mono
    obtain ⟨lb, htop⟩ := reach_top env hc files lastFile st hr
    rcases htop with ⟨hf, -⟩ | ⟨h, t, rfl, he, -, hw⟩
    · right
      rw [(hf s hs).2.2.1.2.1]
      exact hc
    · left
      rcases List.mem_cons.mp hs with rfl | hs
      · exact he.2.2.2.1
      · exact (hw s hs).1.2.2.2.1
  · intro env' si s' m a b tm hidx hm hres hlt hlt2
    unfold classify
    rw [if_pos hidx]
    have hmb : matchBound env' s' = (acceptBound env' s' a b tm, true) := by
      unfold matchBound
      rw [hm]
      dsimp only
      rw [hres]
      dsimp only
      rw [if_pos hlt]
    rw [established_of_found env' si s' _ hmb]
    obtain ⟨-, -, e3⟩ := acceptBound_fields env' s' a b tm
    rcases e3 with ⟨-, e4, e5⟩ | ⟨e4, -, -⟩
    · exact ⟨rfl, e4, e5⟩
    · exact absurd (lt_of_lt_of_le hlt2 e4) (lt_irrefl _)

theorem stored_timestamp_nondecreasing_witness :
    (0 : Int) ≤ (demoEnv 0).startAfter ∧ consume regressionHead ∈ [consume regressionHead] ∧
    ((∀ si, (consume regressionHead).tm ≤
        (refill (demoEnv 0) si (consume regressionHead)).1.tm) ∧
    (consume (consume regressionHead)).tm = (consume regressionHead).tm ∧
    (∀ env' si s', s'.reIdx ≠ -1 → s'.tm ≤ (refill env' si s').1.tm) ∧
    (∀ env' si s' m a b tm, s'.reIdx ≠ -1 → env'.conf[s'.reIdx.toNat]? = some m →
      resolve env' m s'.line = some (a, b, tm) → env'.startAfter < tm → tm < s'.tm →
      (classify env' si s').2 = true ∧ (classify env' si s').1.continuation = true ∧
      (classify env' si s').1.tm = s'.tm)) :=
  ⟨by decide, by decide, stored_timestamp_nondecreasing (demoEnv 0) (by decide)
    [⟨"A", ["2020-10-05 12:00:00 a1", "2020-10-05 11:59:00 a2"]⟩] regressionHead.filename
    [consume regressionHead] (Reach.pass Reach.init (by decide)) (consume regressionHead)
    (by decide)⟩

/-- C6, counterexample. With the cutoff at March 1 of year 0, the first refill of a
stream whose line is of May 1 of year 0 replaces the stored timestamp (the zero
instant) by an earlier one, and the continuation flag is not set. -/
theorem stored_timestamp_decreases :
    (initState (demoEnv yearZeroCutoff) 0 yearZeroLine).tm = 0 ∧
    (refill (demoEnv yearZeroCutoff) 0 (initState (demoEnv yearZeroCutoff) 0 yearZeroLine)).1.tm
      = civil 0 5 1 0 0 0 ∧
    civil 0 5 1 0 0 0 < 0 ∧
    (refill (demoEnv yearZeroCutoff) 0
      (initState (demoEnv yearZeroCutoff) 0 yearZeroLine)).1.continuation = false := by
  decide

/-- C7. For every stream of a value of `state` at the top of the loop: once its rule
index `reIdx` is different from -1, the refill and the emission leave it unchanged,
every line the rest of the run emits from this stream carries the same `reIdx`, and the
refill of the stream reads no other rule of the rule list than the bound one: it gives
the same result with every rule list that has the same rule at the bound index. -/
theorem established_rule_permanent (env : Env) (files : List LogFile) (lastFile : String)
    (st : List State) (hr : Reach env files lastFile st) (s : State) (hs : s ∈ st)
    (hidx : s.reIdx ≠ -1) :
    (∀ si, (refill env si s).1.reIdx = s.reIdx) ∧ (consume s).reIdx = s.reIdx ∧
    (∃ out, mergeLoop env (fuelFor st) lastFile st = some out ∧
      ∀ e ∈ emitted out, e.scanner.ptr = s.scanner.ptr → e.reIdx = s.reIdx) ∧
    (∀ si conf', conf'[s.reIdx.toNat]? = env.conf[s.reIdx.toNat]? →
      refill { env with conf := conf' } si s = refill env si s) := by
  refine ⟨fun si => refill_reIdx env si s hidx, rfl, ?_, ?_⟩
  · obtain ⟨out, ho⟩ := mergeLoop_returns env (fuelFor st) lastFile st (Nat.lt_succ_self _)
    refine ⟨out, ho, ?_⟩
    intro e he hp
    obtain ⟨s', hs', hp', hR⟩ := mergeLoop_related env
      (fun a b => a.reIdx ≠ -1 → b.reIdx = a.reIdx)
      (fun i a ha => refill_reIdx env i a ha) (fun a _ => rfl)
      (fun a b c hab hbc ha => by rw [hbc (by rw [hab ha]; exact ha), hab ha])
      _ _ _ _ ho e he
    have : s' = s := ptr_injective st (reach_ptrNodup env files lastFile st hr) s' s hs' hs
      (hp'.symm.trans hp)
    subst this
    exact hR hidx
  · intro si conf' h
    unfold refill
    split
    · exact lineloop_conf env conf' si _ s hidx h
    · rfl

theorem established_rule_permanent_witness :
    consume regressionHead ∈ consume regressionHead :: regressionTail ∧
    (consume regressionHead).reIdx ≠ -1 ∧
    ((∀ si, (refill (demoEnv 0) si (consume regressionHead)).1.reIdx =
        (consume regressionHead).reIdx) ∧
    (consume (consume regressionHead)).reIdx = (consume regressionHead).reIdx ∧
    (∃ out, mergeLoop (demoEnv 0) (fuelFor (consume regressionHead :: regressionTail))
        regressionHead.filename (consume regressionHead :: regressionTail) = some out ∧
      ∀ e ∈ emitted out, e.scanner.ptr = (consume regressionHead).scanner.ptr →
        e.reIdx = (consume regressionHead).reIdx) ∧
    (∀ si conf', conf'[(consume regressionHead).reIdx.toNat]? =
        (demoEnv 0).conf[(consume regressionHead).reIdx.toNat]? →
      refill { demoEnv 0 with conf := conf' } si (consume regressionHead) =
        refill (demoEnv 0) si (consume regressionHead))) :=
  ⟨by decide, by decide, established_rule_permanent (demoEnv 0) regressionAB
    regressionHead.filename (consume regressionHead :: regressionTail)
    (Reach.pass Reach.init (by decide)) (consume regressionHead) (by decide) (by decide)⟩

/-- C8. Rule binding is first-match-wins with parse fallback. When a stream without
established rule classifies a line, the rule index it has afterwards is the least
index `i` of the configured rule list such that the pattern of rule `i` matches the line
with a capture span and the captured text resolves to a timestamp; resolving is parsing
with the explicit format of the rule if present and, if that is absent or fails, generic
inference on the same capture. If no rule has this property the stream stays without
rule. -/
theorem rule_binding_first_match (env : Env) (si : Nat) (s : State) (h : s.reIdx = -1) :
    (∀ m text, parseTimestampFromMatch env m text = resolveText env m text) ∧
    (∀ i : Nat, (classify env si s).1.reIdx = (i : Int) ↔ LeastResolving env s.line i) ∧
    ((classify env si s).1.reIdx = -1 ↔ ∀ m ∈ env.conf, ¬ Resolves env m s.line) := by
  refine ⟨parseTimestampFromMatch_eq env, ?_, ?_⟩
  · intro i
    unfold classify
    rw [if_neg (not_not.mpr h)]
    rcases tryRules_least env s env.conf 0 with ⟨h1, h2⟩ | ⟨k, m, a, b, tm, h1, h2, h3, h4⟩
    · rw [h1]
      constructor
      · intro hh
        dsimp only at hh
        rw [h] at hh
        exact absurd hh.symm (natCast_ne_neg_one i)
      · rintro ⟨⟨m, hm, hres⟩, -⟩
        exact absurd (h2 m (List.getElem?_mem hm)) ((resolve_isSome_iff env m s.line).mp hres)
    · rw [h4]
      have hk : (bindRule env s (0 + k) a b tm).1.reIdx = (k : Int) := by
        rw [(bindRule_fields env s (0 + k) a b tm).1, Nat.zero_add]
      rw [hk]
      have hleast : LeastResolving env s.line k :=
        ⟨⟨m, h1, (resolve_isSome_iff env m s.line).mpr (by rw [h2]; simp)⟩,
          fun j hj m' hm' hres =>
            absurd (h3 j hj m' hm') ((resolve_isSome_iff env m' s.line).mp hres)⟩
      constructor
      · intro hh
        have : k = i := by exact_mod_cast hh
        rw [← this]; exact hleast
      · rintro ⟨⟨m', hm', hres'⟩, hmin⟩
        rcases Nat.lt_trichotomy k i with hlt | heq | hgt
        · exact absurd hleast.1.choose_spec.2 (hmin k hlt _ hleast.1.choose_spec.1)
        · rw [heq]
        · exact absurd hres' (hleast.2 i hgt m' hm')
  · unfold classify
    rw [if_neg (not_not.mpr h)]
    rcases tryRules_least env s env.conf 0 with ⟨h1, h2⟩ | ⟨k, m, a, b, tm, h1, h2, h3, h4⟩
    · rw [h1]
      constructor
      · intro _ m hm hres
        exact absurd (h2 m hm) ((resolve_isSome_iff env m s.line).mp hres)
      · intro _; exact h
    · rw [h4]
      constructor
      · intro hh
        rw [(bindRule_fields env s (0 + k) a b tm).1] at hh
        exact absurd hh (natCast_ne_neg_one _)
      · intro hno
        exact absurd ((resolve_isSome_iff env m s.line).mpr (by rw [h2]; simp))
          (hno m (List.getElem?_mem h1))

theorem rule_binding_first_match_witness :
    bracketLine.reIdx = -1 ∧
    ((∀ m text, parseTimestampFromMatch twoRuleEnv m text = resolveText twoRuleEnv m text) ∧
    (∀ i : Nat, (classify twoRuleEnv 0 bracketLine).1.reIdx = (i : Int) ↔
      LeastResolving twoRuleEnv bracketLine.line i) ∧
    ((classify twoRuleEnv 0 bracketLine).1.reIdx = -1 ↔
      ∀ m ∈ twoRuleEnv.conf, ¬ Resolves twoRuleEnv m bracketLine.line)) ∧
    (classify twoRuleEnv 0 bracketLine).1.reIdx = 0 ∧
    (classify twoRuleEnv 0 bracketLine).1.tm = civil 2020 10 5 10 0 0 ∧
    (classify twoRuleEnv 0 bracketLine).1.line = "[<T>] started" :=
  ⟨by decide, rule_binding_first_match twoRuleEnv 0 bracketLine (by decide), by decide,
    by decide, by decide⟩

/-! ### Redaction -/

theorem replaceSpan_line (env : Env) (s : State) (a b : Nat)
    (hd : env.opts.DontReplaceTimestamp = false) :
    (replaceSpan env s a b).line = redact s.line a b env.opts.ReplaceTimestampToken := by
  unfold replaceSpan
  rw [hd]
  rfl

/-- C9, as amended. With redaction enabled (`DontReplaceTimestamp` false for the loop),
for every line whose rule (the first resolving rule of a stream without rule, the bound
rule of an established stream) captures the span `[a, b)` and resolves it to a
timestamp after the cutoff: the stream buffers, for emission, the input line with the
capture span replaced by the replacement token, i.e. the text before the span, the
token, and the text after the span. Nothing is claimed about other occurrences of the
timestamp text in that body. -/
theorem redaction_replaces_capture (env : Env) (si : Nat) (s : State) (l : String)
    (rest : List String) (hd : env.opts.DontReplaceTimestamp = false)
    (m : Match) (a b : Nat) (tm : Time)
    (hrule : (s.reIdx = -1 ∧ ∃ i : Nat, env.conf[i]? = some m ∧
        ∀ j < i, ∀ m', env.conf[j]? = some m' → resolve env m' l = none) ∨
      (s.reIdx ≠ -1 ∧ env.conf[s.reIdx.toNat]? = some m))
    (hres : resolve env m l = some (a, b, tm)) (hlt : env.startAfter < tm) :
    ∃ r, lineloop env si s (l :: rest) = (r, []) ∧ r.haveLine = true ∧
      r.line = redact l a b env.opts.ReplaceTimestampToken ∧
      r.line.data = l.data.take a ++ env.opts.ReplaceTimestampToken.data ++ l.data.drop b := by
  have key : (classify env si (readLine s l rest)).2 = true ∧
      (classify env si (readLine s l rest)).1.line =
        redact l a b env.opts.ReplaceTimestampToken := by
    unfold classify
    rcases hrule with ⟨hidx, i, hm, hmin⟩ | ⟨hidx, hm⟩
    · have hidx' : (readLine s l rest).reIdx = -1 := hidx
      rw [if_neg (not_not.mpr hidx')]
      rcases tryRules_least env (readLine s l rest) env.conf 0 with
        ⟨-, h2⟩ | ⟨k, m', a', b', tm', h1, h2, h3, h4⟩
      · have := h2 m (List.getElem?_mem hm)
        rw [show (readLine s l rest).line = l from rfl, hres] at this
        exact absurd this (by simp)
      · have hki : k = i := by
          rcases Nat.lt_trichotomy k i with hlt' | heq | hgt
          · have := hmin k hlt' m' h1
            rw [show (readLine s l rest).line = l from rfl] at h2
            rw [h2] at this
            exact absurd this (by simp)
          · exact heq
          · have := h3 i hgt m hm
            rw [show (readLine s l rest).line = l from rfl, hres] at this
            exact absurd this (by simp)
        subst hki
        rw [hm] at h1
        injection h1 with h1
        subst h1
        rw [show (readLine s l rest).line = l from rfl, hres] at h2
        injection h2 with h2
        obtain ⟨rfl, rfl, rfl⟩ : a = a' ∧ b = b' ∧ tm = tm' := by simpa using h2
        rw [h4]
        unfold bindRule
        dsimp only
        rw [if_pos hlt]
        exact ⟨rfl, replaceSpan_line env _ a b hd⟩
    · have hidx' : (readLine s l rest).reIdx ≠ -1 := hidx
      rw [if_pos hidx']
      have hmb : matchBound env (readLine s l rest) =
          (acceptBound env (readLine s l rest) a b tm, true) := by
        unfold matchBound
        rw [show (readLine s l rest).reIdx = s.reIdx from rfl, hm]
        dsimp only
        rw [show (readLine s l rest).line = l from rfl, hres]
        dsimp only
        rw [if_pos hlt]
      rw [established_of_found env si _ _ hmb]
      refine ⟨rfl, ?_⟩
      rw [acceptBound_line, hd]
      rfl
  obtain ⟨-, -, f3, -, -, -⟩ := classify_frame env si (readLine s l rest)
  refine ⟨(classify env si (readLine s l rest)).1, ?_, f3, key.2, ?_⟩
  · unfold lineloop
    dsimp only
    rw [if_pos key.1]
  · rw [key.2]
    rfl

theorem redaction_replaces_capture_witness :
    (demoEnv 0).opts.DontReplaceTimestamp = false ∧
    (demoEnv 0).startAfter < civil 2020 10 5 10 0 0 ∧
    ∃ r, lineloop (demoEnv 0) 0 (initState (demoEnv 0) 0 ⟨"A", []⟩)
        ("2020-10-05 10:00:00 again 2020-10-05 10:00:00" :: []) = (r, []) ∧
      r.haveLine = true ∧
      r.line = redact "2020-10-05 10:00:00 again 2020-10-05 10:00:00" 0 19
        (demoEnv 0).opts.ReplaceTimestampToken ∧
      r.line.data = "2020-10-05 10:00:00 again 2020-10-05 10:00:00".data.take 0 ++
        (demoEnv 0).opts.ReplaceTimestampToken.data ++
        "2020-10-05 10:00:00 again 2020-10-05 10:00:00".data.drop 19 :=
  ⟨rfl, by decide, redaction_replaces_capture (demoEnv 0) 0 (initState (demoEnv 0) 0 ⟨"A", []⟩)
    "2020-10-05 10:00:00 again 2020-10-05 10:00:00" [] rfl stampRule 0 19
    (civil 2020 10 5 10 0 0)
    (Or.inl ⟨rfl, 0, rfl, fun j hj => absurd hj (Nat.not_lt_zero _)⟩) (by decide) (by decide)⟩

/-- C9, counterexample. Redaction is enabled, the capture span of the rule is exactly
the timestamp text `2020-10-05 10:00:00` and resolves to a timestamp after the cutoff;
the emitted body is `<T> again 2020-10-05 10:00:00`, which still contains the original
timestamp text. -/
theorem redacted_body_keeps_timestamp :
    (demoEnv 0).opts.DontReplaceTimestamp = false ∧
    slice "2020-10-05 10:00:00 again 2020-10-05 10:00:00" 0 19 = "2020-10-05 10:00:00" ∧
    resolve (demoEnv 0) stampRule "2020-10-05 10:00:00 again 2020-10-05 10:00:00" =
      some (0, 19, civil 2020 10 5 10 0 0) ∧
    (demoEnv 0).startAfter < civil 2020 10 5 10 0 0 ∧
    (cmain (demoEnv 0) twiceStamped).map view =
      some [("A", "<T> again 2020-10-05 10:00:00", false)] ∧
    "2020-10-05 10:00:00".data <:+: "<T> again 2020-10-05 10:00:00".data :=
  ⟨rfl, by decide, by decide, by decide, by decide, "<T> again ".data, [], by decide⟩

theorem lineloop_binding_quiet (env : Env) (si : Nat) (sk : State) (good : String)
    (rest : List String) (h : sk.reIdx = -1)
    (hgood : ∃ m ∈ env.conf, resolve env m good ≠ none) :
    (lineloop env si sk (good :: rest)).2 = [] ∧
    (classify env si (readLine sk good rest)).1.reIdx ≠ -1 := by
  have hb := classify_binds env si (readLine sk good rest) h hgood
  refine ⟨?_, hb⟩
  rw [lineloop_cons]
  split
  · rfl
  · rw [if_neg (fun hh => hb hh.1)]
    exact lineloop_quiet env si rest _ hb

/-- The lines of the witness of the skipped leading lines fit the buffer. -/
theorem threeJunk_fits : FitsBuffer (threeJunk ++ ["2020-10-05 10:00:00 a4"]) := by
  intro l hl
  have hl' : l = "junk 1" ∨ l = "junk 2" ∨ l = "junk 3" ∨ l = "2020-10-05 10:00:00 a4" := by
    simpa [threeJunk] using hl
  rcases hl' with rfl | rfl | rfl | rfl <;> decide

theorem refill_initState (env : Env) (si i : Nat) (f : LogFile) :
    refill env si (initState env i f) =
      lineloop env si (initState env i f) (scanTokens f.lines) := by
  unfold refill
  rw [if_pos ⟨rfl, rfl⟩]
  rfl

/-- C10, where the code meets it. For every stream whose first `k >= 1` lines match no
rule and whose line `k+1` matches a rule, these `k+1` lines each fitting the buffer of
the scanner: the run prints exactly one skip warning for that stream; the lines it
emits are those of the run on the same files with the first `k` lines of the stream
removed (up to the warning flag of the states), so none of the `k` lines is in the
output; and the rule of the stream is established while line `k+1` is processed: the
stream has no rule after the first `k` lines and has one after the classification of
line `k+1`. -/
theorem leading_unparsed_lines_skipped (env : Env) (pre post : List LogFile)
    (name : String) (junk : List String) (good : String) (rest : List String)
    (hk : junk ≠ []) (hno : ∀ l ∈ junk, ∀ m ∈ env.conf, ¬ Resolves env m l)
    (hgood : ∃ m ∈ env.conf, Resolves env m good)
    (hfit : FitsBuffer (junk ++ [good])) :
    ∃ out out' sk,
      cmain env (pre ++ ⟨name, junk ++ good :: rest⟩ :: post) = some out ∧
      cmain env (pre ++ ⟨name, good :: rest⟩ :: post) = some out' ∧
      ((warned out).filter (fun w => decide (w.scanner.ptr = pre.length))).length = 1 ∧
      (emitted out).map erase = (emitted out').map erase ∧
      (refill (effective env) pre.length
        (initState (effective env) pre.length ⟨name, junk ++ good :: rest⟩)).1 =
        (lineloop (effective env) pre.length sk (good :: scanTokens rest)).1 ∧
      sk.reIdx = -1 ∧
      (classify (effective env) pre.length
        (readLine sk good (scanTokens rest))).1.reIdx ≠ -1 := by
  have hfj : FitsBuffer junk := fun l hl => hfit l (List.mem_append_left _ hl)
  have hfg : good.utf8ByteSize < maxScanTokenSize :=
    hfit good (List.mem_append_right _ (List.mem_singleton_self _))
  have hscan : scanTokens (junk ++ good :: rest) = junk ++ good :: scanTokens rest := by
    rw [scanTokens_append_fits junk _ hfj, scanTokens_cons_fits good rest hfg]
  have hscan' : scanTokens (good :: rest) = good :: scanTokens rest :=
    scanTokens_cons_fits good rest hfg
  obtain ⟨out, ho⟩ := cmain_returns env (pre ++ ⟨name, junk ++ good :: rest⟩ :: post)
  obtain ⟨out', ho'⟩ := cmain_returns env (pre ++ ⟨name, good :: rest⟩ :: post)
  have hno' : ∀ l ∈ junk, ∀ m ∈ (effective env).conf, resolve (effective env) m l = none := by
    intro l hl m hm
    rw [effective_conf] at hm
    rw [resolve_effective]
    by_contra hne
    exact hno l hl m hm ((resolve_isSome_iff env m l).mpr hne)
  have hgood' : ∃ m ∈ (effective env).conf, resolve (effective env) m good ≠ none := by
    obtain ⟨m, hm, hres⟩ := hgood
    refine ⟨m, by rw [effective_conf]; exact hm, ?_⟩
    rw [resolve_effective]
    exact (resolve_isSome_iff env m good).mp hres
  have hc := ho
  have hc' := ho'
  unfold cmain at ho ho'
  generalize effective env = e at hno' hgood' ho ho' ⊢
  -- the first refill of the stream
  obtain ⟨sk, pw, h1, h2, h3, -, h5, h6⟩ := lineloop_junk e pre.length
    (good :: scanTokens rest) junk hno'
    (initState e pre.length ⟨name, junk ++ good :: rest⟩) rfl
  obtain ⟨q1, q2⟩ := lineloop_binding_quiet e pre.length sk good (scanTokens rest) h2 hgood'
  have hrefill : refill e pre.length (initState e pre.length ⟨name, junk ++ good :: rest⟩) =
      ((lineloop e pre.length sk (good :: scanTokens rest)).1, pw) := by
    rw [refill_initState]
    show lineloop e pre.length _ (scanTokens (junk ++ good :: rest)) = _
    rw [hscan, h1, q1, List.append_nil]
  have hrefill' : erase (refill e pre.length
      (initState e pre.length ⟨name, good :: rest⟩)).1 =
      erase (lineloop e pre.length sk (good :: scanTokens rest)).1 := by
    rw [refill_initState]
    show erase (lineloop e pre.length _ (scanTokens (good :: rest))).1 = _
    rw [hscan']
    exact (lineloop_cons_erase e pre.length good (scanTokens rest) sk _
      (h3 good (scanTokens rest))).symm
  -- the two initial states
  have hinit : ∀ f : LogFile, initStates e 0 (pre ++ f :: post) =
      initStates e 0 pre ++ initState e pre.length f :: initStates e (pre.length + 1) post := by
    intro f
    rw [initStates_append, initStates_cons, Nat.zero_add]
  have hall : ∀ f : LogFile, refillAll e 0 (initStates e 0 (pre ++ f :: post)) =
      ((refillAll e 0 (initStates e 0 pre)).1 ++
        (refill e pre.length (initState e pre.length f)).1 ::
          (refillAll e (pre.length + 1) (initStates e (pre.length + 1) post)).1,
       (refillAll e 0 (initStates e 0 pre)).2 ++
        ((refill e pre.length (initState e pre.length f)).2 ++
          (refillAll e (pre.length + 1) (initStates e (pre.length + 1) post)).2)) := by
    intro f
    rw [hinit, refillAll_append, initStates_length, Nat.zero_add, refillAll_cons]
  refine ⟨out, out', sk, hc, hc', ?_, ?_, by rw [hrefill], h2, q2⟩
  · -- the warnings
    rw [mergeLoop_warned e _ _ _ out (Or.inl (initStates_fresh e _ 0)) ho, hall, hrefill]
    dsimp only
    rw [warned_append, warned_append, List.filter_append, List.filter_append]
    have hA : (warned (refillAll e 0 (initStates e 0 pre)).2).filter
        (fun w => decide (w.scanner.ptr = pre.length)) = [] := by
      rw [List.filter_eq_nil_iff]
      intro w hw
      obtain ⟨x, hx, hp⟩ := refillAll_warned_ptr e _ 0 w hw
      have := initStates_ptr_lt e pre 0 x hx
      simp only [decide_eq_true_eq]
      omega
    have hB : (warned (refillAll e (pre.length + 1)
        (initStates e (pre.length + 1) post)).2).filter
        (fun w => decide (w.scanner.ptr = pre.length)) = [] := by
      rw [List.filter_eq_nil_iff]
      intro w hw
      obtain ⟨x, hx, hp⟩ := refillAll_warned_ptr e _ _ w hw
      have := initStates_ptr_le e post (pre.length + 1) x hx
      simp only [decide_eq_true_eq]
      omega
    have hS : (warned pw).filter (fun w => decide (w.scanner.ptr = pre.length)) = warned pw := by
      rw [List.filter_eq_self]
      intro w hw
      simp only [decide_eq_true_eq]
      exact h6 w hw
    rw [hA, hB, hS, List.nil_append, List.append_nil, h5]
    rw [if_pos ⟨rfl, hk⟩]
  · -- the emitted lines
    refine mergeLoop_erase e _ _ _ _ _ _ out out' ?_ ho ho'
    rw [hall, hall]
    dsimp only
    rw [List.map_append, List.map_append, List.map_cons, List.map_cons, hrefill', hrefill]

theorem leading_unparsed_lines_skipped_witness :
    threeJunk ≠ [] ∧
    FitsBuffer (threeJunk ++ ["2020-10-05 10:00:00 a4"]) ∧
    ∃ out out' sk,
      cmain (demoEnv 0) ([⟨"B", ["2020-10-05 10:00:01 b1"]⟩] ++
        ⟨"A", threeJunk ++ "2020-10-05 10:00:00 a4" :: ["more"]⟩ :: []) = some out ∧
      cmain (demoEnv 0) ([⟨"B", ["2020-10-05 10:00:01 b1"]⟩] ++
        ⟨"A", "2020-10-05 10:00:00 a4" :: ["more"]⟩ :: []) = some out' ∧
      ((warned out).filter (fun w => decide (w.scanner.ptr =
        [(⟨"B", ["2020-10-05 10:00:01 b1"]⟩ : LogFile)].length))).length = 1 ∧
      (emitted out).map erase = (emitted out').map erase ∧
      (refill (effective (demoEnv 0)) [(⟨"B", ["2020-10-05 10:00:01 b1"]⟩ : LogFile)].length
        (initState (effective (demoEnv 0)) [(⟨"B", ["2020-10-05 10:00:01 b1"]⟩ : LogFile)].length
          ⟨"A", threeJunk ++ "2020-10-05 10:00:00 a4" :: ["more"]⟩)).1 =
        (lineloop (effective (demoEnv 0)) [(⟨"B", ["2020-10-05 10:00:01 b1"]⟩ : LogFile)].length
          sk ("2020-10-05 10:00:00 a4" :: scanTokens ["more"])).1 ∧
      sk.reIdx = -1 ∧
      (classify (effective (demoEnv 0)) [(⟨"B", ["2020-10-05 10:00:01 b1"]⟩ : LogFile)].length
        (readLine sk "2020-10-05 10:00:00 a4" (scanTokens ["more"]))).1.reIdx ≠ -1 :=
  ⟨by decide, threeJunk_fits, leading_unparsed_lines_skipped (demoEnv 0) [⟨"B", ["2020-10-05 10:00:01 b1"]⟩] []
    "A" threeJunk "2020-10-05 10:00:00 a4" ["more"] (by decide)
    (fun l hl m hm hres => by
      have hm' : m = stampRule := by simpa [demoEnv] using hm
      subst hm'
      have hne := (resolve_isSome_iff (demoEnv 0) stampRule l).mp hres
      have hl' : l = "junk 1" ∨ l = "junk 2" ∨ l = "junk 3" := by simpa [threeJunk] using hl
      rcases hl' with rfl | rfl | rfl <;> exact hne (by decide))
    ⟨stampRule, by simp [demoEnv],
      (resolve_isSome_iff (demoEnv 0) stampRule _).mpr (by decide)⟩ threeJunk_fits⟩

/-- The line `overlong` does not fit the buffer of the scanner. -/
theorem overlong_long : ¬ overlong.utf8ByteSize < maxScanTokenSize := by
  have h := byteSize_ge_length (List.replicate 70000 'x')
  rw [List.length_replicate] at h
  have e : overlong.utf8ByteSize = String.utf8ByteSize.go (List.replicate 70000 'x') := rfl
  rw [e]
  unfold maxScanTokenSize
  omega

/-- C10, failing input. One stream whose first line is longer than the buffer of the
scanner and matches no rule, and whose second line matches the rule: `Scan` fails on the
first line, which the code takes for the end of the file before it comes to the
warning, so the run prints no warning and no line, and the second line is never
read. -/
theorem overlong_junk_unwarned :
    overlongJunk = [⟨"A", [overlong, "2020-10-05 10:00:00 a2"]⟩] ∧
    resolve (demoEnv 0) stampRule overlong = none ∧
    resolve (demoEnv 0) stampRule "2020-10-05 10:00:00 a2" =
      some (0, 19, civil 2020 10 5 10 0 0) ∧
    cmain (demoEnv 0) overlongJunk = some [] := by
  refine ⟨rfl, by decide, by decide, ?_⟩
  have hs : scanTokens [overlong, "2020-10-05 10:00:00 a2"] = [] :=
    scanTokens_cons_long _ _ overlong_long
  have hi : initStates (effective (demoEnv 0)) 0 overlongJunk =
      initStates (effective (demoEnv 0)) 0 [⟨"A", []⟩] := by
    show [initState _ 0 ⟨"A", [overlong, "2020-10-05 10:00:00 a2"]⟩] = [initState _ 0 ⟨"A", []⟩]
    unfold initState
    rw [hs]
    rfl
  unfold cmain
  rw [hi]
  decide

/-- A line longer than the buffer of the scanner in the middle of a stream: the line
before it is emitted, the line itself and the line after it are not. -/
theorem overlong_line_ends_stream :
    (cmain (demoEnv 0) overlongMiddle).map view = some [("A", "<T> a1", false)] := by
  have h1 : scanTokens ["2020-10-05 10:00:00 a1", overlong, "2020-10-05 10:00:02 a3"] =
      ["2020-10-05 10:00:00 a1"] := by
    rw [scanTokens_cons_fits _ _ (by decide), scanTokens_cons_long _ _ overlong_long]
  have hi : initStates (effective (demoEnv 0)) 0 overlongMiddle =
      initStates (effective (demoEnv 0)) 0 [⟨"A", ["2020-10-05 10:00:00 a1"]⟩] := by
    show [initState _ 0 ⟨"A", ["2020-10-05 10:00:00 a1", overlong,
      "2020-10-05 10:00:02 a3"]⟩] = [initState _ 0 ⟨"A", ["2020-10-05 10:00:00 a1"]⟩]
    unfold initState
    rw [h1]
    rfl
  unfold cmain
  rw [hi]
  decide

/-- C11, as amended. The merge loop of `cmain` comes to its end, and for every emission
the source label `logFileArg` is the name of the source (the base name, or the full
name under `UseFullname`) exactly when the source changed since the emission before
(`lastFile`, empty before the first emission, differs from the file of the line) and
the emitted line is not a continuation; in every other case the label is the empty
string. Streams A and B that alternate are labelled at every line; a continuation of
stream A right after a line of A has the empty label. -/
theorem label_shown_iff (env : Env) (files : List LogFile) :
    (∃ out, cmain env files = some out ∧
      ∀ pre s arg post, logLines out = pre ++ (s, arg) :: post →
        arg = if lastEmitted "" pre ≠ s.filename ∧ s.continuation = false
          then sourceName env s else "") ∧
    (cmain (demoEnv 0) scenarioAB).map labels =
      some [("A", false, "A"), ("B", false, "B"), ("A", false, "A")] ∧
    (cmain (demoEnv 0) regressionAB).map labels =
      some [("A", false, "A"), ("A", true, ""), ("B", false, "B")] := by
  refine ⟨?_, by decide, by decide⟩
  obtain ⟨out, ho⟩ := cmain_returns env files
  refine ⟨out, ho, ?_⟩
  intro pre s arg post hl
  rw [← sourceName_effective, ← logFileArg_eq]
  exact mergeLoop_labels (effective env) _ _ _ out ho pre s arg post hl

/-- C11, counterexample. One stream with two lines: the second emission is not a
continuation, and its label is empty because the source did not change, where the
words of the specification show the label. And under a cutoff of the year 0 the second
emission comes from another source than the first, and its label is empty because it
is a continuation. -/
theorem label_hidden_without_change :
    (cmain (demoEnv 0) sameSource).map labels =
      some [("A", false, "A"), ("A", false, "")] ∧
    (cmain (demoEnv 0) sameSource).map (fun out => specLabels (demoEnv 0) "" (logLines out)) =
      some ["A", "A"] ∧
    (cmain (demoEnv yearZeroCutoff) yearZeroCS).map labels =
      some [("S", false, "S"), ("C", true, ""), ("S", true, "")] ∧
    (cmain (demoEnv yearZeroCutoff) yearZeroCS).map
        (fun out => specLabels (demoEnv yearZeroCutoff) "" (logLines out)) =
      some ["S", "C", "S"] := by
  decide

/-- The refill of the stream emitted last, on a line that the bound rule does not
resolve: the line is buffered as a continuation, the stored timestamp is kept and the
text is the line as read. -/
theorem refill_unmatched (env : Env) (h : State) (hl : Live h) (hh : h.haveLine = false)
    (l : String) (rest : List String) (hrest : h.scanner.rest = l :: rest)
    (m : Match) (hm : env.conf[h.reIdx.toNat]? = some m) (hres : resolve env m l = none) :
    (refill env 0 h).1.eof = false ∧ (refill env 0 h).1.haveLine = true ∧
    (refill env 0 h).1.scanner = ⟨h.scanner.ptr, rest⟩ ∧
    (refill env 0 h).1.continuation = true ∧ (refill env 0 h).1.tm = h.tm ∧
    (refill env 0 h).1.line = l ∧ (refill env 0 h).1.reIdx = h.reIdx := by
  rcases refill_live env h hl hh with ⟨a1, -⟩ | ⟨l', rest', a1, a2, a3, a4, a5⟩
  · rw [hrest] at a1; exact absurd a1 (by simp)
  · rw [hrest] at a1
    obtain ⟨rfl, rfl⟩ := List.cons.inj a1
    rw [a2]
    dsimp only
    obtain ⟨f1, -, -, -, -, -⟩ := classify_frame env 0 (readLine h l rest)
    refine ⟨a3.1, a4, f1, ?_⟩
    rcases classify_live env (readLine h l rest) hl.2.2 hl.2.1 with
      ⟨-, c2⟩ | ⟨m', a', b', tm', c1, c2, -, -⟩
    · rw [c2]
      exact ⟨rfl, rfl, rfl, rfl⟩
    · have e1 : env.conf[(readLine h l rest).reIdx.toNat]? = some m := hm
      have e2 : resolve env m (readLine h l rest).line = none := hres
      rw [e1] at c1
      injection c1 with c1
      subst c1
      rw [e2] at c2
      exact absurd c2 (by simp)

/-- The head of a state at the top of the loop that has an established rule is the
stream whose line the pass before emitted. -/
theorem reach_head_emitted (env : Env) (files : List LogFile) (lastFile : String)
    (h : State) (t : List State) (hr : Reach env files lastFile (h :: t))
    (hidx : h.reIdx ≠ -1) :
    ∃ lastFile0 st0 x, Reach env files lastFile0 st0 ∧
      sortSlice less (dropEof (refillAll env 0 st0).1) = x :: t ∧
      h = consume x ∧ lastFile = x.filename := by
  generalize hst : h :: t = st at hr
  cases hr with
  | init =>
    have hf := initStates_fresh env files 0 h (by rw [← hst]; exact List.mem_cons_self _ _)
    exact absurd hf.2.2.2 hidx
  | pass hr0 hs =>
    obtain ⟨rfl, rfl⟩ := List.cons.inj hst
    exact ⟨_, _, _, hr0, hs, rfl, rfl⟩

/-- C12, where the code meets it. With a cutoff not before the zero instant, for every
stream at the head of `state` with an established rule (it is the stream whose line
the pass before emitted) whose next line is not resolved by the bound rule: that line is the very next
emission of the merge loop, it is emitted as a continuation, the stored timestamp is
unchanged and the text is the input line as read, without redaction. A stream with a
line at 12:00:00 followed by a line without timestamp emits the second right after the
first, before the line of another stream at 12:00:00. -/
theorem unmatched_line_continuation (env : Env) (hc : 0 ≤ env.startAfter)
    (files : List LogFile) (lastFile : String) (h : State) (t : List State)
    (hr : Reach env files lastFile (h :: t)) (hidx : h.reIdx ≠ -1)
    (l : String) (rest : List String) (hrest : h.scanner.rest = l :: rest)
    (m : Match) (hm : env.conf[h.reIdx.toNat]? = some m) (hres : resolve env m l = none) :
    (∃ lastFile0 st0 e, Reach env files lastFile0 st0 ∧
      sortSlice less (dropEof (refillAll env 0 st0).1) = e :: t ∧
      h = consume e ∧ lastFile = e.filename) ∧
    (∃ x out o, mergeLoop env (fuelFor (h :: t)) lastFile (h :: t) = some out ∧
      emitted out = x :: o ∧
      x.scanner = ⟨h.scanner.ptr, rest⟩ ∧ x.continuation = true ∧ x.tm = h.tm ∧
      x.line = l ∧ x.reIdx = h.reIdx) ∧
    (cmain (demoEnv 0) unmatchedAB).map (fun out => (view out, stamps out)) =
      some ([("A", "<T> a1", false), ("A", "  at line 7 of a2", true),
             ("B", "<T> b1", false)],
            [("A", civil 2020 10 5 12 0 0), ("A", civil 2020 10 5 12 0 0),
             ("B", civil 2020 10 5 12 0 0)]) := by
  refine ⟨reach_head_emitted env files lastFile h t hr hidx, ?_, by decide⟩
  obtain ⟨lb, htop⟩ := reach_top env hc files lastFile (h :: t) hr
  rcases htop with ⟨hf, -⟩ | ⟨h', t', heq, he, htm, hw⟩
  · exact absurd (hf h (List.mem_cons_self _ _)).2.2.2 hidx
  · obtain ⟨rfl, rfl⟩ := List.cons.inj heq
    obtain ⟨e1, e2, e3, e4, e5⟩ := he
    obtain ⟨r1, r2, r3, r4, r5, r6, r7⟩ := refill_unmatched env h ⟨e2, e3, e4⟩ e1 l rest
      hrest m hm hres
    have hall : (refillAll env 0 (h :: t)).1 = (refill env 0 h).1 :: t := by
      unfold refillAll
      rw [refillAll_of_buffered env t (fun s hs => (hw s hs).1.1)]
    have hdrop : dropEof ((refill env 0 h).1 :: t) = (refill env 0 h).1 :: t :=
      dropEof_of_active _ (fun s hs => by
        rcases List.mem_cons.mp hs with rfl | hs
        · exact r1
        · exact (hw s hs).1.2.1)
    obtain ⟨rest', hsort⟩ := sorted_flagged_head (refill env 0 h).1 t r4
      (fun s hs => ⟨(hw s hs).2, by rw [r5, htm]; exact (hw s hs).1.2.2.2.2⟩)
    obtain ⟨out, ho⟩ := mergeLoop_returns env (fuelFor (h :: t)) lastFile (h :: t)
      (Nat.lt_succ_self _)
    have hsort2 : sortSlice less (dropEof (refillAll env 0 (h :: t)).1) =
        (refill env 0 h).1 :: rest' := by rw [hall, hdrop, hsort]
    obtain ⟨o, -, -, hem⟩ := mergeLoop_pass env _ lastFile (h :: t) out _ rest' hsort2 ho
    exact ⟨(refill env 0 h).1, out, emitted o, ho, hem, r3, r4, r5, r6, r7⟩

theorem unmatched_line_continuation_witness :
    (0 : Int) ≤ (demoEnv 0).startAfter ∧
    (consume unmatchedHead).reIdx ≠ -1 ∧
    (consume unmatchedHead).scanner.rest = ["  at line 7 of a2"] ∧
    resolve (demoEnv 0) stampRule "  at line 7 of a2" = none ∧
    ((∃ lastFile0 st0 e, Reach (demoEnv 0) unmatchedAB lastFile0 st0 ∧
      sortSlice less (dropEof (refillAll (demoEnv 0) 0 st0).1) = e :: unmatchedTail ∧
      consume unmatchedHead = consume e ∧ unmatchedHead.filename = e.filename) ∧
    (∃ x out o, mergeLoop (demoEnv 0) (fuelFor (consume unmatchedHead :: unmatchedTail))
        unmatchedHead.filename (consume unmatchedHead :: unmatchedTail) = some out ∧
      emitted out = x :: o ∧
      x.scanner = ⟨(consume unmatchedHead).scanner.ptr, []⟩ ∧ x.continuation = true ∧
      x.tm = (consume unmatchedHead).tm ∧ x.line = "  at line 7 of a2" ∧
      x.reIdx = (consume unmatchedHead).reIdx) ∧
    (cmain (demoEnv 0) unmatchedAB).map (fun out => (view out, stamps out)) =
      some ([("A", "<T> a1", false), ("A", "  at line 7 of a2", true),
             ("B", "<T> b1", false)],
            [("A", civil 2020 10 5 12 0 0), ("A", civil 2020 10 5 12 0 0),
             ("B", civil 2020 10 5 12 0 0)])) :=
  ⟨by decide, by decide, by decide, by decide,
    unmatched_line_continuation (demoEnv 0) (by decide) unmatchedAB
      unmatchedHead.filename (consume unmatchedHead) unmatchedTail
      (Reach.pass Reach.init (by decide)) (by decide) "  at line 7 of a2" [] (by decide)
      stampRule rfl (by decide)⟩

/-- C12, failing input. With the cutoff at March 1 of year 0 (before the zero
instant), the first line stream C takes is compared with its unset stored timestamp and
flagged as a continuation. Stream S emits its line of 12:00:00, then reads a line that
its rule does not match: the next emission is the pending line of stream C, and the
line of S comes only after it. -/
theorem unmatched_line_interleaved :
    (cmain (demoEnv yearZeroCutoff) yearZeroUnmatched).map view =
      some [("S", "<T> s1", false), ("C", "<T> c1", true),
            ("S", "  at line 7 of s2", true)] := by
  decide

theorem lineloopTrace_cons (env : Env) (si : Nat) (s : State) (l : String)
    (rest : List String) :
    lineloopTrace env si s (l :: rest) =
      if (classify env si (readLine s l rest)).2 = true then
        [classify env si (readLine s l rest)]
      else if (classify env si (readLine s l rest)).1.reIdx = -1 ∧
          (classify env si (readLine s l rest)).1.warnedSkipping = false then
        classify env si (readLine s l rest) ::
          lineloopTrace env si { (classify env si (readLine s l rest)).1 with
            warnedSkipping := true } rest
      else classify env si (readLine s l rest) ::
        lineloopTrace env si (classify env si (readLine s l rest)).1 rest := by
  conv => lhs; unfold lineloopTrace

/-- The record belongs to the `lineloop`: a recorded line with a timestamp is the one
the loop ends with, and the loop has read as many lines as are recorded. -/
theorem lineloop_trace (env : Env) (si : Nat) (rest : List String) :
    ∀ s, (∀ r ∈ lineloopTrace env si s rest, r.2 = true →
        (lineloop env si s rest).1 = r.1) ∧
      (lineloopTrace env si s rest).length + (lineloop env si s rest).1.scanner.rest.length =
        rest.length := by
  induction rest with
  | nil =>
    intro s
    exact ⟨fun r hr => absurd hr (List.not_mem_nil _), rfl⟩
  | cons l rest ih =>
    intro s
    rw [lineloopTrace_cons, lineloop_cons]
    by_cases h1 : (classify env si (readLine s l rest)).2 = true
    · rw [if_pos h1, if_pos h1]
      obtain ⟨f1, -, -, -, -, -⟩ := classify_frame env si (readLine s l rest)
      refine ⟨?_, ?_⟩
      · intro r hr _
        rw [List.mem_singleton] at hr
        rw [hr]
      · dsimp only
        rw [f1]
        show 1 + rest.length = rest.length + 1
        omega
    · rw [if_neg h1, if_neg h1]
      by_cases h2 : (classify env si (readLine s l rest)).1.reIdx = -1 ∧
          (classify env si (readLine s l rest)).1.warnedSkipping = false
      · rw [if_pos h2, if_pos h2]
        obtain ⟨k1, k2⟩ := ih { (classify env si (readLine s l rest)).1 with
          warnedSkipping := true }
        refine ⟨?_, ?_⟩
        · intro r hr hf
          rcases List.mem_cons.mp hr with rfl | hr
          · exact absurd hf h1
          · exact k1 r hr hf
        · dsimp only at k2 ⊢
          rw [List.length_cons, List.length_cons]
          omega
      · rw [if_neg h2, if_neg h2]
        obtain ⟨k1, k2⟩ := ih (classify env si (readLine s l rest)).1
        refine ⟨?_, ?_⟩
        · intro r hr hf
          rcases List.mem_cons.mp hr with rfl | hr
          · exact absurd hf h1
          · exact k1 r hr hf
        · rw [List.length_cons, List.length_cons]
          omega

/-- A line processed without timestamp leaves the cutoff flag as it was. -/
theorem classify_miss (env : Env) (si : Nat) (s : State)
    (h : (classify env si s).2 = false) :
    (classify env si s).1.newEnough = s.newEnough ∧
    ¬ (si = 0 ∧ s.reIdx ≠ -1 ∧ s.newEnough = true) := by
  refine ⟨?_, ?_⟩
  · unfold classify at h ⊢
    split at h
    · rename_i hidx
      rw [if_pos hidx]
      unfold established at h ⊢
      dsimp only at h ⊢
      split at h
      · exact absurd h (by simp)
      · rename_i hn
        rw [if_neg hn]
        rcases matchBound_cases env s with hm | ⟨m, a, b, tm, -, -, -, hm⟩
        · rw [hm]
        · rw [hm] at h
          exact absurd h (by simp)
    · rename_i hidx
      rw [if_neg hidx]
      rcases tryRules_cases env s env.conf 0 with hm | ⟨k, a, b, tm, hm⟩
      · rw [hm]
      · rw [hm] at h ⊢
        obtain ⟨-, -, e3⟩ := bindRule_fields env s (0 + k) a b tm
        rcases e3 with ⟨g1, -, -, -⟩ | ⟨-, -, g3, -⟩
        · rw [g1] at h
          exact absurd h (by simp)
        · exact g3
  · intro hh
    obtain ⟨rfl, hidx, hn⟩ := hh
    rw [(classify_live_fields env s hidx hn).1] at h
    exact absurd h (by simp)

/-- During the first refill of a stream, a line processed without timestamp leaves
the cutoff flag unset. -/
theorem lineloopTrace_seeking (env : Env) (si : Nat) (rest : List String) :
    ∀ s, s.newEnough = false → ∀ r ∈ lineloopTrace env si s rest, r.2 = false →
      r.1.newEnough = false := by
  induction rest with
  | nil => intro s _ r hr; exact absurd hr (List.not_mem_nil _)
  | cons l rest ih =>
    intro s hn r hr hf
    rw [lineloopTrace_cons] at hr
    by_cases h1 : (classify env si (readLine s l rest)).2 = true
    · rw [if_pos h1, List.mem_singleton] at hr
      rw [hr, h1] at hf
      exact absurd hf (by simp)
    · have h1' : (classify env si (readLine s l rest)).2 = false := by simpa using h1
      have hk : (classify env si (readLine s l rest)).1.newEnough = false := by
        rw [(classify_miss env si _ h1').1]
        exact hn
      rw [if_neg h1] at hr
      by_cases h2 : (classify env si (readLine s l rest)).1.reIdx = -1 ∧
          (classify env si (readLine s l rest)).1.warnedSkipping = false
      · rw [if_pos h2] at hr
        rcases List.mem_cons.mp hr with rfl | hr
        · exact hk
        · exact ih { (classify env si (readLine s l rest)).1 with warnedSkipping := true }
            hk r hr hf
      · rw [if_neg h2] at hr
        rcases List.mem_cons.mp hr with rfl | hr
        · exact hk
        · exact ih _ hk r hr hf

/-- The stream emitted last finds a timestamp, its own or the stored one, in the one
line its refill reads. -/
theorem refillTrace_live (env : Env) (h : State) (hl : Live h) :
    ∀ r ∈ refillTrace env 0 h, r.2 = true := by
  intro r hr
  unfold refillTrace at hr
  split at hr
  · cases hrest : h.scanner.rest with
    | nil => rw [hrest] at hr; exact absurd hr (List.not_mem_nil _)
    | cons l rest =>
      rw [hrest, lineloopTrace_cons] at hr
      have hf := (classify_live_fields env (readLine h l rest) hl.2.2 hl.2.1).1
      rw [if_pos hf, List.mem_singleton] at hr
      rw [hr]
      exact hf
  · exact absurd hr (List.not_mem_nil _)

/-- C13, what the code keeps of it. In the refill loop of `cmain`, for every reachable
state and every cutoff: whenever the processing of a newly read line ends without a
timestamp (`foundTimestampInLine` is false), the loop is in its first pass, where no
stream has emitted anything yet, and the stream has not taken a line after the cutoff
(its cutoff flag `newEnough` is unset). Lines are skipped only there; that the stream
has no established rule then is what the code does not keep. -/
theorem skipped_only_in_first_pass (env : Env) (files : List LogFile) (lastFile : String)
    (st : List State) (hr : Reach env files lastFile st) (si : Nat) (s : State)
    (hs : st[si]? = some s) (r : State × Bool) (hmem : r ∈ refillTrace env si s)
    (hmiss : r.2 = false) :
    st = initStates env 0 files ∧ lastFile = "" ∧ Fresh s ∧ r.1.newEnough = false := by
  cases hr with
  | init =>
    have hf := initStates_fresh env files 0 s (List.getElem?_mem hs)
    refine ⟨rfl, rfl, hf, ?_⟩
    unfold refillTrace at hmem
    rw [if_pos ⟨hf.1, hf.2.1⟩] at hmem
    exact lineloopTrace_seeking env si _ s hf.2.2.1.1 r hmem hmiss
  | pass hr0 hsort =>
    rename_i lastFile0 st0 x t
    exfalso
    obtain ⟨hl, -, -⟩ := shape_pass env st0 (reach_shape env files lastFile0 st0 hr0) x t hsort
    cases si with
    | zero =>
      have hs0 : s = consume x := by
        rw [List.getElem?_cons_zero] at hs
        injection hs with hs
        exact hs.symm
      have hl2 : Live (consume x) := hl
      rw [hs0] at hmem
      have := refillTrace_live env (consume x) hl2 r hmem
      rw [this] at hmiss
      exact absurd hmiss (by simp)
    | succ k =>
      rw [List.getElem?_cons_succ] at hs
      have hb := buffered_of_mem_pass env st0 s
        (by rw [hsort]; exact List.mem_cons_of_mem _ (List.getElem?_mem hs))
      unfold refillTrace at hmem
      rw [if_neg (fun hh => by rw [hb.1] at hh; exact absurd hh.1 (by simp))] at hmem
      exact absurd hmem (List.not_mem_nil _)

theorem skipped_only_in_first_pass_witness :
    (initStates (demoEnv noonCutoff) 0 cutoffAB)[1]? = some cutoffB ∧
    cutoffSkipped ∈ refillTrace (demoEnv noonCutoff) 1 cutoffB ∧
    cutoffSkipped.2 = false ∧
    (initStates (demoEnv noonCutoff) 0 cutoffAB = initStates (demoEnv noonCutoff) 0 cutoffAB ∧
      "" = "" ∧ Fresh cutoffB ∧ cutoffSkipped.1.newEnough = false) :=
  ⟨by decide, by decide, by decide,
    skipped_only_in_first_pass (demoEnv noonCutoff) cutoffAB "" _ Reach.init 1 cutoffB
      (by decide) cutoffSkipped (by decide) (by decide)⟩

/-- C13, failing input. Under the cutoff 2020-10-05 12:00:00, in the initial state
(which is reachable), stream B at index 1 reads a line of 10:00:00: its processing ends
without timestamp and with the rule of the stream established (`reIdx` is 0, not -1).
The next line, of 11:00:00, is then processed in the state "rule already established,
stream not at index 0, no timestamp found", and is skipped without warning. -/
theorem skipped_line_established :
    (initStates (demoEnv noonCutoff) 0 cutoffAB)[1]? = some cutoffB ∧
    traceView (refillTrace (demoEnv noonCutoff) 1 cutoffB) =
      [("2020-10-05 10:00:00 old1", 0, false), ("2020-10-05 11:00:00 old2", 0, false),
       ("<T> new", 0, true)] ∧
    (cmain (demoEnv noonCutoff) cutoffAB).map (fun out => (view out, (warned out).length)) =
      some ([("A", "<T> a1", false), ("B", "<T> new", false)], 0) := by
  decide

/-- With a cutoff not before the zero instant, the first refill leaves no stream
continuation-flagged. -/
theorem refillAll_fresh_unflagged (env : Env) (hc : 0 ≤ env.startAfter) (st : List State)
    (hf : ∀ s ∈ st, Fresh s) :
    ∀ c ∈ dropEof (refillAll env 0 st).1, c.continuation = false := by
  intro c hmem
  obtain ⟨h1, h2⟩ := mem_dropEof.mp hmem
  obtain ⟨s, hs, i, rfl⟩ := refillAll_mem env st 0 c h1
  have hfs := hf s hs
  have he : refill env i s = lineloop env i s s.scanner.rest := by
    unfold refill
    rw [if_pos ⟨hfs.1, hfs.2.1⟩]
  rw [he] at h2 ⊢
  rcases lineloop_unset env hc i s.scanner.rest s hfs.2.2.1 with h3 | h3
  · rw [h2] at h3
    exact absurd h3 (by simp)
  · exact h3.2

/-- C14. With a cutoff not before the zero instant (the default cutoff is the zero
instant), at every reorder step of the merge loop only the first of the active streams
can have its continuation flag set, so at most one has. A flagged stream `c` is the
stream whose line was emitted in the pass before, refilled; its stored timestamp is
not later than that of any active stream; the reordering leaves it at the head, and it
is the next line emitted. After the first line of stream A of `regressionAB` was
emitted, A is flagged with the stored timestamp 12:00:00 and stream B is not. -/
theorem flagged_stream_is_head (env : Env) (hc : 0 ≤ env.startAfter)
    (files : List LogFile) (lastFile : String) (st : List State)
    (hr : Reach env files lastFile st) :
    (∀ h t, dropEof (refillAll env 0 st).1 = h :: t → ∀ s ∈ t, s.continuation = false) ∧
    (∀ c ∈ dropEof (refillAll env 0 st).1, c.continuation = true →
      (∃ lastFile0 st0 e t, Reach env files lastFile0 st0 ∧
        sortSlice less (dropEof (refillAll env 0 st0).1) = e :: t ∧
        st = consume e :: t ∧ lastFile = e.filename ∧ c = (refill env 0 (consume e)).1) ∧
      (∀ s ∈ dropEof (refillAll env 0 st).1, c.tm ≤ s.tm) ∧
      (∃ rest, sortSlice less (dropEof (refillAll env 0 st).1) = c :: rest) ∧
      (∃ out o, mergeLoop env (fuelFor st) lastFile st = some out ∧
        emitted out = c :: o)) ∧
    flags (dropEof (refillAll (demoEnv 0) 0 (consume regressionHead :: regressionTail)).1) =
      [("A", true, civil 2020 10 5 12 0 0), ("B", false, civil 2020 10 5 12 0 0)] := by
  obtain ⟨lb, htop⟩ := reach_top env hc files lastFile st hr
  obtain ⟨t1, t2, t3⟩ := top_refill env hc lb st htop
  refine ⟨t3, ?_, by decide⟩
  intro c hmem hflag
  -- the flagged stream is the first of the active ones
  obtain ⟨t, hL⟩ : ∃ t, dropEof (refillAll env 0 st).1 = c :: t := by
    cases hL : dropEof (refillAll env 0 st).1 with
    | nil => rw [hL] at hmem; exact absurd hmem (List.not_mem_nil _)
    | cons h t =>
      rw [hL] at hmem
      rcases List.mem_cons.mp hmem with rfl | hct
      · exact ⟨t, rfl⟩
      · have := t3 h t hL c hct
        rw [hflag] at this
        exact absurd this (by simp)
  have htm : ∀ s ∈ dropEof (refillAll env 0 st).1, c.tm ≤ s.tm := by
    intro s hs
    rw [t2 c hmem hflag]
    exact (t1 s hs).2.2.2.2
  obtain ⟨rest, hsort⟩ := sorted_flagged_head c t hflag
    (fun s hs => ⟨t3 c t hL s hs, htm s (by rw [hL]; exact List.mem_cons_of_mem _ hs)⟩)
  have hsort2 : sortSlice less (dropEof (refillAll env 0 st).1) = c :: rest := by
    rw [hL, hsort]
  obtain ⟨out, ho⟩ := mergeLoop_returns env (fuelFor st) lastFile st (Nat.lt_succ_self _)
  obtain ⟨o, -, -, hem⟩ := mergeLoop_pass env _ lastFile st out c rest hsort2 ho
  refine ⟨?_, htm, ⟨rest, hsort2⟩, ⟨out, emitted o, ho, hem⟩⟩
  -- it is the stream emitted by the pass before
  cases hr with
  | init =>
    have := refillAll_fresh_unflagged env hc _ (initStates_fresh env files 0) c hmem
    rw [hflag] at this
    exact absurd this (by simp)
  | pass hr0 hs0 =>
    rename_i lastFile0 st0 e t0
    refine ⟨lastFile0, st0, e, t0, hr0, hs0, rfl, rfl, ?_⟩
    have hbuf : ∀ s ∈ t0, s.haveLine = true ∧ s.eof = false := fun s hs =>
      buffered_of_mem_pass env st0 s (by rw [hs0]; exact List.mem_cons_of_mem _ hs)
    have hall : (refillAll env 0 (consume e :: t0)).1 = (refill env 0 (consume e)).1 :: t0 := by
      unfold refillAll
      rw [refillAll_of_buffered env t0 (fun s hs => (hbuf s hs).1)]
    rw [hall] at hL
    by_cases he : (refill env 0 (consume e)).1.eof = true
    · exfalso
      rw [dropEof_cons_eof _ _ he, dropEof_of_active t0 (fun s hs => (hbuf s hs).2)] at hL
      -- the streams behind the head are not flagged
      rcases htop with ⟨hf, -⟩ | ⟨h', t', heq, -, -, hw⟩
      · have hfe := (hf (consume e) (List.mem_cons_self _ _)).2.2.2
        have hl := (shape_pass env st0 (reach_shape env files lastFile0 st0 hr0) e t0 hs0).1
        exact hl.2.2 hfe
      · obtain ⟨-, rfl⟩ := List.cons.inj heq
        have := (hw c (by rw [hL]; exact List.mem_cons_self _ _)).2
        rw [hflag] at this
        exact absurd this (by simp)
    · have he' : (refill env 0 (consume e)).1.eof = false := by simpa using he
      rw [dropEof_cons_active _ _ he'] at hL
      exact (List.cons.inj hL).1.symm

theorem flagged_stream_is_head_witness :
    (0 : Int) ≤ (demoEnv 0).startAfter ∧
    regressionFlagged ∈
      dropEof (refillAll (demoEnv 0) 0 (consume regressionHead :: regressionTail)).1 ∧
    regressionFlagged.continuation = true ∧
    ((∀ h t, dropEof (refillAll (demoEnv 0) 0
        (consume regressionHead :: regressionTail)).1 = h :: t →
        ∀ s ∈ t, s.continuation = false) ∧
    (∀ c ∈ dropEof (refillAll (demoEnv 0) 0 (consume regressionHead :: regressionTail)).1,
      c.continuation = true →
      (∃ lastFile0 st0 e t, Reach (demoEnv 0) regressionAB lastFile0 st0 ∧
        sortSlice less (dropEof (refillAll (demoEnv 0) 0 st0).1) = e :: t ∧
        consume regressionHead :: regressionTail = consume e :: t ∧
        regressionHead.filename = e.filename ∧
        c = (refill (demoEnv 0) 0 (consume e)).1) ∧
      (∀ s ∈ dropEof (refillAll (demoEnv 0) 0
        (consume regressionHead :: regressionTail)).1, c.tm ≤ s.tm) ∧
      (∃ rest, sortSlice less (dropEof (refillAll (demoEnv 0) 0
        (consume regressionHead :: regressionTail)).1) = c :: rest) ∧
      (∃ out o, mergeLoop (demoEnv 0) (fuelFor (consume regressionHead :: regressionTail))
          regressionHead.filename (consume regressionHead :: regressionTail) = some out ∧
        emitted out = c :: o)) ∧
    flags (dropEof (refillAll (demoEnv 0) 0 (consume regressionHead :: regressionTail)).1) =
      [("A", true, civil 2020 10 5 12 0 0), ("B", false, civil 2020 10 5 12 0 0)]) :=
  ⟨by decide, by decide, by decide,
    flagged_stream_is_head (demoEnv 0) (by decide) regressionAB regressionHead.filename
      (consume regressionHead :: regressionTail) (Reach.pass Reach.init (by decide))⟩

end Logweaver
